import Mathlib

/-!
Verification of the macro expand/unexpand engine of
`dwh_migration_client/macro_processor_ofr.py`.

Texts are shallowly embedded as `List Char` (`Text`).  Python string
primitives (`str.replace`, `str.count`, `str.strip`, `re` search on an
escaped literal with `IGNORECASE`) are modelled by executable functions
below.  Notes on fidelity:
* case mapping is modelled on ASCII (`Char.toLower`/`Char.toUpper`), which
  matches Python for the ASCII texts the claims are about;
* `int(...)`/`decimal.Decimal(...)` are modelled for plain decimal literals
  (optional sign, digits, optional fractional part); exotic forms accepted
  by Python (underscore separators, exponent notation, `NaN`/`Infinity`,
  non-ASCII digits) are outside the model;
* `str` on a `Decimal` is modelled in fixed-point notation, the regime
  Python uses whenever the adjusted exponent is at least `-6`;
* `datetime.strptime`/`strftime` are modelled after CPython's `_strptime`
  regexes and glibc's `strftime` (where `%Y` is not zero-padded below four
  digits), for exactly the directives used by the source's format list.
-/

abbrev Text := List Char

/-- Python `str.strip()` whitespace set (ASCII part). -/
def isPyWS (c : Char) : Bool := c = ' ' ∨ c = '\t' ∨ c = '\n' ∨ c = '\r' ∨ c = '\x0b' ∨ c = '\x0c'

/-- Python `str.strip()`. -/
def pyStrip (t : Text) : Text := ((t.dropWhile isPyWS).reverse.dropWhile isPyWS).reverse

/-- Lower-case a text character-wise (ASCII). -/
def lowerT (t : Text) : Text := t.map Char.toLower

/-- Upper-case a text character-wise (ASCII). -/
def upperT (t : Text) : Text := t.map Char.toUpper

/-- Boolean list-prefix test (executable). -/
def isPfx : Text → Text → Bool
  | [], _ => true
  | _ :: _, [] => false
  | a :: as, b :: bs => a = b && isPfx as bs

/-- Boolean substring test: some suffix of `s` starts with `pat`. -/
def occursB (pat : Text) : Text → Bool
  | [] => isPfx pat []
  | c :: cs => isPfx pat (c :: cs) || occursB pat cs

/-- `re.search(re.escape pat, s, re.IGNORECASE)` : case-insensitive occurrence. -/
def occursCI (pat s : Text) : Bool := occursB (lowerT pat) (lowerT s)

/-- Worker for Python `str.replace`: `skip` counts characters of an already
matched occurrence still to be discarded. -/
def pyReplaceGo (pat rep : Text) : Nat → Text → Text
  | _, [] => []
  | k + 1, _ :: cs => pyReplaceGo pat rep k cs
  | 0, c :: cs =>
    if isPfx pat (c :: cs) then rep ++ pyReplaceGo pat rep (pat.length - 1) cs
    else c :: pyReplaceGo pat rep 0 cs

/-- Python `str.replace` for a nonempty pattern: leftmost, non-overlapping. -/
def pyReplace (pat rep s : Text) : Text := pyReplaceGo pat rep 0 s

/-- Python `str.replace` including the empty-pattern case. -/
def pyStrReplace (s pat rep : Text) : Text :=
  if pat = [] then rep ++ s.flatMap (fun c => c :: rep) else pyReplace pat rep s

/-- Worker for Python `str.count` (nonempty pattern), same skip discipline. -/
def pyCountGo (pat : Text) : Nat → Text → Nat
  | _, [] => 0
  | k + 1, _ :: cs => pyCountGo pat k cs
  | 0, c :: cs =>
    if isPfx pat (c :: cs) then 1 + pyCountGo pat (pat.length - 1) cs
    else pyCountGo pat 0 cs

/-- Python `str.count`. -/
def pyCount (s pat : Text) : Nat := if pat = [] then s.length + 1 else pyCountGo pat 0 s

/-- ASCII decimal digit test. -/
def isDigitC (c : Char) : Bool := '0' ≤ c ∧ c ≤ '9'

/-- Numeric value of an ASCII digit character. -/
def digitVal (c : Char) : Nat := c.toNat - 48

/-- Value of a big-endian digit string. -/
def digitsVal (ds : Text) : Nat := ds.foldl (fun a c => a * 10 + digitVal c) 0

/-- Digit character of a value below ten. -/
def digitChr (n : Nat) : Char := Char.ofNat (48 + n)

/-- Fuelled canonical decimal rendering of a natural number. -/
def natStrAux : Nat → Nat → Text
  | 0, _ => []
  | fuel + 1, n =>
    if n < 10 then [digitChr n] else natStrAux fuel (n / 10) ++ [digitChr (n % 10)]

/-- Canonical decimal rendering of a natural number (no leading zeros). -/
def natStr (n : Nat) : Text := natStrAux (n + 1) n

/-- Python `str` of an `int`. -/
def pyIntStr (n : Int) : Text := if n < 0 then '-' :: natStr n.natAbs else natStr n.natAbs

/-- A nonempty all-digit string, as a value. -/
def digitsParse (ds : Text) : Option Nat :=
  if ds ≠ [] ∧ ds.all isDigitC then some (digitsVal ds) else none

/-- Python `int(s)` on a plain decimal literal: strip, optional sign, digits. -/
def pyIntParse (t : Text) : Option Int :=
  match pyStrip t with
  | [] => none
  | c :: ds =>
    if c = '+' then (digitsParse ds).map (fun v => (v : Int))
    else if c = '-' then (digitsParse ds).map (fun v => -(v : Int))
    else (digitsParse (c :: ds)).map (fun v => (v : Int))

/-- A finite decimal value: `mant / 10 ^ scale` (the model of `decimal.Decimal`). -/
structure DecVal where
  mant : Int
  scale : Nat
deriving DecidableEq

/-- The unsigned part of a `Decimal` literal: digits, optional point, digits. -/
def decCore (u : Text) : Option DecVal :=
  let ip := u.takeWhile isDigitC
  match u.dropWhile isDigitC with
  | [] => if ip ≠ [] then some ⟨digitsVal ip, 0⟩ else none
  | '.' :: fp =>
      if fp.all isDigitC ∧ (ip ≠ [] ∨ fp ≠ []) then
        some ⟨digitsVal (ip ++ fp), fp.length⟩
      else none
  | _ => none

/-- Python `decimal.Decimal(s)` on a finite fixed-point literal. -/
def pyDecParse (t : Text) : Option DecVal :=
  match pyStrip t with
  | [] => none
  | c :: u =>
    if c = '+' then decCore u
    else if c = '-' then (decCore u).map (fun d => ⟨-d.mant, d.scale⟩)
    else decCore (c :: u)

/-- Rational value denoted by a `DecVal`. -/
def DecVal.val (d : DecVal) : ℚ := (d.mant : ℚ) / (10 : ℚ) ^ d.scale

/-- Comparison of a `DecVal` against an integer (exact, as Python compares). -/
def decLtInt (d : DecVal) (n : Int) : Bool := d.mant < n * (10 : Int) ^ d.scale

/-- Subtracting a natural number from a `Decimal` (exact, scale kept). -/
def decSubNat (d : DecVal) (k : Nat) : DecVal := ⟨d.mant - k * (10 : Int) ^ d.scale, d.scale⟩

/-- Adding a natural number to a `Decimal` (exact, scale kept). -/
def decAddNat (d : DecVal) (k : Nat) : DecVal := ⟨d.mant + k * (10 : Int) ^ d.scale, d.scale⟩

/-- Zero-padding of the digit string to at least `scale + 1` digits. -/
def decPad (ds : Text) (s : Nat) : Text :=
  if ds.length ≤ s then List.replicate (s + 1 - ds.length) '0' ++ ds else ds

/-- Insertion of the decimal point before the last `s` digits. -/
def decBody (ds : Text) (s : Nat) : Text :=
  if s = 0 then ds else ds.take (ds.length - s) ++ '.' :: ds.drop (ds.length - s)

/-- Fixed-point rendering of a `DecVal`, as Python `str` renders a `Decimal`
whose adjusted exponent is at least `-6`. -/
def decRender (d : DecVal) : Text :=
  if d.mant < 0 then '-' :: decBody (decPad (natStr d.mant.natAbs) d.scale) d.scale
  else decBody (decPad (natStr d.mant.natAbs) d.scale) d.scale

/-! ### Dates: `datetime.strptime` / `strftime` for the source's format list -/

/-- A naive `datetime` value. -/
structure PyDate where
  y : Nat
  mo : Nat
  d : Nat
  hh : Nat
  mi : Nat
  ss : Nat
deriving DecidableEq

/-- `strptime`'s starting value (CPython defaults: 1900-01-01 00:00:00). -/
def pyDateDefault : PyDate := ⟨1900, 1, 1, 0, 0, 0⟩

/-- Gregorian leap year. -/
def isLeap (y : Nat) : Bool := (y % 4 = 0 ∧ y % 100 ≠ 0) ∨ y % 400 = 0

/-- Days in a month. -/
def daysInMonth (y mo : Nat) : Nat :=
  if mo = 2 then (if isLeap y then 29 else 28)
  else if mo = 4 ∨ mo = 6 ∨ mo = 9 ∨ mo = 11 then 30
  else 31

/-- The `datetime` constructor's validation (year bounded as in CPython). -/
def validDate (dt : PyDate) : Bool :=
  1 ≤ dt.y ∧ dt.y ≤ 9999 ∧ 1 ≤ dt.mo ∧ dt.mo ≤ 12 ∧ 1 ≤ dt.d ∧ dt.d ≤ daysInMonth dt.y dt.mo
    ∧ dt.hh ≤ 23 ∧ dt.mi ≤ 59 ∧ dt.ss ≤ 59

/-- Format directives occurring in the source's format list. -/
inductive FmtTok where
  | lit (c : Char)
  | dY
  | dy
  | dm
  | dd
  | dH
  | dM
  | dS
deriving DecidableEq

/-- Tokenise a `strptime`/`strftime` format string. -/
def fmtToks : Text → List FmtTok
  | [] => []
  | '%' :: 'Y' :: r => .dY :: fmtToks r
  | '%' :: 'y' :: r => .dy :: fmtToks r
  | '%' :: 'm' :: r => .dm :: fmtToks r
  | '%' :: 'd' :: r => .dd :: fmtToks r
  | '%' :: 'H' :: r => .dH :: fmtToks r
  | '%' :: 'M' :: r => .dM :: fmtToks r
  | '%' :: 'S' :: r => .dS :: fmtToks r
  | c :: r => .lit c :: fmtToks r

/-- Two-digit numeric value. -/
def twoDig (a b : Char) : Nat := digitVal a * 10 + digitVal b

/-- CPython's `%y` century rule: 0–68 map to 2000+, 69–99 to 1900+. -/
def pyY2 (v : Nat) : Nat := if v ≤ 68 then 2000 + v else 1900 + v

/-- `%Y` regex `\d\d\d\d`: exactly four digits. -/
def candY : Text → List (Nat × Text)
  | a :: b :: c :: d :: r =>
    if isDigitC a ∧ isDigitC b ∧ isDigitC c ∧ isDigitC d then [(digitsVal [a, b, c, d], r)] else []
  | _ => []

/-- `%y` regex `\d\d`: exactly two digits, then the century rule. -/
def candy2 : Text → List (Nat × Text)
  | a :: b :: r => if isDigitC a ∧ isDigitC b then [(pyY2 (twoDig a b), r)] else []
  | _ => []

/-- `%m` regex `1[0-2]|0[1-9]|[1-9]`, alternatives in regex order. -/
def candm : Text → List (Nat × Text)
  | [] => []
  | [a] => if '1' ≤ a ∧ a ≤ '9' then [(digitVal a, [])] else []
  | a :: b :: r =>
    (if a = '1' ∧ '0' ≤ b ∧ b ≤ '2' then [(10 + digitVal b, r)] else []) ++
    (if a = '0' ∧ '1' ≤ b ∧ b ≤ '9' then [(digitVal b, r)] else []) ++
    (if '1' ≤ a ∧ a ≤ '9' then [(digitVal a, b :: r)] else [])

/-- `%d` regex `3[01]|[12]\d|0[1-9]|[1-9]`. -/
def candd : Text → List (Nat × Text)
  | [] => []
  | [a] => if '1' ≤ a ∧ a ≤ '9' then [(digitVal a, [])] else []
  | a :: b :: r =>
    (if a = '3' ∧ ('0' ≤ b ∧ b ≤ '1') then [(30 + digitVal b, r)] else []) ++
    (if ('1' ≤ a ∧ a ≤ '2') ∧ isDigitC b then [(twoDig a b, r)] else []) ++
    (if a = '0' ∧ '1' ≤ b ∧ b ≤ '9' then [(digitVal b, r)] else []) ++
    (if '1' ≤ a ∧ a ≤ '9' then [(digitVal a, b :: r)] else [])

/-- `%H` regex `2[0-3]|[0-1]\d|\d`. -/
def candH : Text → List (Nat × Text)
  | [] => []
  | [a] => if isDigitC a then [(digitVal a, [])] else []
  | a :: b :: r =>
    (if a = '2' ∧ ('0' ≤ b ∧ b ≤ '3') then [(20 + digitVal b, r)] else []) ++
    (if ('0' ≤ a ∧ a ≤ '1') ∧ isDigitC b then [(twoDig a b, r)] else []) ++
    (if isDigitC a then [(digitVal a, b :: r)] else [])

/-- `%M` regex `[0-5]\d|\d`. -/
def candM : Text → List (Nat × Text)
  | [] => []
  | [a] => if isDigitC a then [(digitVal a, [])] else []
  | a :: b :: r =>
    (if ('0' ≤ a ∧ a ≤ '5') ∧ isDigitC b then [(twoDig a b, r)] else []) ++
    (if isDigitC a then [(digitVal a, b :: r)] else [])

/-- `%S` regex `6[0-1]|[0-5]\d|\d` (leap seconds pass the regex and are
rejected by the `datetime` constructor afterwards). -/
def candS : Text → List (Nat × Text)
  | [] => []
  | [a] => if isDigitC a then [(digitVal a, [])] else []
  | a :: b :: r =>
    (if a = '6' ∧ ('0' ≤ b ∧ b ≤ '1') then [(60 + digitVal b, r)] else []) ++
    (if ('0' ≤ a ∧ a ≤ '5') ∧ isDigitC b then [(twoDig a b, r)] else []) ++
    (if isDigitC a then [(digitVal a, b :: r)] else [])

/-- Whitespace in a format becomes `\s+` in CPython's `_strptime`: a literal
whitespace character matches a nonempty run, greedily. -/
def wsCands (s : Text) : List Text :=
  let k := (s.takeWhile isPyWS).length
  (List.range k).map (fun i => s.drop (k - i))

/-- Candidate matches (in regex backtracking order) of one directive. -/
def tokCands : FmtTok → Text → List ((PyDate → PyDate) × Text)
  | .lit c, s =>
    if isPyWS c then (wsCands s).map (fun r => (id, r))
    else match s with
      | d :: r => if d = c then [(id, r)] else []
      | [] => []
  | .dY, s => (candY s).map (fun p => (fun dt => { dt with y := p.1 }, p.2))
  | .dy, s => (candy2 s).map (fun p => (fun dt => { dt with y := p.1 }, p.2))
  | .dm, s => (candm s).map (fun p => (fun dt => { dt with mo := p.1 }, p.2))
  | .dd, s => (candd s).map (fun p => (fun dt => { dt with d := p.1 }, p.2))
  | .dH, s => (candH s).map (fun p => (fun dt => { dt with hh := p.1 }, p.2))
  | .dM, s => (candM s).map (fun p => (fun dt => { dt with mi := p.1 }, p.2))
  | .dS, s => (candS s).map (fun p => (fun dt => { dt with ss := p.1 }, p.2))

/-- Depth-first regex matching of a directive sequence: the first full match
in backtracking order, plus the unconsumed remainder. -/
def parseToks : List FmtTok → Text → PyDate → Option (PyDate × Text)
  | [], s, dt => some (dt, s)
  | tok :: ts, s, dt => (tokCands tok s).findSome? (fun p => parseToks ts p.2 (p.1 dt))

/-- `datetime.strptime`: regex match, no unconverted data, then validation. -/
def strptime (s f : Text) : Option PyDate :=
  match parseToks (fmtToks f) s pyDateDefault with
  | some (dt, []) => if validDate dt then some dt else none
  | _ => none

/-- Two-digit zero-padded rendering. -/
def pad2 (n : Nat) : Text := if n < 10 then '0' :: natStr n else natStr n

/-- One directive of `strftime` (glibc: `%Y` is not zero-padded). -/
def strftimeTok (dt : PyDate) : FmtTok → Text
  | .lit c => [c]
  | .dY => natStr dt.y
  | .dy => pad2 (dt.y % 100)
  | .dm => pad2 dt.mo
  | .dd => pad2 dt.d
  | .dH => pad2 dt.hh
  | .dM => pad2 dt.mi
  | .dS => pad2 dt.ss

/-- `datetime.strftime`. -/
def strftime (dt : PyDate) (f : Text) : Text := (fmtToks f).flatMap (strftimeTok dt)

/-- The next calendar day (time fields unchanged). -/
def succDay (dt : PyDate) : PyDate :=
  if dt.d < daysInMonth dt.y dt.mo then { dt with d := dt.d + 1 }
  else if dt.mo < 12 then { dt with mo := dt.mo + 1, d := 1 }
  else { dt with y := dt.y + 1, mo := 1, d := 1 }

/-- The previous calendar day (time fields unchanged). -/
def predDay (dt : PyDate) : PyDate :=
  if 1 < dt.d then { dt with d := dt.d - 1 }
  else if 1 < dt.mo then { dt with mo := dt.mo - 1, d := daysInMonth dt.y (dt.mo - 1) }
  else { dt with y := dt.y - 1, mo := 12, d := 31 }

/-! ### `MacroDef`: type inference and collision perturbation -/

/-- Python `str.startswith` (executable, prefix on the character lists). -/
def strStarts (p t : String) : Bool := isPfx p.toList t.toList

/-- Boolean list-suffix test. -/
def endsWithT (sfx t : Text) : Bool := isPfx sfx.reverse t.reverse

/-- The source's `valid_date_formats` list (with its duplicated first entry). -/
def validDateFormats : List String :=
  ["%Y-%m-%d", "%Y-%m-%d", "%y-%m-%d", "%d/%m/%Y", "%Y/%m/%d", "%Y/%m/%d %H:%M:%S",
    "%Y-%m-%d %H:%M:%S"]

/-- `MacroDef.infer_date_format`, parameterised by the lenient pre-filter
(`dateutil.parser.parse` is an external library; the claims are proved for
every pre-filter).  `none` models the `ValueError` raised by the source. -/
def inferDateFormat (lenient : Text → Bool) (s : Text) : Option String :=
  if lenient s then
    let t := validDateFormats.foldl
      (fun acc f => if (strptime s f.toList).isSome then "datetime:" ++ f else acc) "string"
    if strStarts "datetime:" t then some t else none
  else none

/-- `MacroDef.guess_macro_type` on an untyped macro: integer, then decimal,
then datetime, then the `_MM2_CY2` suffix, else string. -/
def guessType (lenient : Text → Bool) (d : Text) : String :=
  if (pyIntParse d).isSome then "integer"
  else if (pyDecParse d).isSome then "decimal"
  else
    match inferDateFormat lenient d with
    | some t => t
    | none => if endsWithT "_MM2_CY2".toList d then "database" else "string"

/-- A macro definition: declared (stripped) value, inferred type, current
expansion value. -/
structure MacroDef where
  name : String
  expansion_def : Text
  macro_type : String
  expansion : Text
  quote : Bool
deriving DecidableEq

/-- `MacroDef.__init__` as invoked in the repo (no explicit type argument, so
`guess_macro_type` always computes the type). -/
def mkMacroDef (lenient : Text → Bool) (name : String) (raw : Text) : MacroDef :=
  let dfn := pyStrip raw
  { name := name
    expansion_def := dfn
    macro_type := guessType lenient dfn
    expansion := dfn
    quote := isPfx ['\''] dfn && endsWithT ['\''] dfn }

/-- `try_uncollide_int_or_decimal` at an `int` value, with the drawn offset. -/
def tryUncollideIntOrDecimalInt (v : Int) (off : Nat) : Text :=
  if v < 32000 then pyIntStr (v - off) else pyIntStr (v + off)

/-- `try_uncollide_int_or_decimal` at a `Decimal` value, with the drawn offset. -/
def tryUncollideIntOrDecimalDec (v : DecVal) (off : Nat) : Text :=
  if decLtInt v 32000 then decRender (decSubNat v off) else decRender (decAddNat v off)

/-- `try_uncollide_datetime` with the drawn offset.  (In Python a `strptime`
failure would raise; every macro reaching this branch is typed from a
successful parse, so the `none` branch is unreachable there.) -/
def tryUncollideDatetimeFn (s f : Text) (off : Nat) : Text :=
  match strptime s f with
  | some dt => if dt.y = 9999 then strftime (predDay^[off] dt) f else strftime (succDay^[off] dt) f
  | none => s

/-- `curses.ascii.isalnum`: ASCII letters and digits only. -/
def isAlnumA (c : Char) : Bool :=
  ('0' ≤ c ∧ c ≤ '9') ∨ ('a' ≤ c ∧ c ≤ 'z') ∨ ('A' ≤ c ∧ c ≤ 'Z')

/-- Index of the first ASCII-alphanumeric character, if any. -/
def firstAlnumIdx : Text → Option Nat
  | [] => none
  | c :: cs => if isAlnumA c then some 0 else (firstAlnumIdx cs).map (· + 1)

/-- `try_uncollide_string` with the drawn random run (`join` is the empty
string): overwrite `rnd.length` characters at the first alphanumeric
position, or prepend when there is none. -/
def tryUncollideStringFn (v rnd : Text) : Text :=
  match firstAlnumIdx v with
  | some ci => v.take ci ++ rnd ++ v.drop (ci + rnd.length)
  | none => rnd ++ v

/-- A stream of random draws (one natural number per call site). -/
abbrev Rng := Nat → Nat

/-- `random.randint(0, 120)` from the `k`-th draw. -/
def randInt120 (rng : Rng) (k : Nat) : Nat := rng k % 121

/-- `cnt` consecutive `random.choice` draws over a (nonempty) alphabet. -/
def drawChars (alphabet : Text) (rng : Rng) (k cnt : Nat) : Text :=
  (List.range cnt).map (fun i => alphabet.getD (rng (k + i) % alphabet.length) 'a')

/-- `MacroDef.try_uncollide`: recomputes the expansion from the immutable
`expansion_def` according to the macro's type; returns the updated macro and
the advanced rng cursor.  (The parse failures in the integer/decimal/datetime
branches are unreachable for macros typed by `guess_macro_type`.) -/
def tryUncollide (alphabet : Text) (rng : Rng) (m : MacroDef) (cplx k : Nat) : MacroDef × Nat :=
  let r : Text × Nat :=
    if m.macro_type = "integer" then
      (match pyIntParse m.expansion_def with
        | some v => tryUncollideIntOrDecimalInt v (randInt120 rng k)
        | none => m.expansion_def, k + 1)
    else if m.macro_type = "decimal" then
      (match pyDecParse m.expansion_def with
        | some v => tryUncollideIntOrDecimalDec v (randInt120 rng k)
        | none => m.expansion_def, k + 1)
    else if strStarts "datetime:" m.macro_type then
      (tryUncollideDatetimeFn m.expansion_def (m.macro_type.toList.drop 9) (randInt120 rng k),
        k + 1)
    else if m.macro_type = "string" then
      (tryUncollideStringFn m.expansion_def (drawChars alphabet rng k cplx), k + cplx)
    else (m.expansion_def, k)
  ({ m with expansion := r.1 }, r.2)

/-- Any number of `try_uncollide` calls in sequence (the `cplx` of the `i`-th
call drawn from `cplxSeq`). -/
def iterUncollide (alphabet : Text) (rng : Rng) (cplxSeq : Nat → Nat) :
    Nat → MacroDef × Nat → MacroDef × Nat
  | 0, p => p
  | n + 1, p =>
    let q := iterUncollide alphabet rng cplxSeq n p
    tryUncollide alphabet rng q.1 (cplxSeq n) q.2

/-! ### The reference scanner (`FileExpansioning.unix_var`) -/

/-- `[a-zA-Z_]`. -/
def isNameStart (c : Char) : Bool := ('a' ≤ c ∧ c ≤ 'z') ∨ ('A' ≤ c ∧ c ≤ 'Z') ∨ c = '_'

/-- `[a-zA-Z_0-9]`. -/
def isNameChar (c : Char) : Bool := isNameStart c ∨ isDigitC c

/-- One attempt of the source's regex
`(?<!\\)(\$(?P<vars>[a-zA-Z_]\w*))|(\${(?P<varm>[a-zA-Z_]\w*)})`
at the current position.  The negative lookbehind guards only the *bare*
alternative; the braced alternative matches regardless of the preceding
character.  Returns the name, the last consumed character and the rest. -/
def matchVarAt (prev : Option Char) : Text → Option (String × Char × Text)
  | '$' :: rest =>
    (if prev ≠ some '\\' then
      match rest with
      | c :: cs =>
        if isNameStart c then
          let nm := c :: cs.takeWhile isNameChar
          some (String.mk nm, nm.getLastD c, cs.dropWhile isNameChar)
        else none
      | [] => none
    else none)
    <|>
    (match rest with
      | '{' :: c :: cs =>
        if isNameStart c then
          match cs.dropWhile isNameChar with
          | '}' :: r => some (String.mk (c :: cs.takeWhile isNameChar), '}', r)
          | _ => none
        else none
      | _ => none)
  | _ => none

/-- `finditer`: scan left to right, non-overlapping (fuelled by text length). -/
def scanRefsGo : Nat → Option Char → Text → List String
  | 0, _, _ => []
  | fuel + 1, prev, s =>
    match s with
    | [] => []
    | c :: cs =>
      match matchVarAt prev s with
      | some (nm, lastC, r) => nm :: scanRefsGo fuel (some lastC) r
      | none => scanRefsGo fuel (some c) cs

/-- All reference names of a text, in match order. -/
def scanRefs (t : Text) : List String := scanRefsGo t.length none t

/-- Add one occurrence to an insertion-ordered name/count table. -/
def bumpCount (nm : String) : List (String × Nat) → List (String × Nat)
  | [] => [(nm, 1)]
  | (a, c) :: t => if a = nm then (a, c + 1) :: t else (a, c) :: bumpCount nm t

/-- `FileExpansioning._used_macros`: counts per name (dict insertion order),
with the reserved names `HEADER` and `Workfile` removed. -/
def usedMacros (t : Text) : List (String × Nat) :=
  (((scanRefs t).foldl (fun acc nm => bumpCount nm acc) []).filter
      (fun p => p.1 ≠ "HEADER")).filter (fun p => p.1 ≠ "Workfile")

/-! ### The expansion engine (`OfrMapBasedExpander.expand`) -/

/-- The per-file macro map keyed, as in the YAML, by the literal `${NAME}`. -/
abbrev Catalog := List (String × Text)

/-- The `${NAME}` key of a macro name. -/
def catKey (nm : String) : String := "$\x7b" ++ nm ++ "\x7d"

/-- Dict lookup. -/
def lookupCat (cat : Catalog) (key : String) : Option Text :=
  (cat.find? (fun p => p.1 = key)).map (·.2)

/-- Dict insertion of a fresh key (appends, preserving insertion order). -/
def insertCat (cat : Catalog) (key : String) (v : Text) : Catalog := cat ++ [(key, v)]

/-- The braced reference `${NAME}` as text. -/
def braceRefT (nm : String) : Text := '$' :: '{' :: nm.toList ++ ['}']

/-- The bare reference `$NAME` as text. -/
def bareRefT (nm : String) : Text := '$' :: nm.toList

/-- The output placeholder `{NAME}` as text. -/
def braceNmT (nm : String) : Text := '{' :: nm.toList ++ ['}']

/-- A single quote as text. -/
def sqT : Text := ['\'']

/-- Fallback value for a macro missing from the configuration. -/
def fallbackVal (alphabet : Text) (rng : Rng) (k : Nat) (nm : String) : Text × Nat :=
  if nm = "KNB_BATCH_DATE" then ("2021-01-02 11:22:33".toList, k)
  else if nm = "KNB_BATCH_NAME" then (drawChars alphabet rng k 8, k + 8)
  else (drawChars alphabet rng k 1, k + 1)

/-- Python `str` of a list of names: `['A', 'B']`. -/
def pyReprList (l : List String) : Text :=
  '[' :: (List.intercalate ", ".toList (l.map (fun s => sqT ++ s.toList ++ sqT))) ++ [']']

/-- The `macro not defined` diagnostic line. -/
def msgNotDefined (nm : String) (rnd : Text) : Text :=
  "macro not defined: ".toList ++ nm.toList ++ " use random string ".toList ++ rnd

/-- The `macro database collide` diagnostic line. -/
def msgDbCollide (nm : String) (mexp : Text) (obs : List String) : Text :=
  "macro database collide: ".toList ++ nm.toList ++ " value ".toList ++ mexp
    ++ " collide with ".toList ++ pyReprList obs

/-- The `macro collide` diagnostic line. -/
def msgCollide (nm : String) (mexp : Text) : Text :=
  "macro collide: ".toList ++ nm.toList ++ " value ".toList ++ mexp

/-- The `database`-typed macros of the same file sharing this macro's value
(the "obscured" audit of the database branch). -/
def obscuredList (lenient : Text → Bool) (gmap : Catalog) (used : List (String × Nat))
    (self : String) (mexp : Text) : List String :=
  used.filterMap (fun p =>
    if p.1 = self then none
    else
      match lookupCat gmap (catKey p.1) with
      | some raw =>
        let d := mkMacroDef lenient p.1 raw
        if d.macro_type = "database" ∧ mexp = d.expansion then some p.1 else none
      | none => none)

/-- Python `round` on an exact fraction `n / d` (banker's rounding; the
source's operands `nb_try/10` and `nb_try/5` carry no float error on ties). -/
def pyRoundDiv (n d : Nat) : Nat :=
  let q := n / d
  let r := n % d
  if 2 * r > d then q + 1 else if 2 * r < d then q else if q % 2 = 1 then q + 1 else q

/-- `cplx = nb_try/10 if nb_try < 50 else nb_try/5`, then `round(cplx) + 1`. -/
def cplxOf (nbTry : Nat) : Nat :=
  (if nbTry < 50 then pyRoundDiv nbTry 10 else pyRoundDiv nbTry 5) + 1

/-- The collision-resolution `while` loop (`try_accept` is constantly `True`
in the source, so the `or not try_accept` disjunct never fires).  Fuelled;
the loop provably exits within 101 iterations, so any fuel ≥ 101 realises
the Python loop.  Returns the macro, the final `nb_try` and the rng cursor. -/
def collideLoop (alphabet : Text) (rng : Rng) (text : Text) :
    Nat → Nat → MacroDef → Nat → MacroDef × Nat × Nat
  | 0, nbTry, m, k => (m, nbTry, k)
  | fuel + 1, nbTry, m, k =>
    if occursCI m.expansion text then
      let nbTry' := nbTry + 1
      if m.macro_type = "database" ∨ nbTry' > 100 then (m, nbTry', k)
      else
        let p := tryUncollide alphabet rng m (cplxOf nbTry') k
        collideLoop alphabet rng text fuel nbTry' p.1 p.2
    else (m, nbTry, k)

/-- Expansion state threaded through the per-macro loop.  (The source's
`stats_statement` bookkeeping and logging are not modelled: they do not feed
back into the produced text or diagnostics relevant to the claims.) -/
structure ExpandSt where
  gmap : Catalog
  text : Text
  problems : List Text
  usedDefs : List MacroDef
  k : Nat

/-- The body of `expand`'s `for _macro_file_expa in sorted(...)` loop for one
macro name. -/
def procOneMac (alphabet : Text) (rng : Rng) (lenient : Text → Bool)
    (used : List (String × Nat)) (nm : String) (st : ExpandSt) : ExpandSt :=
  let fb :=
    match lookupCat st.gmap (catKey nm) with
    | some _ => (st.gmap, st.problems, st.k)
    | none =>
      let rv := fallbackVal alphabet rng st.k nm
      (insertCat st.gmap (catKey nm) rv.1, st.problems ++ [msgNotDefined nm rv.1], rv.2)
  let gmap := fb.1
  let macrod := mkMacroDef lenient nm ((lookupCat gmap (catKey nm)).getD [])
  let loopRes := collideLoop alphabet rng st.text 102 0 macrod fb.2.2
  let m := loopRes.1
  let problems :=
    if occursCI m.expansion st.text then
      if m.macro_type = "database" then
        fb.2.1 ++ [msgDbCollide nm m.expansion (obscuredList lenient gmap used nm m.expansion)]
      else fb.2.1 ++ [msgCollide nm m.expansion]
    else fb.2.1
  let text := pyStrReplace (pyStrReplace st.text (braceRefT nm) m.expansion) (bareRefT nm) m.expansion
  { gmap := gmap, text := text, problems := problems,
    usedDefs := st.usedDefs ++ [m], k := loopRes.2.2 }

/-- Python string comparison (lexicographic by code point). -/
def textLeB : Text → Text → Bool
  | [], _ => true
  | _ :: _, [] => false
  | a :: as, b :: bs => if a < b then true else if b < a then false else textLeB as bs

/-- Stable insertion into a `le`-ascending list (equal keys keep order). -/
def sortedInsert (le : α → α → Bool) (x : α) : List α → List α
  | [] => [x]
  | y :: ys => if le y x then y :: sortedInsert le x ys else x :: y :: ys

/-- Stable sort (the model of Python's stable `sorted`). -/
def stableSort (le : α → α → Bool) (l : List α) : List α :=
  l.foldl (fun acc x => sortedInsert le x acc) []

/-- `OfrMapBasedExpander.expand` over a file text: the sorted per-macro loop.
Returns the final state; its `text` is the expanded file. -/
def expandRun (alphabet : Text) (rng : Rng) (lenient : Text → Bool) (cat : Catalog)
    (text : Text) : ExpandSt :=
  let used := usedMacros text
  let names := stableSort (fun a b => textLeB a.toList b.toList) (used.map Prod.fst)
  names.foldl (fun st nm => procOneMac alphabet rng lenient used nm st)
    ⟨cat, text, [], [], 0⟩

/-! ### The unexpansion engine (`OfrMapBasedExpander.unexpand`) -/

/-- First match of the quote-tolerant pattern `'<value> *'` (value compared
case-insensitively, the quotes and spaces literally, `*` greedy): the total
match length, if it matches at the head of `s`. -/
def tryQuoteMatch (v s : Text) : Option Nat :=
  match s with
  | '\'' :: rest =>
    if isPfx (lowerT v) (lowerT rest) then
      let after := rest.drop v.length
      let sp := (after.takeWhile (fun c => c = ' ')).length
      match after.drop sp with
      | '\'' :: _ => some (1 + v.length + sp + 1)
      | _ => none
    else none
  | _ => none

/-- `re.sub` for the quote-tolerant pattern: leftmost, non-overlapping. -/
def quoteSubGo (v rep : Text) : Nat → Text → Text
  | _, [] => []
  | k + 1, _ :: cs => quoteSubGo v rep k cs
  | 0, c :: cs =>
    match tryQuoteMatch v (c :: cs) with
    | some len => rep ++ quoteSubGo v rep (len - 1) cs
    | none => c :: quoteSubGo v rep 0 cs

/-- `re.sub(r"'" + re.escape(v) + r" *'", "'{name}'", s, flags=IGNORECASE)`. -/
def quoteSub (v rep s : Text) : Text := quoteSubGo v rep 0 s

/-- `expansion.replace("','", "', '")`. -/
def commaVariant (v : Text) : Text := pyStrReplace v "','".toList "', '".toList

/-- The per-macro replacement cascade of `unexpand`. -/
def unexOneMac (t : Text) (m : MacroDef) : Text :=
  let ph := braceNmT m.name
  let t := quoteSub m.expansion (sqT ++ ph ++ sqT) t
  let t := pyStrReplace t m.expansion ph
  let t := pyStrReplace t (lowerT m.expansion) ph
  let t := pyStrReplace t (upperT m.expansion) ph
  if occursB "','".toList m.expansion then pyStrReplace t (commaVariant m.expansion) ph else t

/-- The text-restoration part of `unexpand` (everything before the header is
prepended): longest-value-first stable order, the replacement cascade, then
stripping the `__DEFAULT_DATABASE__.` marker. -/
def unexpandBody (defs : List MacroDef) (translated : Text) : Text :=
  let ordered := stableSort (fun a b => decide (b.expansion.length ≤ a.expansion.length)) defs
  let t := ordered.foldl unexOneMac translated
  pyStrReplace t "__DEFAULT_DATABASE__.".toList []

/-- One macro's recovery-audit lines (the `check macro count on output` loop;
the global `MACRO_STATS`/`CHAR_TOP` bookkeeping has no effect on the output
and is not modelled). -/
def auditOneMac (md : MacroDef) (cnt outCnt : Nat) : List Text :=
  if outCnt < cnt then
    if md.macro_type = "database" then
      ["-- macro processor_ofr warning: sorry i".toList ++ sqT ++ "m lost macro ".toList
        ++ md.name.toList ++ " should get ".toList ++ natStr cnt
        ++ " used but output ".toList ++ natStr outCnt
        ++ " maybe ok because link to collect stats ".toList]
    else
      ["-- macro processor_ofr error: sorry i".toList ++ sqT ++ "m lost macro ".toList
        ++ md.name.toList ++ " should get ".toList ++ natStr cnt
        ++ " used but output ".toList ++ natStr outCnt
        ++ " translate expansion ".toList ++ md.expansion]
  else if outCnt > cnt then
    ["-- macro processor_ofr warning: macro ".toList ++ md.name.toList
      ++ " should get ".toList ++ natStr cnt ++ " used but output ".toList
      ++ natStr outCnt ++ " maybe ok".toList]
  else []

/-- All audit lines, in `used_macro` order.  (A name missing from
`macros_used_def` would be a `KeyError` in Python; every used name is
processed by `expand`, so the `none` branch is unreachable.) -/
def auditAll (defs : List MacroDef) (used : List (String × Nat)) (body : Text) : List Text :=
  used.flatMap (fun p =>
    match defs.find? (fun d => d.name = p.1) with
    | some md => auditOneMac md p.2 (pyCount body (braceNmT p.1))
    | none => [])

/-- `unexpand`: restored body prefixed by the diagnostic header.  `now` is
the `datetime.now().isoformat()` timestamp.  (The `insert`-statement
statistics warning is not modelled, matching the unmodelled statistics.) -/
def unexpandRun (st : ExpandSt) (used : List (String × Nat)) (now : Text)
    (translated : Text) : Text :=
  let body := unexpandBody st.usedDefs translated
  let pbs := auditAll st.usedDefs used body
  let pbs := pbs ++ st.problems.map (fun m => "-- macro processor_ofr warning: ".toList ++ m)
  let namesSorted := stableSort (fun a b => textLeB a.toList b.toList) (st.usedDefs.map (·.name))
  let uvars := List.intercalate ", ".toList (namesSorted.map (fun m => '"' :: m.toList ++ ['"']))
  let headerTop := "-- generated by macro processor_ofr at ".toList ++ now
    ++ "\n-- USED_VARS = [".toList ++ uvars ++ "]\n\n".toList
  headerTop ++ List.intercalate "\n".toList pbs ++ "\n\n".toList ++ body

/-! ### C1: segment decomposition of an input text -/

/-- A file text cut into literal characters and placeholder references. -/
inductive Seg where
  | lit (c : Char)
  | braced (nm : String)
  | bare (nm : String)
deriving DecidableEq

/-- The concrete text of one segment. -/
def segText : Seg → Text
  | .lit c => [c]
  | .braced nm => braceRefT nm
  | .bare nm => bareRefT nm

/-- The input text of a segment list. -/
def renderSegs (l : List Seg) : Text := l.flatMap segText

/-- The normalised form: every reference becomes `{NAME}`. -/
def segNormText : Seg → Text
  | .lit c => [c]
  | .braced nm => braceNmT nm
  | .bare nm => braceNmT nm

/-- The normalised text of a segment list. -/
def normSegs (l : List Seg) : Text := l.flatMap segNormText

/-- The referenced name of a segment, if any. -/
def segName : Seg → Option String
  | .lit _ => none
  | .braced nm => some nm
  | .bare nm => some nm

/-- All referenced names, in order, with repetitions. -/
def refNames (l : List Seg) : List String := l.filterMap segName

/-- The (stripped) configured value of a macro name. -/
def segVal (cat : Catalog) (nm : String) : Text :=
  pyStrip ((lookupCat cat (catKey nm)).getD [])

/-- The text during `expand`: names in `done` already replaced by values. -/
def segExp (cat : Catalog) (done : List String) : Seg → Text
  | .lit c => [c]
  | .braced nm => if nm ∈ done then segVal cat nm else braceRefT nm
  | .bare nm => if nm ∈ done then segVal cat nm else bareRefT nm

/-- Flattened mid-`expand` text. -/
def expSegs (cat : Catalog) (done : List String) (l : List Seg) : Text :=
  l.flatMap (segExp cat done)

/-- The text between the braced and the bare replacement of `cur`. -/
def segExpB (cat : Catalog) (done : List String) (cur : String) : Seg → Text
  | .lit c => [c]
  | .braced nm => if nm ∈ done ∨ nm = cur then segVal cat nm else braceRefT nm
  | .bare nm => if nm ∈ done then segVal cat nm else bareRefT nm

/-- Flattened text with `cur`'s braced references already replaced. -/
def expSegsB (cat : Catalog) (done : List String) (cur : String) (l : List Seg) : Text :=
  l.flatMap (segExpB cat done cur)

/-- The text during `unexpand`: names in `still` still hold their values,
the others are already back to `\x7bNAME\x7d` placeholders. -/
def segUnex (cat : Catalog) (still : List String) : Seg → Text
  | .lit c => [c]
  | .braced nm => if nm ∈ still then segVal cat nm else braceNmT nm
  | .bare nm => if nm ∈ still then segVal cat nm else braceNmT nm

/-- Flattened mid-`unexpand` text. -/
def unexSegs (cat : Catalog) (still : List String) (l : List Seg) : Text :=
  l.flatMap (segUnex cat still)

/-- Characters allowed as literals in a round-trip-safe text: not
alphanumeric and none of the engine's special characters. -/
def litOkC (c : Char) : Bool :=
  !isAlnumA c && c ≠ '$' && c ≠ '\\' && c ≠ '\'' && c ≠ '_'

/-- Segment-level literal check. -/
def segLitOk : Seg → Bool
  | .lit c => litOkC c
  | _ => true

/-- No two consecutive reference segments. -/
def noAdjacentRefs : List Seg → Bool
  | a :: b :: t => ((segName a).isNone || (segName b).isNone) && noAdjacentRefs (b :: t)
  | _ => true

/-- A usable macro name: regex-matchable and not reserved. -/
def nameOk (nm : String) : Bool :=
  match nm.toList with
  | [] => false
  | c :: cs => isNameStart c && cs.all isNameChar && nm ≠ "HEADER" && nm ≠ "Workfile"

/-- A usable macro value: configured, nonempty and purely alphanumeric. -/
def valOk (cat : Catalog) (nm : String) : Bool :=
  (lookupCat cat (catKey nm)).isSome && !(segVal cat nm).isEmpty
    && (segVal cat nm).all isAlnumA

/-- The hypotheses of the amended round-trip claim, decidably checkable:
sane literals, separated references, usable names and values, values that
collide neither with the normalised text nor with each other (checked
case-insensitively), no name a prefix of another (bare-reference aliasing),
and no occurrence of the `__DEFAULT_DATABASE__.` marker. -/
def roundTripSafe (cat : Catalog) (segs : List Seg) : Bool :=
  let ns := refNames segs
  segs.all segLitOk && noAdjacentRefs segs
    && ns.all (fun nm => nameOk nm && valOk cat nm
      && !occursB (lowerT (segVal cat nm)) (lowerT (normSegs segs))
      && ns.all (fun nm2 => nm = nm2
        || (!isPfx nm.toList nm2.toList
            && !occursB (lowerT (segVal cat nm)) (lowerT (segVal cat nm2)))))
    && !occursB "__DEFAULT_DATABASE__.".toList (normSegs segs)

/-! ### Calendar measures used to bound day iteration -/

/-- Days before the first of month `mo` (months `1..mo-1`) in year `y`. -/
def dbm (y : Nat) : Nat → Nat
  | 0 => 0
  | mo + 1 => if mo = 0 then 0 else dbm y mo + daysInMonth y mo

/-- One-based ordinal of a date within its year. -/
def doy (dt : PyDate) : Nat := dbm dt.y dt.mo + dt.d

/-- Length of year `y`. -/
def daysInYear (y : Nat) : Nat := dbm y 13

/-! ### Helper lemmas: decimal digits and renderings -/

theorem natStrAux_indep : ∀ (n f g : Nat), n < f → n < g → natStrAux f n = natStrAux g n := by
  intro n
  induction n using Nat.strong_induction_on with
  | _ n ih =>
    intro f g hf hg
    match f, g with
    | f + 1, g + 1 =>
      simp only [natStrAux]
      by_cases h : n < 10
      · simp [h]
      · have hn : 0 < n := by omega
        have hdiv : n / 10 < n := Nat.div_lt_self hn (by omega)
        simp only [h, if_false]
        rw [ih (n / 10) hdiv f g (by omega) (by omega)]

theorem natStr_unfold (n : Nat) :
    natStr n = if n < 10 then [digitChr n] else natStr (n / 10) ++ [digitChr (n % 10)] := by
  have base : natStrAux (n + 1) n
      = if n < 10 then [digitChr n] else natStrAux n (n / 10) ++ [digitChr (n % 10)] := rfl
  rw [natStr, base]
  by_cases h : n < 10
  · simp [h]
  · have hdiv : n / 10 < n := Nat.div_lt_self (by omega) (by omega)
    simp only [h, if_false]
    rw [natStrAux_indep (n / 10) n (n / 10 + 1) hdiv (by omega)]
    rfl

theorem digitChr_isDigit (n : Nat) (h : n < 10) : isDigitC (digitChr n) = true := by
  interval_cases n <;> decide

theorem digitVal_digitChr (n : Nat) (h : n < 10) : digitVal (digitChr n) = n := by
  interval_cases n <;> decide

theorem natStr_all_digits (n : Nat) : (natStr n).all isDigitC = true := by
  induction n using Nat.strong_induction_on with
  | _ n ih =>
    rw [natStr_unfold]
    by_cases h : n < 10
    · simp [h, digitChr_isDigit n h]
    · have hn : 0 < n := by omega
      have hdiv : n / 10 < n := Nat.div_lt_self hn (by omega)
      simp [h, ih (n / 10) hdiv, digitChr_isDigit (n % 10) (Nat.mod_lt n (by omega))]

theorem natStr_ne_nil (n : Nat) : natStr n ≠ [] := by
  rw [natStr_unfold]
  by_cases h : n < 10 <;> simp [h]

theorem digitsVal_append_one (xs : Text) (c : Char) :
    digitsVal (xs ++ [c]) = digitsVal xs * 10 + digitVal c := by
  simp [digitsVal, List.foldl_append]

theorem digitsVal_natStr (n : Nat) : digitsVal (natStr n) = n := by
  induction n using Nat.strong_induction_on with
  | _ n ih =>
    rw [natStr_unfold]
    by_cases h : n < 10
    · simp [h, digitsVal, digitVal_digitChr n h]
    · have hn : 0 < n := by omega
      have hdiv : n / 10 < n := Nat.div_lt_self hn (by omega)
      simp [h, digitsVal_append_one, ih (n / 10) hdiv,
        digitVal_digitChr (n % 10) (Nat.mod_lt n (by omega))]
      omega

theorem isDigitC_not_ws (c : Char) (h : isDigitC c = true) : isPyWS c = false := by
  by_contra hc
  have hws : isPyWS c = true := by
    cases hx : isPyWS c
    · exact absurd hx hc
    · rfl
  simp only [isPyWS, decide_eq_true_eq] at hws
  rcases hws with h1 | h1 | h1 | h1 | h1 | h1 <;> (subst h1; simp [isDigitC] at h)

theorem dropWhile_eq_self_of (p : Char → Bool) (l : Text) (h : ∀ c ∈ l, p c = false) :
    l.dropWhile p = l := by
  cases l with
  | nil => rfl
  | cons a l => simp [List.dropWhile_cons, h a (by simp)]

theorem pyStrip_no_ws (t : Text) (h : ∀ c ∈ t, isPyWS c = false) : pyStrip t = t := by
  unfold pyStrip
  rw [dropWhile_eq_self_of _ _ h, dropWhile_eq_self_of, List.reverse_reverse]
  intro c hc
  exact h c (List.mem_reverse.mp hc)

theorem natStr_chars (n : Nat) (c : Char) (h : c ∈ natStr n) : isDigitC c = true := by
  have := natStr_all_digits n
  rw [List.all_eq_true] at this
  exact this c h

theorem digitsParse_natStr (v : Nat) : digitsParse (natStr v) = some v := by
  simp [digitsParse, natStr_ne_nil v, natStr_all_digits v, digitsVal_natStr v]

theorem pyIntStr_roundtrip (n : Int) : pyIntParse (pyIntStr n) = some n := by
  unfold pyIntStr pyIntParse
  by_cases h : n < 0
  · simp only [h, if_true]
    have hstrip : pyStrip ('-' :: natStr n.natAbs) = '-' :: natStr n.natAbs := by
      apply pyStrip_no_ws
      intro c hc
      rcases List.mem_cons.mp hc with h1 | h1
      · subst h1; decide
      · exact isDigitC_not_ws c (natStr_chars _ c h1)
    rw [hstrip]
    show (if ('-' : Char) = '+' then (digitsParse (natStr n.natAbs)).map (fun v => (v : Int))
      else if ('-' : Char) = '-' then (digitsParse (natStr n.natAbs)).map (fun v => -(v : Int))
      else (digitsParse ('-' :: natStr n.natAbs)).map (fun v => (v : Int))) = some n
    rw [if_neg (by decide), if_pos rfl, digitsParse_natStr n.natAbs]
    show some (-(n.natAbs : Int)) = some n
    congr 1
    omega
  · simp only [h, if_false]
    have hstrip : pyStrip (natStr n.natAbs) = natStr n.natAbs := by
      apply pyStrip_no_ws
      intro c hc
      exact isDigitC_not_ws c (natStr_chars _ c hc)
    obtain ⟨c, cs, hc⟩ : ∃ c cs, natStr n.natAbs = c :: cs := by
      cases hx : natStr n.natAbs with
      | nil => exact absurd hx (natStr_ne_nil _)
      | cons a l => exact ⟨a, l, rfl⟩
    have hcd : isDigitC c = true := natStr_chars _ c (by rw [hc]; exact List.mem_cons_self _ _)
    have hcp : c ≠ '+' := by intro h1; subst h1; simp [isDigitC] at hcd
    have hcm : c ≠ '-' := by intro h1; subst h1; simp [isDigitC] at hcd
    rw [hstrip, hc]
    have hcore := digitsParse_natStr n.natAbs
    rw [hc] at hcore
    show (if c = '+' then (digitsParse cs).map (fun v => (v : Int))
      else if c = '-' then (digitsParse cs).map (fun v => -(v : Int))
      else (digitsParse (c :: cs)).map (fun v => (v : Int))) = some n
    rw [if_neg hcp, if_neg hcm, hcore]
    show some ((n.natAbs : Int)) = some n
    congr 1
    omega

theorem digitsVal_replicate_zero (k : Nat) (xs : Text) :
    digitsVal (List.replicate k '0' ++ xs) = digitsVal xs := by
  induction k with
  | zero => rfl
  | succ k ih =>
    have : List.replicate (k + 1) '0' ++ xs = '0' :: (List.replicate k '0' ++ xs) := by
      simp [List.replicate_succ]
    rw [this]
    simpa [digitsVal, digitVal] using ih

theorem takeWhile_all_eq_self (p : Char → Bool) (l : Text) (h : ∀ c ∈ l, p c = true) :
    l.takeWhile p = l := by
  induction l with
  | nil => rfl
  | cons a l ih =>
    simp [List.takeWhile_cons, h a (by simp), ih (fun c hc => h c (by simp [hc]))]

theorem dropWhile_all_eq_nil (p : Char → Bool) (l : Text) (h : ∀ c ∈ l, p c = true) :
    l.dropWhile p = [] := by
  induction l with
  | nil => rfl
  | cons a l ih =>
    simp only [List.dropWhile_cons, h a (by simp)]
    exact ih (fun c hc => h c (by simp [hc]))

theorem takeWhile_append_stop (p : Char → Bool) (a b : Text) (x : Char)
    (ha : ∀ c ∈ a, p c = true) (hx : p x = false) :
    (a ++ x :: b).takeWhile p = a ∧ (a ++ x :: b).dropWhile p = x :: b := by
  induction a with
  | nil => simp [List.takeWhile_cons, List.dropWhile_cons, hx]
  | cons c a ih =>
    have hc : p c = true := ha c (by simp)
    have := ih (fun u hu => ha u (by simp [hu]))
    simp [List.takeWhile_cons, List.dropWhile_cons, hc, this.1, this.2]

theorem decCore_digits (ds : Text) (hne : ds ≠ []) (hd : ∀ c ∈ ds, isDigitC c = true) :
    decCore ds = some ⟨(digitsVal ds : Int), 0⟩ := by
  unfold decCore
  rw [takeWhile_all_eq_self isDigitC ds hd, dropWhile_all_eq_nil isDigitC ds hd]
  simp [hne]

theorem decCore_pointed (a b : Text) (hane : a ≠ []) (ha : ∀ c ∈ a, isDigitC c = true)
    (hb : ∀ c ∈ b, isDigitC c = true) :
    decCore (a ++ '.' :: b) = some ⟨(digitsVal (a ++ b) : Int), b.length⟩ := by
  unfold decCore
  have hstop := takeWhile_append_stop isDigitC a b '.' ha (by decide)
  rw [hstop.1, hstop.2]
  have hball : b.all isDigitC = true := List.all_eq_true.mpr (fun c hc => hb c hc)
  simp [hane, hball]

/-- All characters of a padded digit string are digits. -/
theorem decPad_digits (m s : Nat) : ∀ c ∈ decPad (natStr m) s, isDigitC c = true := by
  intro c hc
  unfold decPad at hc
  by_cases h : (natStr m).length ≤ s
  · rw [if_pos h] at hc
    rcases List.mem_append.mp hc with h1 | h1
    · rw [List.eq_of_mem_replicate h1]; decide
    · exact natStr_chars m c h1
  · rw [if_neg h] at hc
    exact natStr_chars m c hc

theorem decPad_len (m s : Nat) : s < (decPad (natStr m) s).length := by
  unfold decPad
  have hne : (natStr m).length ≠ 0 := by
    intro hz
    exact natStr_ne_nil m (List.eq_nil_of_length_eq_zero hz)
  by_cases h : (natStr m).length ≤ s
  · rw [if_pos h, List.length_append, List.length_replicate]
    omega
  · rw [if_neg h]
    omega

theorem decPad_val (m s : Nat) : digitsVal (decPad (natStr m) s) = m := by
  unfold decPad
  by_cases h : (natStr m).length ≤ s
  · rw [if_pos h, digitsVal_replicate_zero, digitsVal_natStr]
  · rw [if_neg h, digitsVal_natStr]

theorem decCore_decBody (ds : Text) (s : Nat) (hlen : s < ds.length)
    (hd : ∀ c ∈ ds, isDigitC c = true) :
    decCore (decBody ds s) = some ⟨(digitsVal ds : Int), s⟩ := by
  by_cases hs : s = 0
  · subst hs
    rw [decBody, if_pos rfl]
    exact decCore_digits ds (by intro hz; rw [hz] at hlen; simp at hlen) hd
  · rw [decBody, if_neg hs]
    have hab : ds.take (ds.length - s) ++ ds.drop (ds.length - s) = ds := List.take_append_drop _ _
    have hane : ds.take (ds.length - s) ≠ [] := by
      intro hz
      have := congrArg List.length hz
      rw [List.length_take] at this
      simp at this
      omega
    have hblen : (ds.drop (ds.length - s)).length = s := by
      rw [List.length_drop]
      omega
    have hcore := decCore_pointed (ds.take (ds.length - s)) (ds.drop (ds.length - s)) hane
      (fun c hc => hd c (List.take_subset _ _ hc)) (fun c hc => hd c (List.drop_subset _ _ hc))
    rw [hab, hblen] at hcore
    exact hcore

theorem decRender_roundtrip (d : DecVal) : pyDecParse (decRender d) = some d := by
  obtain ⟨m, s⟩ := d
  have hdig := decPad_digits m.natAbs s
  have hlen := decPad_len m.natAbs s
  have hcore := decCore_decBody (decPad (natStr m.natAbs) s) s hlen hdig
  rw [decPad_val] at hcore
  have hbody_chars : ∀ c ∈ decBody (decPad (natStr m.natAbs) s) s, isPyWS c = false := by
    intro c hc
    rw [decBody] at hc
    by_cases hs : s = 0
    · rw [if_pos hs] at hc
      exact isDigitC_not_ws c (hdig c hc)
    · rw [if_neg hs] at hc
      rcases List.mem_append.mp hc with h1 | h1
      · exact isDigitC_not_ws c (hdig c (List.take_subset _ _ h1))
      rcases List.mem_cons.mp h1 with h2 | h2
      · subst h2; decide
      · exact isDigitC_not_ws c (hdig c (List.drop_subset _ _ h2))
  have hbody_head : ∀ c cs, decBody (decPad (natStr m.natAbs) s) s = c :: cs →
      c ≠ '+' ∧ c ≠ '-' := by
    intro c cs hc
    have hcmem : c ∈ decBody (decPad (natStr m.natAbs) s) s := by
      rw [hc]; exact List.mem_cons_self _ _
    rw [decBody] at hcmem
    have hcd : isDigitC c = true ∨ c = '.' := by
      by_cases hs : s = 0
      · rw [if_pos hs] at hcmem
        exact Or.inl (hdig c hcmem)
      · rw [if_neg hs] at hcmem
        rcases List.mem_append.mp hcmem with h1 | h1
        · exact Or.inl (hdig c (List.take_subset _ _ h1))
        rcases List.mem_cons.mp h1 with h2 | h2
        · exact Or.inr h2
        · exact Or.inl (hdig c (List.drop_subset _ _ h2))
    rcases hcd with h1 | h1
    · constructor
      · intro he; subst he; simp [isDigitC] at h1
      · intro he; subst he; simp [isDigitC] at h1
    · subst h1; exact ⟨by decide, by decide⟩
  by_cases hm : m < 0
  · rw [decRender, if_pos hm]
    unfold pyDecParse
    have hstrip : pyStrip ('-' :: decBody (decPad (natStr m.natAbs) s) s)
        = '-' :: decBody (decPad (natStr m.natAbs) s) s := by
      apply pyStrip_no_ws
      intro c hc
      rcases List.mem_cons.mp hc with h1 | h1
      · subst h1; decide
      · exact hbody_chars c h1
    rw [hstrip]
    show (if ('-' : Char) = '+' then decCore (decBody (decPad (natStr m.natAbs) s) s)
      else if ('-' : Char) = '-' then
        (decCore (decBody (decPad (natStr m.natAbs) s) s)).map (fun d => ⟨-d.mant, d.scale⟩)
      else decCore ('-' :: decBody (decPad (natStr m.natAbs) s) s)) = some ⟨m, s⟩
    rw [if_neg (by decide), if_pos rfl, hcore]
    show some (⟨-(m.natAbs : Int), s⟩ : DecVal) = some ⟨m, s⟩
    have habs : (-(m.natAbs : Int)) = m := by omega
    rw [habs]
  · rw [decRender, if_neg hm]
    unfold pyDecParse
    have hstrip : pyStrip (decBody (decPad (natStr m.natAbs) s) s)
        = decBody (decPad (natStr m.natAbs) s) s := pyStrip_no_ws _ hbody_chars
    obtain ⟨c, cs, hc⟩ : ∃ c cs, decBody (decPad (natStr m.natAbs) s) s = c :: cs := by
      cases hx : decBody (decPad (natStr m.natAbs) s) s with
      | nil =>
        rw [decBody] at hx
        by_cases hs : s = 0
        · rw [if_pos hs] at hx
          have hz := congrArg List.length hx
          rw [List.length_nil] at hz
          omega
        · rw [if_neg hs] at hx
          exact absurd hx (by simp)
      | cons a l => exact ⟨a, l, rfl⟩
    obtain ⟨hcp, hcm⟩ := hbody_head c cs hc
    rw [hstrip, hc]
    rw [hc] at hcore
    show (if c = '+' then decCore cs
      else if c = '-' then (decCore cs).map (fun d => ⟨-d.mant, d.scale⟩)
      else decCore (c :: cs)) = some ⟨m, s⟩
    have habs : ((m.natAbs : Int)) = m := by omega
    rw [if_neg hcp, if_neg hcm, hcore, habs]

theorem val_decSubNat (d : DecVal) (k : Nat) : (decSubNat d k).val = d.val - k := by
  unfold decSubNat DecVal.val
  have h10 : ((10 : ℚ) ^ d.scale) ≠ 0 := by positivity
  push_cast
  field_simp
  ring

theorem val_decAddNat (d : DecVal) (k : Nat) : (decAddNat d k).val = d.val + k := by
  unfold decAddNat DecVal.val
  have h10 : ((10 : ℚ) ^ d.scale) ≠ 0 := by positivity
  push_cast
  field_simp

theorem decLtInt_true_iff (d : DecVal) (n : Int) : decLtInt d n = true ↔ d.val < n := by
  unfold decLtInt DecVal.val
  rw [decide_eq_true_eq, div_lt_iff (by positivity)]
  constructor
  · intro h
    exact_mod_cast h
  · intro h
    exact_mod_cast h

/-! ### C2: perturbation direction for integer/decimal macros -/

/-- C2, counterexample: at declared value `5` (below 32000) with drawn offset
`1`, `try_uncollide_int_or_decimal` returns `"4" = str(5 - 1)`: the step
shifts a small value DOWNWARD, while the claim says small values shift
upward (and large ones downward). -/
theorem C2_counterexample :
    (5 : Int) < 32000 ∧
    tryUncollideIntOrDecimalInt 5 1 = ['4'] ∧
    pyIntParse (tryUncollideIntOrDecimalInt 5 1) = some (5 - 1) ∧
    pyIntParse (tryUncollideIntOrDecimalInt 5 1) ≠ some (5 + 1) := by decide

/-- C2, amended: a single collision-perturbation step changes an integer- or
decimal-typed macro's declared value by exactly the drawn offset (in
`[0,120]`), shifting the value DOWNWARD (subtracting) when it is below 32000
and UPWARD (adding) when it is at least 32000. -/
theorem C2_perturb_direction (v : Int) (d : DecVal) (off : Nat) (hoff : off ≤ 120) :
    (v < 32000 →
      tryUncollideIntOrDecimalInt v off = pyIntStr (v - off) ∧
      pyIntParse (tryUncollideIntOrDecimalInt v off) = some (v - off)) ∧
    (32000 ≤ v →
      tryUncollideIntOrDecimalInt v off = pyIntStr (v + off) ∧
      pyIntParse (tryUncollideIntOrDecimalInt v off) = some (v + off)) ∧
    (d.val < 32000 →
      tryUncollideIntOrDecimalDec d off = decRender (decSubNat d off) ∧
      (pyDecParse (tryUncollideIntOrDecimalDec d off)).map DecVal.val = some (d.val - off)) ∧
    (32000 ≤ d.val →
      tryUncollideIntOrDecimalDec d off = decRender (decAddNat d off) ∧
      (pyDecParse (tryUncollideIntOrDecimalDec d off)).map DecVal.val = some (d.val + off)) := by
  refine ⟨?_, ?_, ?_, ?_⟩
  · intro hv
    rw [tryUncollideIntOrDecimalInt, if_pos hv]
    exact ⟨rfl, pyIntStr_roundtrip (v - off)⟩
  · intro hv
    rw [tryUncollideIntOrDecimalInt, if_neg (by omega)]
    exact ⟨rfl, pyIntStr_roundtrip (v + off)⟩
  · intro hv
    have hlt : decLtInt d 32000 = true := (decLtInt_true_iff d 32000).mpr (by exact_mod_cast hv)
    rw [tryUncollideIntOrDecimalDec, if_pos hlt]
    refine ⟨rfl, ?_⟩
    rw [decRender_roundtrip (decSubNat d off), Option.map_some', val_decSubNat]
  · intro hv
    have hlt : decLtInt d 32000 = false := by
      cases hx : decLtInt d 32000
      · rfl
      · have := (decLtInt_true_iff d 32000).mp hx
        have : d.val < 32000 := by exact_mod_cast this
        linarith
    have hif : tryUncollideIntOrDecimalDec d off = decRender (decAddNat d off) := by
      rw [tryUncollideIntOrDecimalDec, hlt]
      simp
    refine ⟨hif, ?_⟩
    rw [hif, decRender_roundtrip (decAddNat d off), Option.map_some', val_decAddNat]

/-- Witness for C2's amended theorem at concrete inputs. -/
theorem C2_perturb_direction_witness :
    (pyIntParse (tryUncollideIntOrDecimalInt 5 1) = some (5 - 1)) ∧
    (pyIntParse (tryUncollideIntOrDecimalInt 32001 7) = some (32001 + 7)) ∧
    ((pyDecParse (tryUncollideIntOrDecimalDec ⟨52, 1⟩ 3)).map DecVal.val
      = some ((⟨52, 1⟩ : DecVal).val - 3)) := by
  refine ⟨((C2_perturb_direction 5 ⟨52, 1⟩ 1 (by decide)).1 (by decide)).2,
    ((C2_perturb_direction 32001 ⟨52, 1⟩ 7 (by decide)).2.1 (by decide)).2,
    ((C2_perturb_direction 5 ⟨52, 1⟩ 3 (by decide)).2.2.1 ?_).2⟩
  rw [show (⟨52, 1⟩ : DecVal).val = 52 / 10 by rfl]
  norm_num

/-! ### C4/C5: type classification -/

theorem isPfx_append_self (p x : Text) : isPfx p (p ++ x) = true := by
  induction p with
  | nil => rfl
  | cons a as ih => simp [isPfx, ih]

theorem strStarts_datetime_append (fl : String) :
    strStarts "datetime:" ("datetime:" ++ fl) = true := by
  unfold strStarts
  simp only [String.toList, String.data_append]
  exact isPfx_append_self _ _

theorem datetime_append_drop (fl : String) :
    ("datetime:" ++ fl).toList.drop 9 = fl.toList := by
  simp only [String.toList, String.data_append]
  rfl

theorem foldl_lastMatch (p : String → Bool) (fs : List String) :
    ∀ acc : String,
      fs.foldl (fun a f => if p f then "datetime:" ++ f else a) acc
        = ((fs.filter p).getLast?).elim acc (fun fl => "datetime:" ++ fl) := by
  induction fs with
  | nil => intro acc; rfl
  | cons f rest ih =>
    intro acc
    rw [List.foldl_cons]
    by_cases hp : p f = true
    · rw [if_pos hp, ih, List.filter_cons_of_pos hp]
      cases hx : rest.filter p with
      | nil => simp
      | cons g gs =>
        have h1 : (f :: g :: gs).getLast? = (g :: gs).getLast? := List.getLast?_cons_cons
        rw [h1]
        obtain ⟨x, hx2⟩ : ∃ x, (g :: gs).getLast? = some x := by
          have hsome : (g :: gs).getLast?.isSome = true := by
            rw [List.getLast?_isSome]
            simp
          exact Option.isSome_iff_exists.mp hsome
        rw [hx2]
        rfl
    · have hp' : p f = false := by
        cases hx : p f
        · rfl
        · exact absurd hx hp
      rw [if_neg (by simp [hp']), ih, List.filter_cons_of_neg (by simp [hp'])]

theorem inferDateFormat_eq (lenient : Text → Bool) (s : Text) :
    inferDateFormat lenient s =
      if lenient s then
        ((validDateFormats.filter (fun f => (strptime s f.toList).isSome)).getLast?).elim
          none (fun fl => some ("datetime:" ++ fl))
      else none := by
  unfold inferDateFormat
  by_cases hl : lenient s = true
  · rw [if_pos hl, if_pos hl]
    rw [foldl_lastMatch (fun f => (strptime s f.toList).isSome) validDateFormats "string"]
    cases hx : (validDateFormats.filter (fun f => (strptime s f.toList).isSome)).getLast? with
    | none =>
      simp only [Option.elim]
      rw [if_neg (by decide)]
    | some fl =>
      simp only [Option.elim]
      rw [if_pos (strStarts_datetime_append fl)]
  · have hl' : lenient s = false := by
      cases hx : lenient s
      · rfl
      · exact absurd hx hl
    rw [if_neg (by simp [hl']), if_neg (by simp [hl'])]

/-- If the pre-filter fails, `infer_date_format` raises (returns `none`). -/
theorem inferDateFormat_lenient_false (lenient : Text → Bool) (s : Text)
    (h : lenient s = false) : inferDateFormat lenient s = none := by
  rw [inferDateFormat_eq, if_neg (by simp [h])]

/-- C4: classification is a total function with the fixed priority order
(integer, then decimal, then datetime, then the `_MM2_CY2` suffix, else
string); it never fails (the result is always one of the five type shapes);
and the three concrete classifications of the claim hold — all of this for
every lenient pre-filter. -/
theorem C4_classify_priority (lenient : Text → Bool) (s : Text) :
    ((pyIntParse s).isSome = true → guessType lenient s = "integer") ∧
    ((pyIntParse s).isSome = false → (pyDecParse s).isSome = true →
      guessType lenient s = "decimal") ∧
    (∀ t, (pyIntParse s).isSome = false → (pyDecParse s).isSome = false →
      inferDateFormat lenient s = some t → guessType lenient s = t) ∧
    ((pyIntParse s).isSome = false → (pyDecParse s).isSome = false →
      inferDateFormat lenient s = none →
      guessType lenient s
        = (if endsWithT "_MM2_CY2".toList s then "database" else "string")) ∧
    (guessType lenient s = "integer" ∨ guessType lenient s = "decimal" ∨
      strStarts "datetime:" (guessType lenient s) = true ∨
      guessType lenient s = "database" ∨ guessType lenient s = "string") ∧
    guessType lenient "5".toList = "integer" ∧
    guessType lenient "5.0".toList = "decimal" ∧
    guessType lenient "COM_CAP_VM_MM2_CY2".toList = "database" := by
  refine ⟨?_, ?_, ?_, ?_, ?_, ?_, ?_, ?_⟩
  · intro h
    rw [guessType, if_pos h]
  · intro h1 h2
    rw [guessType, if_neg (by simp [h1]), if_pos h2]
  · intro t h1 h2 h3
    rw [guessType, if_neg (by simp [h1]), if_neg (by simp [h2]), h3]
  · intro h1 h2 h3
    rw [guessType, if_neg (by simp [h1]), if_neg (by simp [h2]), h3]
  · rw [guessType]
    by_cases h1 : (pyIntParse s).isSome = true
    · rw [if_pos h1]; exact Or.inl rfl
    rw [if_neg h1]
    by_cases h2 : (pyDecParse s).isSome = true
    · rw [if_pos h2]; exact Or.inr (Or.inl rfl)
    rw [if_neg h2]
    cases hx : inferDateFormat lenient s with
    | some t =>
      rw [inferDateFormat_eq] at hx
      refine Or.inr (Or.inr (Or.inl ?_))
      by_cases hl : lenient s = true
      · rw [if_pos hl] at hx
        cases hy : (validDateFormats.filter (fun f => (strptime s f.toList).isSome)).getLast? with
        | none => rw [hy] at hx; exact absurd hx (by simp [Option.elim])
        | some fl =>
          rw [hy] at hx
          simp only [Option.elim] at hx
          have ht : t = "datetime:" ++ fl := by
            injection hx with h
            exact h.symm
          rw [ht]
          exact strStarts_datetime_append fl
      · have hl' : lenient s = false := by
          cases hz : lenient s
          · rfl
          · exact absurd hz hl
        rw [if_neg (by simp [hl'])] at hx
        exact absurd hx (by simp)
    | none =>
      by_cases h3 : endsWithT "_MM2_CY2".toList s = true
      · rw [if_pos h3]; exact Or.inr (Or.inr (Or.inr (Or.inl rfl)))
      · rw [if_neg h3]; exact Or.inr (Or.inr (Or.inr (Or.inr rfl)))
  · have h1 : (pyIntParse "5".toList).isSome = true := by decide
    rw [guessType, if_pos h1]
  · have h1 : pyIntParse "5.0".toList = none := by decide
    have h2 : (pyDecParse "5.0".toList).isSome = true := by decide
    rw [guessType, if_neg (by rw [h1]; decide), if_pos h2]
  · have h1 : pyIntParse "COM_CAP_VM_MM2_CY2".toList = none := by decide
    have h2 : pyDecParse "COM_CAP_VM_MM2_CY2".toList = none := by decide
    have h3 : (validDateFormats.filter
        (fun f => (strptime "COM_CAP_VM_MM2_CY2".toList f.toList).isSome)) = [] := by decide
    have h4 : inferDateFormat lenient "COM_CAP_VM_MM2_CY2".toList = none := by
      rw [inferDateFormat_eq, h3]
      by_cases hl : lenient "COM_CAP_VM_MM2_CY2".toList = true
      · rw [if_pos hl]; rfl
      · rw [if_neg hl]
    rw [guessType, if_neg (by rw [h1]; decide), if_neg (by rw [h2]; decide), h4,
      if_pos (by decide)]

/-- Witness for C4 at a concrete pre-filter. -/
theorem C4_classify_priority_witness :
    guessType (fun _ => false) "5".toList = "integer" ∧
    guessType (fun _ => false) "5.0".toList = "decimal" ∧
    guessType (fun _ => false) "COM_CAP_VM_MM2_CY2".toList = "database" :=
  ⟨(C4_classify_priority (fun _ => false) []).2.2.2.2.2.1,
    (C4_classify_priority (fun _ => false) []).2.2.2.2.2.2.1,
    (C4_classify_priority (fun _ => false) []).2.2.2.2.2.2.2⟩

/-- C5: when the lenient pre-filter passes and more than one entry of the
ordered format list parses the literal, the inferred type carries the LAST
parsing format (not the first); and when the pre-filter fails,
`infer_date_format` raises with every format skipped, so the literal falls
through to the post-datetime (suffix/string) classification. -/
theorem C5_last_format (lenient : Text → Bool) (s s' : Text) (fl : String)
    (hlast : (validDateFormats.filter (fun f => (strptime s f.toList).isSome)).getLast?
      = some fl)
    (hmulti : 1 < (validDateFormats.filter (fun f => (strptime s f.toList).isSome)).length)
    (hlen : lenient s = true) (hlen' : lenient s' = false) :
    inferDateFormat lenient s = some ("datetime:" ++ fl) ∧
    inferDateFormat lenient s' = none ∧
    ((pyIntParse s').isSome = false → (pyDecParse s').isSome = false →
      guessType lenient s' = (if endsWithT "_MM2_CY2".toList s' then "database" else "string")) := by
  refine ⟨?_, inferDateFormat_lenient_false lenient s' hlen', ?_⟩
  · rw [inferDateFormat_eq, if_pos hlen, hlast]
    rfl
  · intro h1 h2
    rw [guessType, if_neg (by simp [h1]), if_neg (by simp [h2]),
      inferDateFormat_lenient_false lenient s' hlen']

/-- Witness for C5: `"2012-10-18"` parses under both copies of `%Y-%m-%d` in
the format list (two matches), and a pre-filter-rejected literal falls
through to `string`. -/
theorem C5_last_format_witness :
    inferDateFormat (fun t => decide (t = "2012-10-18".toList)) "2012-10-18".toList
      = some ("datetime:" ++ "%Y-%m-%d") ∧
    inferDateFormat (fun t => decide (t = "2012-10-18".toList)) "x".toList = none ∧
    ((pyIntParse "x".toList).isSome = false → (pyDecParse "x".toList).isSome = false →
      guessType (fun t => decide (t = "2012-10-18".toList)) "x".toList
        = (if endsWithT "_MM2_CY2".toList "x".toList then "database" else "string")) :=
  C5_last_format (fun t => decide (t = "2012-10-18".toList)) "2012-10-18".toList "x".toList
    "%Y-%m-%d" (by decide) (by decide) (by decide) (by decide)

/-! ### C6: termination and outcome of the collision-resolution loop -/

theorem tryUncollide_keeps_type (alphabet : Text) (rng : Rng) (m : MacroDef) (cplx k : Nat) :
    (tryUncollide alphabet rng m cplx k).1.macro_type = m.macro_type := rfl

theorem tryUncollide_keeps_def (alphabet : Text) (rng : Rng) (m : MacroDef) (cplx k : Nat) :
    (tryUncollide alphabet rng m cplx k).1.expansion_def = m.expansion_def := rfl

theorem collideLoop_indep (alphabet : Text) (rng : Rng) (text : Text) :
    ∀ (f₁ f₂ nbTry : Nat) (m : MacroDef) (k : Nat),
      101 - nbTry ≤ f₁ → 101 - nbTry ≤ f₂ → 1 ≤ f₁ → 1 ≤ f₂ →
      collideLoop alphabet rng text f₁ nbTry m k
        = collideLoop alphabet rng text f₂ nbTry m k := by
  intro f₁
  induction f₁ with
  | zero => intro f₂ nbTry m k h1 h2 h3 h4; omega
  | succ f ih =>
    intro f₂ nbTry m k h1 h2 h3 h4
    match f₂, h4 with
    | g + 1, _ =>
      simp only [collideLoop]
      by_cases hc : occursCI m.expansion text = true
      · rw [if_pos hc, if_pos hc]
        by_cases hbreak : m.macro_type = "database" ∨ nbTry + 1 > 100
        · rw [if_pos hbreak, if_pos hbreak]
        · rw [if_neg hbreak, if_neg hbreak]
          have hle : nbTry + 1 ≤ 100 := by
            rcases Nat.lt_or_ge 100 (nbTry + 1) with h | h
            · exact absurd (Or.inr h) hbreak
            · exact h
          exact ih g (nbTry + 1) _ _ (by omega) (by omega) (by omega) (by omega)
      · rw [if_neg hc, if_neg hc]

theorem collideLoop_post (alphabet : Text) (rng : Rng) (text : Text) :
    ∀ (fuel nbTry : Nat) (m : MacroDef) (k : Nat),
      1 ≤ fuel → 101 - nbTry ≤ fuel → nbTry ≤ 100 →
      (occursCI (collideLoop alphabet rng text fuel nbTry m k).1.expansion text = false ∨
        (collideLoop alphabet rng text fuel nbTry m k).2.1 > 100 ∨
        m.macro_type = "database") ∧
      (collideLoop alphabet rng text fuel nbTry m k).2.1 ≤ 101 := by
  intro fuel
  induction fuel with
  | zero => intro nbTry m k h1; omega
  | succ f ih =>
    intro nbTry m k h1 h2 h3
    simp only [collideLoop]
    by_cases hc : occursCI m.expansion text = true
    · rw [if_pos hc]
      by_cases hbreak : m.macro_type = "database" ∨ nbTry + 1 > 100
      · rw [if_pos hbreak]
        rcases hbreak with hdb | hn
        · exact ⟨Or.inr (Or.inr hdb), by show nbTry + 1 ≤ 101; omega⟩
        · exact ⟨Or.inr (Or.inl hn), by show nbTry + 1 ≤ 101; omega⟩
      · rw [if_neg hbreak]
        have hle : nbTry + 1 ≤ 100 := by
          rcases Nat.lt_or_ge 100 (nbTry + 1) with h | h
          · exact absurd (Or.inr h) hbreak
          · exact h
        have hih := ih (nbTry + 1)
          (tryUncollide alphabet rng m (cplxOf (nbTry + 1)) k).1
          (tryUncollide alphabet rng m (cplxOf (nbTry + 1)) k).2
          (by omega) (by omega) hle
        refine ⟨?_, hih.2⟩
        rcases hih.1 with h | h | h
        · exact Or.inl h
        · exact Or.inr (Or.inl h)
        · rw [tryUncollide_keeps_type] at h
          exact Or.inr (Or.inr h)
    · rw [if_neg hc]
      refine ⟨Or.inl ?_, by show nbTry ≤ 101; omega⟩
      cases hx : occursCI m.expansion text
      · rfl
      · exact absurd hx hc

/-- C6, counterexample: for a `database`-typed macro whose value occurs in
the context text, the loop halts on its first iteration (`nb_try = 1`, far
below the budget) with a value that still occurs case-insensitively in the
text — the claimed disjunction (value gone, or budget exhausted) fails. -/
theorem C6_counterexample :
    occursCI (collideLoop [] (fun _ => 0) "zzX_MM2_CY2zz".toList 101 0
        (mkMacroDef (fun _ => false) "D" "X_MM2_CY2".toList) 0).1.expansion
      "zzX_MM2_CY2zz".toList = true ∧
    (collideLoop [] (fun _ => 0) "zzX_MM2_CY2zz".toList 101 0
        (mkMacroDef (fun _ => false) "D" "X_MM2_CY2".toList) 0).2.1 = 1 ∧
    (mkMacroDef (fun _ => false) "D" "X_MM2_CY2".toList).macro_type = "database" := by
  decide

/-- C6, amended: for every macro, context text and random stream, the
collision-resolution loop terminates within the attempt budget — any fuel of
at least 101 iterations yields the same result (the loop's `nb_try` never
exceeds 101, i.e. at most 100 perturbation attempts) — and the resulting
value either no longer occurs case-insensitively in the context text, or the
budget was exhausted (`nb_try > 100`), or the macro is `database`-typed
(exempt from perturbation by design, its collision only reported). -/
theorem C6_loop_terminates (alphabet : Text) (rng : Rng) (text : Text) (m : MacroDef)
    (k f : Nat) (hf : 101 ≤ f) :
    collideLoop alphabet rng text f 0 m k = collideLoop alphabet rng text 101 0 m k ∧
    (collideLoop alphabet rng text 101 0 m k).2.1 ≤ 101 ∧
    (occursCI (collideLoop alphabet rng text 101 0 m k).1.expansion text = false ∨
      (collideLoop alphabet rng text 101 0 m k).2.1 > 100 ∨
      m.macro_type = "database") := by
  have hpost := collideLoop_post alphabet rng text 101 0 m k (by omega) (by omega) (by omega)
  exact ⟨collideLoop_indep alphabet rng text f 101 0 m k (by omega) (by omega) (by omega)
    (by omega), hpost.2, hpost.1⟩

/-- Witness for C6's amended theorem at a concrete macro and text. -/
theorem C6_loop_terminates_witness :
    collideLoop [] (fun _ => 0) "zz".toList 120 0
        (mkMacroDef (fun _ => false) "M" "7".toList) 0
      = collideLoop [] (fun _ => 0) "zz".toList 101 0
        (mkMacroDef (fun _ => false) "M" "7".toList) 0 ∧
    (collideLoop [] (fun _ => 0) "zz".toList 101 0
        (mkMacroDef (fun _ => false) "M" "7".toList) 0).2.1 ≤ 101 ∧
    (occursCI (collideLoop [] (fun _ => 0) "zz".toList 101 0
        (mkMacroDef (fun _ => false) "M" "7".toList) 0).1.expansion "zz".toList = false ∨
      (collideLoop [] (fun _ => 0) "zz".toList 101 0
          (mkMacroDef (fun _ => false) "M" "7".toList) 0).2.1 > 100 ∨
      (mkMacroDef (fun _ => false) "M" "7".toList).macro_type = "database") :=
  C6_loop_terminates [] (fun _ => 0) "zz".toList
    (mkMacroDef (fun _ => false) "M" "7".toList) 0 120 (by omega)

/-! ### C7: the `database` branch of `expand` -/

theorem mkMacroDef_expansion_eq_def (lenient : Text → Bool) (nm : String) (raw : Text) :
    (mkMacroDef lenient nm raw).expansion = (mkMacroDef lenient nm raw).expansion_def := rfl

/-- A `database`-typed macro is returned by the loop unperturbed: on a
collision the loop breaks on its first iteration without perturbing. -/
theorem collideLoop_database (alphabet : Text) (rng : Rng) (text : Text) (m : MacroDef)
    (k fuel : Nat) (hdb : m.macro_type = "database") :
    collideLoop alphabet rng text (fuel + 1) 0 m k
      = if occursCI m.expansion text then (m, 1, k) else (m, 0, k) := by
  simp only [collideLoop]
  by_cases hc : occursCI m.expansion text = true
  · rw [if_pos hc, if_pos (Or.inl hdb), if_pos hc]
  · rw [if_neg hc, if_neg hc]

theorem obscuredList_mem (lenient : Text → Bool) (gmap : Catalog)
    (used : List (String × Nat)) (self : String) (mexp : Text) (dn : String) :
    dn ∈ obscuredList lenient gmap used self mexp ↔
      dn ≠ self ∧ (∃ cnt, (dn, cnt) ∈ used) ∧
      ∃ raw', lookupCat gmap (catKey dn) = some raw' ∧
        (mkMacroDef lenient dn raw').macro_type = "database" ∧
        mexp = (mkMacroDef lenient dn raw').expansion := by
  unfold obscuredList
  rw [List.mem_filterMap]
  constructor
  · rintro ⟨⟨dn', cnt⟩, hmem, hf⟩
    simp only [] at hf
    by_cases hself : dn' = self
    · rw [if_pos hself] at hf
      exact absurd hf (by simp)
    · rw [if_neg hself] at hf
      cases hlk : lookupCat gmap (catKey dn') with
      | none => rw [hlk] at hf; exact absurd hf (by simp)
      | some raw' =>
        rw [hlk] at hf
        simp only [] at hf
        by_cases hcond : (mkMacroDef lenient dn' raw').macro_type = "database"
            ∧ mexp = (mkMacroDef lenient dn' raw').expansion
        · rw [if_pos hcond] at hf
          have hdn : dn' = dn := by injection hf
          subst hdn
          exact ⟨hself, ⟨cnt, hmem⟩, raw', hlk, hcond.1, hcond.2⟩
        · rw [if_neg hcond] at hf
          exact absurd hf (by simp)
  · rintro ⟨hself, ⟨cnt, hmem⟩, raw', hlk, htype, hval⟩
    refine ⟨(dn, cnt), hmem, ?_⟩
    simp only []
    rw [if_neg hself, hlk]
    simp only []
    rw [if_pos ⟨htype, hval⟩]

/-- C7: for a `database`-typed macro, collision resolution never perturbs:
the recorded definition and the substituted value equal the declared value
even when it collides with the context text; the collision is still recorded
as a diagnostic (and only then); and the diagnostic names as "obscured"
exactly the other macros of the file whose catalog entry is `database`-typed
with the same current (= declared) value. -/
theorem C7_database_never_perturbed (alphabet : Text) (rng : Rng) (lenient : Text → Bool)
    (used : List (String × Nat)) (nm : String) (st : ExpandSt) (raw : Text)
    (hin : lookupCat st.gmap (catKey nm) = some raw)
    (htype : (mkMacroDef lenient nm raw).macro_type = "database") :
    (procOneMac alphabet rng lenient used nm st).usedDefs
      = st.usedDefs ++ [mkMacroDef lenient nm raw] ∧
    (mkMacroDef lenient nm raw).expansion = (mkMacroDef lenient nm raw).expansion_def ∧
    (procOneMac alphabet rng lenient used nm st).text
      = pyStrReplace (pyStrReplace st.text (braceRefT nm) (mkMacroDef lenient nm raw).expansion_def)
          (bareRefT nm) (mkMacroDef lenient nm raw).expansion_def ∧
    (occursCI (mkMacroDef lenient nm raw).expansion_def st.text = true →
      (procOneMac alphabet rng lenient used nm st).problems
        = st.problems ++ [msgDbCollide nm (mkMacroDef lenient nm raw).expansion_def
            (obscuredList lenient st.gmap used nm (mkMacroDef lenient nm raw).expansion_def)]) ∧
    (occursCI (mkMacroDef lenient nm raw).expansion_def st.text = false →
      (procOneMac alphabet rng lenient used nm st).problems = st.problems) ∧
    (∀ dn, dn ∈ obscuredList lenient st.gmap used nm (mkMacroDef lenient nm raw).expansion_def ↔
      dn ≠ nm ∧ (∃ cnt, (dn, cnt) ∈ used) ∧
      ∃ raw', lookupCat st.gmap (catKey dn) = some raw' ∧
        (mkMacroDef lenient dn raw').macro_type = "database" ∧
        (mkMacroDef lenient nm raw).expansion_def = (mkMacroDef lenient dn raw').expansion) := by
  have hgetD : (lookupCat st.gmap (catKey nm)).getD [] = raw := by rw [hin]; rfl
  have hloop := collideLoop_database alphabet rng st.text (mkMacroDef lenient nm raw)
    st.k 101 htype
  have hexp := mkMacroDef_expansion_eq_def lenient nm raw
  have hproc : procOneMac alphabet rng lenient used nm st =
      { gmap := st.gmap,
        text := pyStrReplace
          (pyStrReplace st.text (braceRefT nm) (mkMacroDef lenient nm raw).expansion)
          (bareRefT nm) (mkMacroDef lenient nm raw).expansion,
        problems := if occursCI (mkMacroDef lenient nm raw).expansion st.text then
            st.problems ++ [msgDbCollide nm (mkMacroDef lenient nm raw).expansion
              (obscuredList lenient st.gmap used nm (mkMacroDef lenient nm raw).expansion)]
          else st.problems,
        usedDefs := st.usedDefs ++ [mkMacroDef lenient nm raw],
        k := st.k } := by
    by_cases hc : occursCI (mkMacroDef lenient nm raw).expansion st.text = true
    · have hloop1 : collideLoop alphabet rng st.text 102 0 (mkMacroDef lenient nm raw) st.k
          = (mkMacroDef lenient nm raw, 1, st.k) := by rw [hloop, if_pos hc]
      unfold procOneMac
      rw [hin]
      simp only [hgetD]
      rw [hloop1]
      simp only []
      rw [if_pos htype]
    · have hloop0 : collideLoop alphabet rng st.text 102 0 (mkMacroDef lenient nm raw) st.k
          = (mkMacroDef lenient nm raw, 0, st.k) := by rw [hloop, if_neg hc]
      unfold procOneMac
      rw [hin]
      simp only [hgetD]
      rw [hloop0]
      simp only []
      rw [if_pos htype]
  refine ⟨?_, hexp, ?_, ?_, ?_, ?_⟩
  · rw [hproc]
  · rw [hproc, hexp]
  · intro hocc
    rw [hproc]
    simp only []
    rw [hexp, if_pos hocc]
  · intro hocc
    rw [hproc]
    simp only []
    rw [hexp, hocc]
    simp
  · intro dn
    exact obscuredList_mem lenient st.gmap used nm _ dn

/-- Witness for C7 at a concrete state: macro `A` (value `X_MM2_CY2`, typed
`database`) collides with the file text; `B` shares the value and is
reported as obscured. -/
theorem C7_database_never_perturbed_witness :
    (procOneMac [] (fun _ => 0) (fun _ => false) [("A", 1), ("B", 1)] "A"
        ⟨[(catKey "A", "X_MM2_CY2".toList), (catKey "B", "X_MM2_CY2".toList)],
          "zzX_MM2_CY2zz".toList, [], [], 0⟩).usedDefs
      = [] ++ [mkMacroDef (fun _ => false) "A" "X_MM2_CY2".toList] ∧
    (mkMacroDef (fun _ => false) "A" "X_MM2_CY2".toList).expansion
      = (mkMacroDef (fun _ => false) "A" "X_MM2_CY2".toList).expansion_def ∧
    ("B" ∈ obscuredList (fun _ => false)
        [(catKey "A", "X_MM2_CY2".toList), (catKey "B", "X_MM2_CY2".toList)]
        [("A", 1), ("B", 1)] "A"
        (mkMacroDef (fun _ => false) "A" "X_MM2_CY2".toList).expansion_def ↔
      "B" ≠ "A" ∧ (∃ cnt, ("B", cnt) ∈ [("A", 1), ("B", 1)]) ∧
      ∃ raw', lookupCat [(catKey "A", "X_MM2_CY2".toList), (catKey "B", "X_MM2_CY2".toList)]
          (catKey "B") = some raw' ∧
        (mkMacroDef (fun _ => false) "B" raw').macro_type = "database" ∧
        (mkMacroDef (fun _ => false) "A" "X_MM2_CY2".toList).expansion_def
          = (mkMacroDef (fun _ => false) "B" raw').expansion) := by
  have h := C7_database_never_perturbed [] (fun _ => 0) (fun _ => false) [("A", 1), ("B", 1)]
    "A" ⟨[(catKey "A", "X_MM2_CY2".toList), (catKey "B", "X_MM2_CY2".toList)],
      "zzX_MM2_CY2zz".toList, [], [], 0⟩ "X_MM2_CY2".toList (by decide) (by decide)
  exact ⟨h.1, h.2.1, h.2.2.2.2.2 "B"⟩

/-! ### C8: the unexpansion count audit -/

theorem isPfx_of_append (p : Text) : ∀ (a x : Text), isPfx p a = true → isPfx p (a ++ x) = true := by
  induction p with
  | nil => intro a x h; rfl
  | cons c ps ih =>
    intro a x h
    cases a with
    | nil => exact absurd h (by simp [isPfx])
    | cons b bs =>
      simp only [isPfx, Bool.and_eq_true, decide_eq_true_eq] at h
      simp only [List.cons_append, isPfx, Bool.and_eq_true, decide_eq_true_eq]
      exact ⟨h.1, ih bs x h.2⟩

theorem intercalate_single (sep x : Text) : List.intercalate sep [x] = x := by
  simp [List.intercalate, List.intersperse]

theorem intercalate_cons2 (sep x y : Text) (ys : List Text) :
    List.intercalate sep (x :: y :: ys) = x ++ sep ++ List.intercalate sep (y :: ys) := by
  simp [List.intercalate, List.intersperse]

theorem infix_of_mem_intercalate (sep : Text) (l : Text) :
    ∀ (xs : List Text), l ∈ xs → l <:+: List.intercalate sep xs := by
  intro xs
  induction xs with
  | nil => intro h; exact absurd h (by simp)
  | cons x rest ih =>
    intro h
    rcases List.mem_cons.mp h with h1 | h1
    · subst h1
      cases rest with
      | nil =>
        rw [intercalate_single]
      | cons y ys =>
        rw [intercalate_cons2]
        exact ⟨[], sep ++ List.intercalate sep (y :: ys), by simp⟩
    · cases rest with
      | nil => exact absurd h1 (by simp)
      | cons y ys =>
        rw [intercalate_cons2]
        obtain ⟨s, t, hst⟩ := ih h1
        exact ⟨x ++ sep ++ s, t, by rw [← hst]; simp⟩

theorem infix_wrap (l m a x y : Text) (h : l <:+: m) : l <:+: a ++ m ++ x ++ y := by
  obtain ⟨s, t, hst⟩ := h
  refine ⟨a ++ s, t ++ x ++ y, ?_⟩
  rw [← hst]
  simp [List.append_assoc]

/-- C8: for each used macro, equal counts produce no diagnostic; a shortfall
produces one line whose severity is `warning` for a `database`-typed macro
and `error` otherwise; an excess produces one `warning` line; and every
audit line is surfaced verbatim inside the output that `unexpand` returns
(the embedding is a total function — no exception path exists). -/
theorem C8_count_audit (md : MacroDef) (cnt outCnt : Nat) (st : ExpandSt)
    (used : List (String × Nat)) (now translated : Text) :
    (outCnt = cnt → auditOneMac md cnt outCnt = []) ∧
    (outCnt < cnt → md.macro_type = "database" →
      ∃ line, auditOneMac md cnt outCnt = [line] ∧
        isPfx "-- macro processor_ofr warning: ".toList line = true) ∧
    (outCnt < cnt → md.macro_type ≠ "database" →
      ∃ line, auditOneMac md cnt outCnt = [line] ∧
        isPfx "-- macro processor_ofr error: ".toList line = true) ∧
    (cnt < outCnt →
      ∃ line, auditOneMac md cnt outCnt = [line] ∧
        isPfx "-- macro processor_ofr warning: ".toList line = true) ∧
    (∀ line ∈ auditAll st.usedDefs used (unexpandBody st.usedDefs translated),
      line <:+: unexpandRun st used now translated) := by
  refine ⟨?_, ?_, ?_, ?_, ?_⟩
  · intro h
    rw [auditOneMac, if_neg (by omega)]
    rw [if_neg (by omega)]
  · intro h hdb
    rw [auditOneMac, if_pos h, if_pos hdb]
    refine ⟨_, rfl, ?_⟩
    repeat apply isPfx_of_append
    decide
  · intro h hdb
    rw [auditOneMac, if_pos h, if_neg hdb]
    refine ⟨_, rfl, ?_⟩
    repeat apply isPfx_of_append
    decide
  · intro h
    rw [auditOneMac, if_neg (by omega), if_pos h]
    refine ⟨_, rfl, ?_⟩
    repeat apply isPfx_of_append
    decide
  · intro line hline
    have hmem : line ∈ auditAll st.usedDefs used (unexpandBody st.usedDefs translated)
        ++ st.problems.map (fun m => "-- macro processor_ofr warning: ".toList ++ m) :=
      List.mem_append.mpr (Or.inl hline)
    have hinf := infix_of_mem_intercalate "\n".toList line _ hmem
    exact infix_wrap line _
      ("-- generated by macro processor_ofr at ".toList ++ now
        ++ "\n-- USED_VARS = [".toList
        ++ List.intercalate ", ".toList
          ((stableSort (fun a b => textLeB a.toList b.toList) (st.usedDefs.map (·.name))).map
            (fun m => '"' :: m.toList ++ ['"']))
        ++ "]\n\n".toList)
      "\n\n".toList (unexpandBody st.usedDefs translated) hinf

/-- Witness for C8: a database-typed macro with a shortfall produces a
warning line that appears inside the returned text. -/
theorem C8_count_audit_witness :
    (∃ line, auditOneMac (mkMacroDef (fun _ => false) "M" "X_MM2_CY2".toList) 2 1 = [line] ∧
      isPfx "-- macro processor_ofr warning: ".toList line = true) ∧
    (auditOneMac (mkMacroDef (fun _ => false) "M" "X_MM2_CY2".toList) 2 2 = []) ∧
    (∀ line ∈ auditAll [mkMacroDef (fun _ => false) "M" "X_MM2_CY2".toList] [("M", 2)]
        (unexpandBody [mkMacroDef (fun _ => false) "M" "X_MM2_CY2".toList] "abc".toList),
      line <:+: unexpandRun
        ⟨[], "t".toList, [], [mkMacroDef (fun _ => false) "M" "X_MM2_CY2".toList], 0⟩
        [("M", 2)] [] "abc".toList) := by
  refine ⟨?_, ?_, ?_⟩
  · exact (C8_count_audit (mkMacroDef (fun _ => false) "M" "X_MM2_CY2".toList) 2 1
      ⟨[], "t".toList, [], [mkMacroDef (fun _ => false) "M" "X_MM2_CY2".toList], 0⟩
      [("M", 2)] [] "abc".toList).2.1 (by omega) (by decide)
  · exact (C8_count_audit (mkMacroDef (fun _ => false) "M" "X_MM2_CY2".toList) 2 2
      ⟨[], "t".toList, [], [mkMacroDef (fun _ => false) "M" "X_MM2_CY2".toList], 0⟩
      [("M", 2)] [] "abc".toList).1 rfl
  · exact (C8_count_audit (mkMacroDef (fun _ => false) "M" "X_MM2_CY2".toList) 2 1
      ⟨[], "t".toList, [], [mkMacroDef (fun _ => false) "M" "X_MM2_CY2".toList], 0⟩
      [("M", 2)] [] "abc".toList).2.2.2.2

/-! ### C3: escaped references -/

/-- C3, counterexample: the catalog maps `A` to `u` and `B` to `w`, the file
text is `\${A} \$B $B`.  `expand` rewrites the backslash-escaped `${A}` (the
regex lookbehind does not guard the braced alternative) and the escaped
`$B` (plain `str.replace` ignores escaping once `B` is used elsewhere): the
result is `\u \w w`, with neither escaped reference left intact. -/
theorem C3_counterexample :
    (expandRun [] (fun _ => 0) (fun _ => false)
        [(catKey "A", "u".toList), (catKey "B", "w".toList)]
        ('\\' :: braceRefT "A" ++ " \\".toList ++ bareRefT "B" ++ " ".toList
          ++ bareRefT "B")).text
      = "\\u \\w w".toList ∧
    occursB ('\\' :: braceRefT "A")
      (expandRun [] (fun _ => 0) (fun _ => false)
        [(catKey "A", "u".toList), (catKey "B", "w".toList)]
        ('\\' :: braceRefT "A" ++ " \\".toList ++ bareRefT "B" ++ " ".toList
          ++ bareRefT "B")).text = false ∧
    occursB ('\\' :: bareRefT "B")
      (expandRun [] (fun _ => 0) (fun _ => false)
        [(catKey "A", "u".toList), (catKey "B", "w".toList)]
        ('\\' :: braceRefT "A" ++ " \\".toList ++ bareRefT "B" ++ " ".toList
          ++ bareRefT "B")).text = false := by decide

theorem pyReplaceGo_skip (pat rep : Text) :
    ∀ (a rest : Text), pyReplaceGo pat rep a.length (a ++ rest) = pyReplaceGo pat rep 0 rest := by
  intro a
  induction a with
  | nil => intro rest; rfl
  | cons x xs ih => intro rest; exact ih rest

/-- C3, amended: the backslash protection applies only to the reference
scan, and there only to the bare alternative: (1) at a position preceded by
a backslash a bare reference `$NAME` is not matched; (2) a braced reference
`${NAME}` is matched regardless of the preceding backslash; (3) the literal
substitution pass replaces an occurrence of the reference token immediately
after a backslash just like any other occurrence — the backslash remains,
the reference after it is rewritten.  An escaped bare reference survives
only if its macro is not referenced anywhere else in the file. -/
theorem C3_escape_only_guards_bare_scan (c : Char) (rest cs r pat rep : Text)
    (hc : isNameStart c = true) (hcs : cs.dropWhile isNameChar = '}' :: r)
    (hpat : pat ≠ []) (hhd : ∀ ps, pat ≠ '\\' :: ps) :
    matchVarAt (some '\\') ('$' :: c :: rest) = none ∧
    matchVarAt (some '\\') ('$' :: '{' :: c :: cs)
      = some (String.mk (c :: cs.takeWhile isNameChar), '}', r) ∧
    pyReplace pat rep ('\\' :: (pat ++ rest)) = '\\' :: (rep ++ pyReplace pat rep rest) := by
  refine ⟨?_, ?_, ?_⟩
  · have hne : c ≠ '{' := by
      intro h
      subst h
      exact absurd hc (by decide)
    show (if some '\\' ≠ some '\\' then
        match c :: rest with
        | c :: cs =>
          if isNameStart c then
            some (String.mk (c :: cs.takeWhile isNameChar),
              (c :: cs.takeWhile isNameChar).getLastD c, cs.dropWhile isNameChar)
          else none
        | [] => none
      else none).orElse (fun _ =>
        match c :: rest with
        | '{' :: c :: cs =>
          if isNameStart c then
            match cs.dropWhile isNameChar with
            | '}' :: r => some (String.mk (c :: cs.takeWhile isNameChar), '}', r)
            | _ => none
          else none
        | _ => none) = none
    rw [if_neg (by simp)]
    show (match c :: rest with
      | '{' :: c :: cs =>
        if isNameStart c then
          match cs.dropWhile isNameChar with
          | '}' :: r => some (String.mk (c :: cs.takeWhile isNameChar), '}', r)
          | _ => none
        else none
      | _ => none) = none
    split
    · rename_i heq
      injection heq with h1 h2
      exact absurd h1 hne
    · rfl
  · show (if some '\\' ≠ some '\\' then
        match '{' :: c :: cs with
        | c :: cs =>
          if isNameStart c then
            some (String.mk (c :: cs.takeWhile isNameChar),
              (c :: cs.takeWhile isNameChar).getLastD c, cs.dropWhile isNameChar)
          else none
        | [] => none
      else none).orElse (fun _ =>
        match '{' :: c :: cs with
        | '{' :: c :: cs =>
          if isNameStart c then
            match cs.dropWhile isNameChar with
            | '}' :: r => some (String.mk (c :: cs.takeWhile isNameChar), '}', r)
            | _ => none
          else none
        | _ => none)
      = some (String.mk (c :: cs.takeWhile isNameChar), '}', r)
    rw [if_neg (by simp)]
    show (match '{' :: c :: cs with
      | '{' :: c :: cs =>
        if isNameStart c then
          match cs.dropWhile isNameChar with
          | '}' :: r => some (String.mk (c :: cs.takeWhile isNameChar), '}', r)
          | _ => none
        else none
      | _ => none)
      = some (String.mk (c :: cs.takeWhile isNameChar), '}', r)
    rw [show (match '{' :: c :: cs with
      | '{' :: c :: cs =>
        if isNameStart c then
          match cs.dropWhile isNameChar with
          | '}' :: r => some (String.mk (c :: cs.takeWhile isNameChar), '}', r)
          | _ => none
        else none
      | _ => none) = (if isNameStart c then
          match cs.dropWhile isNameChar with
          | '}' :: r => some (String.mk (c :: cs.takeWhile isNameChar), '}', r)
          | _ => none
        else none) from rfl]
    rw [if_pos hc, hcs]
    rfl
  · obtain ⟨p, ps, hp⟩ : ∃ p ps, pat = p :: ps := by
      cases hx : pat with
      | nil => exact absurd hx hpat
      | cons a l => exact ⟨a, l, rfl⟩
    have hnb : isPfx pat ('\\' :: (pat ++ rest)) = false := by
      rw [hp]
      simp only [isPfx, Bool.and_eq_true, decide_eq_true_eq]
      have : p ≠ '\\' := by
        intro h
        subst h
        exact absurd hp (hhd ps)
      simp [this]
    show pyReplaceGo pat rep 0 ('\\' :: (pat ++ rest))
      = '\\' :: (rep ++ pyReplaceGo pat rep 0 rest)
    rw [show pyReplaceGo pat rep 0 ('\\' :: (pat ++ rest))
        = if isPfx pat ('\\' :: (pat ++ rest))
          then rep ++ pyReplaceGo pat rep (pat.length - 1) (pat ++ rest)
          else '\\' :: pyReplaceGo pat rep 0 (pat ++ rest) from rfl]
    rw [if_neg (by rw [hnb]; simp)]
    congr 1
    rw [show pyReplaceGo pat rep 0 (pat ++ rest)
        = if isPfx pat (pat ++ rest)
          then rep ++ pyReplaceGo pat rep (pat.length - 1) ((pat ++ rest).drop 1)
          else pat.headI :: pyReplaceGo pat rep 0 ((pat ++ rest).drop 1) from ?_]
    · rw [if_pos (isPfx_append_self pat rest)]
      congr 1
      rw [hp]
      show pyReplaceGo (p :: ps) rep ps.length (ps ++ rest)
        = pyReplaceGo (p :: ps) rep 0 rest
      exact pyReplaceGo_skip (p :: ps) rep ps rest
    · rw [hp]
      rfl

/-- Witness for C3's amended theorem at concrete inputs. -/
theorem C3_escape_only_guards_bare_scan_witness :
    matchVarAt (some '\\') ('$' :: 'B' :: []) = none ∧
    matchVarAt (some '\\') ('$' :: '{' :: 'A' :: ['}'])
      = some (String.mk ['A'], '}', []) ∧
    pyReplace "$B".toList "w".toList ('\\' :: ("$B".toList ++ " x".toList))
      = '\\' :: ("w".toList ++ pyReplace "$B".toList "w".toList " x".toList) := by
  have h := C3_escape_only_guards_bare_scan 'B' [] ['}'] [] "$B".toList "w".toList
    (by decide) (by decide) (by decide) (by intro ps h; simp at h)
  have h2 := C3_escape_only_guards_bare_scan 'A' [] ['}'] [] "$B".toList "w".toList
    (by decide) (by decide) (by decide) (by intro ps h; simp at h)
  exact ⟨(C3_escape_only_guards_bare_scan 'B' [] ['}'] [] "$B".toList "w".toList
      (by decide) (by decide) (by decide) (by intro ps hx; simp at hx)).1,
    by
      have := h2.2.1
      simpa using this,
    (C3_escape_only_guards_bare_scan 'B' (" x".toList) ['}'] [] "$B".toList "w".toList
      (by decide) (by decide) (by decide) (by intro ps hx; simp at hx)).2.2⟩

/-! ### C10: perturbation never compounds -/

theorem datetime_ne_integer (fmtS : String) : "datetime:" ++ fmtS ≠ "integer" := by
  intro h
  have h2 := congrArg (fun t => strStarts "datetime:" t) h
  simp only [strStarts_datetime_append] at h2
  exact absurd h2.symm (by decide)

theorem datetime_ne_decimal (fmtS : String) : "datetime:" ++ fmtS ≠ "decimal" := by
  intro h
  have h2 := congrArg (fun t => strStarts "datetime:" t) h
  simp only [strStarts_datetime_append] at h2
  exact absurd h2.symm (by decide)

theorem tryUncollide_step_int (alphabet : Text) (rng : Rng) (m : MacroDef) (cplx k : Nat)
    (v : Int) (htype : m.macro_type = "integer") (hv : pyIntParse m.expansion_def = some v) :
    (tryUncollide alphabet rng m cplx k).1.expansion
      = tryUncollideIntOrDecimalInt v (randInt120 rng k) := by
  unfold tryUncollide
  rw [htype, hv]
  rfl

theorem tryUncollide_step_dec (alphabet : Text) (rng : Rng) (m : MacroDef) (cplx k : Nat)
    (d : DecVal) (htype : m.macro_type = "decimal") (hd : pyDecParse m.expansion_def = some d) :
    (tryUncollide alphabet rng m cplx k).1.expansion
      = tryUncollideIntOrDecimalDec d (randInt120 rng k) := by
  unfold tryUncollide
  rw [htype, hd]
  rfl

theorem tryUncollide_step_datetime (alphabet : Text) (rng : Rng) (m : MacroDef) (cplx k : Nat)
    (fmtS : String) (htype : m.macro_type = "datetime:" ++ fmtS) :
    (tryUncollide alphabet rng m cplx k).1.expansion
      = tryUncollideDatetimeFn m.expansion_def fmtS.toList (randInt120 rng k) := by
  unfold tryUncollide
  rw [htype]
  rw [if_neg (datetime_ne_integer fmtS), if_neg (datetime_ne_decimal fmtS),
    if_pos (strStarts_datetime_append fmtS), datetime_append_drop]

theorem tryUncollideDatetimeFn_parsed (s f : Text) (off : Nat) (dt : PyDate)
    (h : strptime s f = some dt) :
    tryUncollideDatetimeFn s f off
      = if dt.y = 9999 then strftime (predDay^[off] dt) f
        else strftime (succDay^[off] dt) f := by
  unfold tryUncollideDatetimeFn
  rw [h]

theorem iterUncollide_keeps (alphabet : Text) (rng : Rng) (cplxSeq : Nat → Nat)
    (md : MacroDef) (k0 : Nat) :
    ∀ n, (iterUncollide alphabet rng cplxSeq n (md, k0)).1.expansion_def = md.expansion_def ∧
      (iterUncollide alphabet rng cplxSeq n (md, k0)).1.macro_type = md.macro_type ∧
      (iterUncollide alphabet rng cplxSeq n (md, k0)).1.name = md.name := by
  intro n
  induction n with
  | zero => exact ⟨rfl, rfl, rfl⟩
  | succ n ih =>
    show ((tryUncollide alphabet rng (iterUncollide alphabet rng cplxSeq n (md, k0)).1
        (cplxSeq n) (iterUncollide alphabet rng cplxSeq n (md, k0)).2).1.expansion_def
          = md.expansion_def) ∧ _ ∧ _
    rw [tryUncollide_keeps_def]
    refine ⟨ih.1, ?_, ?_⟩
    · show (tryUncollide alphabet rng (iterUncollide alphabet rng cplxSeq n (md, k0)).1
          (cplxSeq n) (iterUncollide alphabet rng cplxSeq n (md, k0)).2).1.macro_type
        = md.macro_type
      rw [tryUncollide_keeps_type]
      exact ih.2.1
    · show (tryUncollide alphabet rng (iterUncollide alphabet rng cplxSeq n (md, k0)).1
          (cplxSeq n) (iterUncollide alphabet rng cplxSeq n (md, k0)).2).1.name = md.name
      rw [show ∀ (m : MacroDef) (c k : Nat),
        (tryUncollide alphabet rng m c k).1.name = m.name from fun m c k => rfl]
      exact ih.2.2

/-- C10: `try_uncollide` always recomputes from the immutable
`expansion_def` and never from the previously perturbed value: after any
number of calls, `expansion_def` (and the type) is unchanged, an
integer-typed macro's current value differs from the declared value by at
most 120, a decimal-typed macro's current value differs by at most 120, and
a datetime-typed macro's current value renders a date reached from the
declared date by at most 120 forward or backward day steps. -/
theorem C10_no_compounding (alphabet : Text) (rng : Rng) (cplxSeq : Nat → Nat)
    (md : MacroDef) (k0 n : Nat) (hinit : md.expansion = md.expansion_def) :
    (iterUncollide alphabet rng cplxSeq n (md, k0)).1.expansion_def = md.expansion_def ∧
    (iterUncollide alphabet rng cplxSeq n (md, k0)).1.macro_type = md.macro_type ∧
    (md.macro_type = "integer" → ∀ v, pyIntParse md.expansion_def = some v →
      ∃ w, pyIntParse (iterUncollide alphabet rng cplxSeq n (md, k0)).1.expansion = some w ∧
        (w - v).natAbs ≤ 120) ∧
    (md.macro_type = "decimal" → ∀ d, pyDecParse md.expansion_def = some d →
      ∃ d', pyDecParse (iterUncollide alphabet rng cplxSeq n (md, k0)).1.expansion = some d' ∧
        |d'.val - d.val| ≤ 120) ∧
    (∀ fmtS dt, md.macro_type = "datetime:" ++ fmtS →
      strptime md.expansion_def fmtS.toList = some dt →
      (iterUncollide alphabet rng cplxSeq n (md, k0)).1.expansion = md.expansion_def ∨
      ∃ kk, kk ≤ 120 ∧
        ((iterUncollide alphabet rng cplxSeq n (md, k0)).1.expansion
            = strftime (succDay^[kk] dt) fmtS.toList ∨
          (iterUncollide alphabet rng cplxSeq n (md, k0)).1.expansion
            = strftime (predDay^[kk] dt) fmtS.toList)) := by
  obtain ⟨hkd, hkt, hkn⟩ := iterUncollide_keeps alphabet rng cplxSeq md k0 n
  refine ⟨hkd, hkt, ?_, ?_, ?_⟩
  · intro htype v hv
    cases n with
    | zero =>
      refine ⟨v, ?_, by omega⟩
      show pyIntParse md.expansion = some v
      rw [hinit]
      exact hv
    | succ n =>
      obtain ⟨hkd', hkt', -⟩ := iterUncollide_keeps alphabet rng cplxSeq md k0 n
      have hstep := tryUncollide_step_int alphabet rng
        (iterUncollide alphabet rng cplxSeq n (md, k0)).1 (cplxSeq n)
        (iterUncollide alphabet rng cplxSeq n (md, k0)).2 v
        (by rw [hkt']; exact htype) (by rw [hkd']; exact hv)
      have hlast : (iterUncollide alphabet rng cplxSeq (n + 1) (md, k0)).1.expansion
          = tryUncollideIntOrDecimalInt v
            (randInt120 rng (iterUncollide alphabet rng cplxSeq n (md, k0)).2) := hstep
      rw [hlast]
      have hoff : randInt120 rng (iterUncollide alphabet rng cplxSeq n (md, k0)).2 ≤ 120 := by
        unfold randInt120
        omega
      set off := randInt120 rng (iterUncollide alphabet rng cplxSeq n (md, k0)).2
      unfold tryUncollideIntOrDecimalInt
      by_cases hlt : v < 32000
      · rw [if_pos hlt]
        exact ⟨v - off, pyIntStr_roundtrip _, by omega⟩
      · rw [if_neg hlt]
        exact ⟨v + off, pyIntStr_roundtrip _, by omega⟩
  · intro htype d hd
    cases n with
    | zero =>
      refine ⟨d, ?_, by simp⟩
      show pyDecParse md.expansion = some d
      rw [hinit]
      exact hd
    | succ n =>
      obtain ⟨hkd', hkt', -⟩ := iterUncollide_keeps alphabet rng cplxSeq md k0 n
      have hstep := tryUncollide_step_dec alphabet rng
        (iterUncollide alphabet rng cplxSeq n (md, k0)).1 (cplxSeq n)
        (iterUncollide alphabet rng cplxSeq n (md, k0)).2 d
        (by rw [hkt']; exact htype) (by rw [hkd']; exact hd)
      have hlast : (iterUncollide alphabet rng cplxSeq (n + 1) (md, k0)).1.expansion
          = tryUncollideIntOrDecimalDec d
            (randInt120 rng (iterUncollide alphabet rng cplxSeq n (md, k0)).2) := hstep
      rw [hlast]
      have hoff : randInt120 rng (iterUncollide alphabet rng cplxSeq n (md, k0)).2 ≤ 120 := by
        unfold randInt120
        omega
      set off := randInt120 rng (iterUncollide alphabet rng cplxSeq n (md, k0)).2
      unfold tryUncollideIntOrDecimalDec
      by_cases hlt : decLtInt d 32000 = true
      · rw [if_pos hlt]
        refine ⟨decSubNat d off, decRender_roundtrip _, ?_⟩
        rw [val_decSubNat]
        rw [abs_le]
        constructor
        · have : (off : ℚ) ≤ 120 := by exact_mod_cast hoff
          linarith [this]
        · have : (0 : ℚ) ≤ off := by positivity
          linarith [this]
      · rw [if_neg hlt]
        refine ⟨decAddNat d off, decRender_roundtrip _, ?_⟩
        rw [val_decAddNat]
        rw [abs_le]
        constructor
        · have : (0 : ℚ) ≤ off := by positivity
          linarith [this]
        · have : (off : ℚ) ≤ 120 := by exact_mod_cast hoff
          linarith [this]
  · intro fmtS dt htype hdt
    cases n with
    | zero =>
      exact Or.inl hinit
    | succ n =>
      obtain ⟨hkd', hkt', -⟩ := iterUncollide_keeps alphabet rng cplxSeq md k0 n
      have hstep := tryUncollide_step_datetime alphabet rng
        (iterUncollide alphabet rng cplxSeq n (md, k0)).1 (cplxSeq n)
        (iterUncollide alphabet rng cplxSeq n (md, k0)).2 fmtS
        (by rw [hkt']; exact htype)
      have hlast : (iterUncollide alphabet rng cplxSeq (n + 1) (md, k0)).1.expansion
          = tryUncollideDatetimeFn md.expansion_def fmtS.toList
            (randInt120 rng (iterUncollide alphabet rng cplxSeq n (md, k0)).2) := by
        rw [hkd'] at hstep
        exact hstep
      rw [hlast]
      have hoff : randInt120 rng (iterUncollide alphabet rng cplxSeq n (md, k0)).2 ≤ 120 := by
        unfold randInt120
        omega
      set off := randInt120 rng (iterUncollide alphabet rng cplxSeq n (md, k0)).2
      right
      refine ⟨off, hoff, ?_⟩
      rw [tryUncollideDatetimeFn_parsed md.expansion_def fmtS.toList off dt hdt]
      by_cases hy : dt.y = 9999
      · rw [if_pos hy]
        exact Or.inr rfl
      · rw [if_neg hy]
        exact Or.inl rfl

/-- Witness for C10 at a concrete integer macro iterated three times. -/
theorem C10_no_compounding_witness :
    (iterUncollide [] (fun _ => 7) (fun _ => 1) 3
        (mkMacroDef (fun _ => false) "M" "5".toList, 0)).1.expansion_def
      = (mkMacroDef (fun _ => false) "M" "5".toList).expansion_def ∧
    (∃ w, pyIntParse (iterUncollide [] (fun _ => 7) (fun _ => 1) 3
        (mkMacroDef (fun _ => false) "M" "5".toList, 0)).1.expansion = some w ∧
      (w - 5).natAbs ≤ 120) := by
  have h := C10_no_compounding [] (fun _ => 7) (fun _ => 1)
    (mkMacroDef (fun _ => false) "M" "5".toList) 0 3 rfl
  exact ⟨h.1, h.2.2.1 (by decide) 5 (by decide)⟩

/-! ### C9: calendar lemmas -/

theorem validDate_iff (dt : PyDate) : validDate dt = true ↔
    (1 ≤ dt.y ∧ dt.y ≤ 9999 ∧ 1 ≤ dt.mo ∧ dt.mo ≤ 12 ∧ 1 ≤ dt.d
      ∧ dt.d ≤ daysInMonth dt.y dt.mo ∧ dt.hh ≤ 23 ∧ dt.mi ≤ 59 ∧ dt.ss ≤ 59) := by
  simp [validDate]

theorem dbm_succ (y mo : Nat) (h : 1 ≤ mo) :
    dbm y (mo + 1) = dbm y mo + daysInMonth y mo := by
  show (if mo = 0 then 0 else dbm y mo + daysInMonth y mo) = _
  rw [if_neg (by omega)]

theorem dim_pos (y mo : Nat) : 1 ≤ daysInMonth y mo := by
  unfold daysInMonth
  by_cases h2 : mo = 2
  · rw [if_pos h2]
    by_cases hl : isLeap y = true
    · rw [if_pos hl]; omega
    · rw [if_neg hl]; omega
  · rw [if_neg h2]
    by_cases h30 : mo = 4 ∨ mo = 6 ∨ mo = 9 ∨ mo = 11
    · rw [if_pos h30]
      omega
    · rw [if_neg h30]
      omega

theorem dbm_mono (y : Nat) (a : Nat) (h1 : 1 ≤ a) : ∀ b, a ≤ b → dbm y a ≤ dbm y b := by
  intro b
  induction b with
  | zero => intro h; omega
  | succ b ih =>
    intro h2
    by_cases hab : a = b + 1
    · subst hab
      exact Nat.le_refl _
    · have hab' : a ≤ b := by omega
      have hb : 1 ≤ b := by omega
      calc dbm y a ≤ dbm y b := ih hab'
        _ ≤ dbm y (b + 1) := by rw [dbm_succ y b hb]; omega

theorem daysInYear_eval (y : Nat) : daysInYear y = if isLeap y then 366 else 365 := by
  have h : daysInYear y = 0 + daysInMonth y 1 + daysInMonth y 2 + daysInMonth y 3
      + daysInMonth y 4 + daysInMonth y 5 + daysInMonth y 6 + daysInMonth y 7
      + daysInMonth y 8 + daysInMonth y 9 + daysInMonth y 10 + daysInMonth y 11
      + daysInMonth y 12 := rfl
  rw [h]
  rw [show daysInMonth y 1 = 31 from rfl, show daysInMonth y 3 = 31 from rfl,
    show daysInMonth y 4 = 30 from rfl, show daysInMonth y 5 = 31 from rfl,
    show daysInMonth y 6 = 30 from rfl, show daysInMonth y 7 = 31 from rfl,
    show daysInMonth y 8 = 31 from rfl, show daysInMonth y 9 = 30 from rfl,
    show daysInMonth y 10 = 31 from rfl, show daysInMonth y 11 = 30 from rfl,
    show daysInMonth y 12 = 31 from rfl,
    show daysInMonth y 2 = if isLeap y then 29 else 28 from rfl]
  by_cases hl : isLeap y = true
  · rw [if_pos hl, if_pos hl]
  · rw [if_neg hl, if_neg hl]

theorem daysInYear_ge (y : Nat) : 365 ≤ daysInYear y := by
  rw [daysInYear_eval]
  by_cases hl : isLeap y = true
  · rw [if_pos hl]; omega
  · rw [if_neg hl]

theorem doy_le (dt : PyDate) (hv : validDate dt = true) : doy dt ≤ daysInYear dt.y := by
  obtain ⟨-, -, hmo1, hmo2, -, hd2, -⟩ := (validDate_iff dt).mp hv
  unfold doy
  calc dbm dt.y dt.mo + dt.d ≤ dbm dt.y dt.mo + daysInMonth dt.y dt.mo := by omega
    _ = dbm dt.y (dt.mo + 1) := (dbm_succ dt.y dt.mo hmo1).symm
    _ ≤ dbm dt.y 13 := dbm_mono dt.y (dt.mo + 1) (by omega) 13 (by omega)

/-- A date at December 31st sits at ordinal `daysInYear` of its year. -/
theorem doy_year_end (dt : PyDate) (h12 : dt.mo = 12)
    (hd : dt.d = daysInMonth dt.y dt.mo) : doy dt = daysInYear dt.y := by
  unfold doy daysInYear
  rw [h12] at hd ⊢
  rw [hd, ← dbm_succ dt.y 12 (by omega)]

/-- One forward day step: year constant with ordinal `+1`, or a year
rollover from December 31st. -/
theorem succDay_step (e : PyDate) (hv : validDate e = true) :
    ((succDay e).y = e.y ∧ doy (succDay e) = doy e + 1
      ∨ (succDay e).y = e.y + 1 ∧ doy e = daysInYear e.y ∧ doy (succDay e) = 1) ∧
    (e.y + 1 ≤ 9999 ∨ ¬(e.mo = 12 ∧ e.d = daysInMonth e.y e.mo) → validDate (succDay e) = true)
      ∧ (succDay e).hh = e.hh ∧ (succDay e).mi = e.mi ∧ (succDay e).ss = e.ss := by
  obtain ⟨hy1, hy2, hmo1, hmo2, hd1, hd2, hh, hm, hs⟩ := (validDate_iff e).mp hv
  unfold succDay
  by_cases hlt : e.d < daysInMonth e.y e.mo
  · rw [if_pos hlt]
    refine ⟨Or.inl ⟨rfl, ?_⟩, ?_, rfl, rfl, rfl⟩
    · unfold doy
      simp only []
      omega
    · intro h
      rw [validDate_iff]
      simp only []
      refine ⟨hy1, hy2, hmo1, hmo2, by omega, by omega, hh, hm, hs⟩
  · rw [if_neg hlt]
    have hde : e.d = daysInMonth e.y e.mo := by omega
    by_cases h12 : e.mo < 12
    · rw [if_pos h12]
      refine ⟨Or.inl ⟨rfl, ?_⟩, ?_, rfl, rfl, rfl⟩
      · unfold doy
        simp only []
        rw [dbm_succ e.y e.mo hmo1]
        omega
      · intro h
        rw [validDate_iff]
        simp only []
        exact ⟨hy1, hy2, by omega, by omega, by omega, dim_pos e.y (e.mo + 1), hh, hm, hs⟩
    · rw [if_neg h12]
      have hmo12 : e.mo = 12 := by omega
      refine ⟨Or.inr ⟨rfl, ?_, ?_⟩, ?_, rfl, rfl, rfl⟩
      · unfold doy daysInYear
        have h13 : dbm e.y 13 = dbm e.y 12 + daysInMonth e.y 12 := dbm_succ e.y 12 (by omega)
        rw [h13, ← hmo12, ← hde]
      · unfold doy
        simp only []
        have h1 : dbm (e.y + 1) 1 = 0 := rfl
        rw [h1]
      · intro h
        rcases h with h | h
        · rw [validDate_iff]
          simp only []
          refine ⟨by omega, h, by omega, by omega, by omega, ?_, hh, hm, hs⟩
          exact dim_pos (e.y + 1) 1
        · exact absurd ⟨hmo12, hde⟩ h

/-- One backward day step. -/
theorem predDay_step (e : PyDate) (hv : validDate e = true) :
    ((predDay e).y = e.y ∧ doy (predDay e) + 1 = doy e
      ∨ (predDay e).y = e.y - 1 ∧ doy e = 1 ∧ doy (predDay e) = daysInYear (e.y - 1)) ∧
    (2 ≤ e.y ∨ ¬(e.mo = 1 ∧ e.d = 1) → validDate (predDay e) = true)
      ∧ (predDay e).hh = e.hh ∧ (predDay e).mi = e.mi ∧ (predDay e).ss = e.ss := by
  obtain ⟨hy1, hy2, hmo1, hmo2, hd1, hd2, hh, hm, hs⟩ := (validDate_iff e).mp hv
  unfold predDay
  by_cases hgt : 1 < e.d
  · rw [if_pos hgt]
    refine ⟨Or.inl ⟨rfl, ?_⟩, ?_, rfl, rfl, rfl⟩
    · unfold doy
      simp only []
      omega
    · intro h
      rw [validDate_iff]
      simp only []
      exact ⟨hy1, hy2, hmo1, hmo2, by omega, by omega, hh, hm, hs⟩
  · rw [if_neg hgt]
    have hd1' : e.d = 1 := by omega
    by_cases hm1 : 1 < e.mo
    · rw [if_pos hm1]
      refine ⟨Or.inl ⟨rfl, ?_⟩, ?_, rfl, rfl, rfl⟩
      · unfold doy
        simp only []
        have hsub : e.mo - 1 + 1 = e.mo := by omega
        have h2 : dbm e.y e.mo = dbm e.y (e.mo - 1) + daysInMonth e.y (e.mo - 1) := by
          conv_lhs => rw [← hsub]
          exact dbm_succ e.y (e.mo - 1) (by omega)
        omega
      · intro h
        rw [validDate_iff]
        simp only []
        exact ⟨hy1, hy2, by omega, by omega, dim_pos e.y (e.mo - 1), by omega, hh, hm, hs⟩
    · rw [if_neg hm1]
      have hmo1' : e.mo = 1 := by omega
      refine ⟨Or.inr ⟨rfl, ?_, ?_⟩, ?_, rfl, rfl, rfl⟩
      · unfold doy
        rw [hmo1', hd1']
        rfl
      · unfold doy daysInYear
        simp only []
        have h13 : dbm (e.y - 1) 13 = dbm (e.y - 1) 12 + daysInMonth (e.y - 1) 12 :=
          dbm_succ (e.y - 1) 12 (by omega)
        have hd31 : daysInMonth (e.y - 1) 12 = 31 := rfl
        omega
      · intro h
        rcases h with h | h
        · rw [validDate_iff]
          simp only []
          refine ⟨by omega, by omega, by omega, by omega, by omega, ?_, hh, hm, hs⟩
          rw [show daysInMonth (e.y - 1) 12 = 31 from rfl]
        · exact absurd ⟨hmo1', hd1'⟩ h

/-! ### C9: the canonical candidate heads each directive's match list -/

theorem findSome_head {α β : Type} (l : List α) (g : α → Option β) (p : α) (b : β)
    (h : l.head? = some p) (hg : g p = some b) : List.findSome? g l = some b := by
  cases l with
  | nil => cases h
  | cons a t =>
    have ha : a = p := by simpa using h
    subst ha
    simp [List.findSome?, hg]

theorem parseToks_cons_head (tok : FmtTok) (ts : List FmtTok) (s r : Text)
    (g : PyDate → PyDate) (dt : PyDate) (out : PyDate × Text)
    (h : (tokCands tok s).head? = some (g, r))
    (hrec : parseToks ts r (g dt) = some out) :
    parseToks (tok :: ts) s dt = some out := by
  show List.findSome? (fun p => parseToks ts p.2 (p.1 dt)) (tokCands tok s) = some out
  exact findSome_head _ _ (g, r) out h hrec

theorem natStr_four (y : Nat) (h1 : 1000 ≤ y) (h2 : y ≤ 9999) :
    natStr y = [digitChr (y / 1000), digitChr (y / 100 % 10),
      digitChr (y / 10 % 10), digitChr (y % 10)] := by
  have e1 : y / 10 / 10 = y / 100 := by omega
  have e2 : y / 100 / 10 = y / 1000 := by omega
  rw [natStr_unfold y, if_neg (by omega), natStr_unfold (y / 10), if_neg (by omega), e1,
    natStr_unfold (y / 100), if_neg (by omega), e2, natStr_unfold (y / 1000),
    if_pos (by omega)]
  simp

theorem pad2_shape (v : Nat) (h : v < 100) :
    pad2 v = [digitChr (v / 10), digitChr (v % 10)] := by
  unfold pad2
  by_cases h10 : v < 10
  · rw [if_pos h10, natStr_unfold v, if_pos h10]
    have hq : v / 10 = 0 := by omega
    have hr : v % 10 = v := by omega
    rw [hq, hr]
    rfl
  · rw [if_neg h10, natStr_unfold v, if_neg h10, natStr_unfold (v / 10), if_pos (by omega)]
    rfl

theorem dim_le31 (y mo : Nat) : daysInMonth y mo ≤ 31 := by
  unfold daysInMonth
  by_cases h2 : mo = 2
  · rw [if_pos h2]
    by_cases hl : isLeap y = true
    · rw [if_pos hl]; omega
    · rw [if_neg hl]; omega
  · rw [if_neg h2]
    by_cases h30 : mo = 4 ∨ mo = 6 ∨ mo = 9 ∨ mo = 11
    · rw [if_pos h30]; omega
    · rw [if_neg h30]

theorem candY_head (y : Nat) (r : Text) (h1 : 1000 ≤ y) (h2 : y ≤ 9999) :
    (candY (natStr y ++ r)).head? = some (y, r) := by
  rw [natStr_four y h1 h2]
  show (candY (digitChr (y / 1000) :: digitChr (y / 100 % 10) :: digitChr (y / 10 % 10)
    :: digitChr (y % 10) :: r)).head? = some (y, r)
  have hval : digitsVal [digitChr (y / 1000), digitChr (y / 100 % 10),
      digitChr (y / 10 % 10), digitChr (y % 10)] = y := by
    simp only [digitsVal, List.foldl_cons, List.foldl_nil,
      digitVal_digitChr (y / 1000) (by omega), digitVal_digitChr (y / 100 % 10) (by omega),
      digitVal_digitChr (y / 10 % 10) (by omega), digitVal_digitChr (y % 10) (by omega)]
    omega
  show (if isDigitC (digitChr (y / 1000)) ∧ isDigitC (digitChr (y / 100 % 10))
      ∧ isDigitC (digitChr (y / 10 % 10)) ∧ isDigitC (digitChr (y % 10))
    then [(digitsVal [digitChr (y / 1000), digitChr (y / 100 % 10), digitChr (y / 10 % 10),
      digitChr (y % 10)], r)] else []).head? = some (y, r)
  rw [if_pos ⟨digitChr_isDigit _ (by omega), digitChr_isDigit _ (by omega),
    digitChr_isDigit _ (by omega), digitChr_isDigit _ (by omega)⟩]
  rw [hval]
  rfl

theorem candy2_head (v : Nat) (r : Text) (h : v < 100) :
    (candy2 (pad2 v ++ r)).head? = some (pyY2 v, r) := by
  rw [pad2_shape v h]
  show (candy2 (digitChr (v / 10) :: digitChr (v % 10) :: r)).head? = some (pyY2 v, r)
  have e1 : twoDig (digitChr (v / 10)) (digitChr (v % 10)) = v := by
    unfold twoDig
    rw [digitVal_digitChr _ (by omega), digitVal_digitChr _ (by omega)]
    omega
  show (if isDigitC (digitChr (v / 10)) ∧ isDigitC (digitChr (v % 10))
    then [(pyY2 (twoDig (digitChr (v / 10)) (digitChr (v % 10))), r)] else []).head?
      = some (pyY2 v, r)
  rw [if_pos ⟨digitChr_isDigit _ (by omega), digitChr_isDigit _ (by omega)⟩, e1]
  rfl

theorem candm_head (mo : Nat) (r : Text) (h1 : 1 ≤ mo) (h2 : mo ≤ 12) :
    (candm (pad2 mo ++ r)).head? = some (mo, r) := by
  interval_cases mo <;> rfl

theorem candd_head (d : Nat) (r : Text) (h1 : 1 ≤ d) (h2 : d ≤ 31) :
    (candd (pad2 d ++ r)).head? = some (d, r) := by
  interval_cases d <;> rfl

theorem candH_head (hh : Nat) (r : Text) (h2 : hh ≤ 23) :
    (candH (pad2 hh ++ r)).head? = some (hh, r) := by
  interval_cases hh <;> rfl

theorem candM_head (mi : Nat) (r : Text) (h2 : mi ≤ 59) :
    (candM (pad2 mi ++ r)).head? = some (mi, r) := by
  interval_cases mi <;> rfl

theorem candS_head (ss : Nat) (r : Text) (h2 : ss ≤ 59) :
    (candS (pad2 ss ++ r)).head? = some (ss, r) := by
  interval_cases ss <;> rfl

/-! ### C9: directive-level head lemmas and `%y` century facts -/

theorem tokCands_lit_head (c : Char) (r : Text) (hws : isPyWS c = false) :
    (tokCands (.lit c) (c :: r)).head? = some (id, r) := by
  show (if isPyWS c = true
      then (wsCands (c :: r)).map (fun q => ((id : PyDate → PyDate), q))
      else if c = c then [((id : PyDate → PyDate), r)] else []).head? = some (id, r)
  rw [if_neg (by simp [hws]), if_pos rfl]
  rfl

theorem tokCands_ws_head (a : Char) (r : Text) (ha : isDigitC a = true) :
    (tokCands (.lit ' ') (' ' :: a :: r)).head? = some (id, a :: r) := by
  have hws : isPyWS a = false := isDigitC_not_ws a ha
  have hk : wsCands (' ' :: a :: r) = [a :: r] := by
    unfold wsCands
    have ht : (' ' :: a :: r).takeWhile isPyWS = [' '] := by
      rw [List.takeWhile_cons_of_pos (by decide), List.takeWhile_cons_of_neg (by simp [hws])]
    rw [ht]
    rfl
  show (if isPyWS ' ' = true
      then (wsCands (' ' :: a :: r)).map (fun q => ((id : PyDate → PyDate), q))
      else if ' ' = ' ' then [((id : PyDate → PyDate), a :: r)] else []).head?
    = some (id, a :: r)
  rw [if_pos (show isPyWS ' ' = true from rfl), hk]
  rfl

theorem tokCands_ws_pad2 (v : Nat) (r : Text) (h : v < 100) :
    (tokCands (.lit ' ') (' ' :: (pad2 v ++ r))).head? = some (id, pad2 v ++ r) := by
  rw [pad2_shape v h]
  exact tokCands_ws_head (digitChr (v / 10)) (digitChr (v % 10) :: r)
    (digitChr_isDigit _ (by omega))

theorem tokCands_dY_head (y : Nat) (r : Text) (h1 : 1000 ≤ y) (h2 : y ≤ 9999) :
    (tokCands .dY (natStr y ++ r)).head?
      = some ((fun dt => { dt with y := y }), r) := by
  simp only [tokCands]
  rw [List.head?_map, candY_head y r h1 h2]
  rfl

theorem tokCands_dy_head (v : Nat) (r : Text) (h : v < 100) :
    (tokCands .dy (pad2 v ++ r)).head?
      = some ((fun dt => { dt with y := pyY2 v }), r) := by
  simp only [tokCands]
  rw [List.head?_map, candy2_head v r h]
  rfl

theorem tokCands_dm_head (mo : Nat) (r : Text) (h1 : 1 ≤ mo) (h2 : mo ≤ 12) :
    (tokCands .dm (pad2 mo ++ r)).head?
      = some ((fun dt => { dt with mo := mo }), r) := by
  simp only [tokCands]
  rw [List.head?_map, candm_head mo r h1 h2]
  rfl

theorem tokCands_dd_head (d : Nat) (r : Text) (h1 : 1 ≤ d) (h2 : d ≤ 31) :
    (tokCands .dd (pad2 d ++ r)).head?
      = some ((fun dt => { dt with d := d }), r) := by
  simp only [tokCands]
  rw [List.head?_map, candd_head d r h1 h2]
  rfl

theorem tokCands_dH_head (hh : Nat) (r : Text) (h2 : hh ≤ 23) :
    (tokCands .dH (pad2 hh ++ r)).head?
      = some ((fun dt => { dt with hh := hh }), r) := by
  simp only [tokCands]
  rw [List.head?_map, candH_head hh r h2]
  rfl

theorem tokCands_dM_head (mi : Nat) (r : Text) (h2 : mi ≤ 59) :
    (tokCands .dM (pad2 mi ++ r)).head?
      = some ((fun dt => { dt with mi := mi }), r) := by
  simp only [tokCands]
  rw [List.head?_map, candM_head mi r h2]
  rfl

theorem tokCands_dS_head (ss : Nat) (r : Text) (h2 : ss ≤ 59) :
    (tokCands .dS (pad2 ss ++ r)).head?
      = some ((fun dt => { dt with ss := ss }), r) := by
  simp only [tokCands]
  rw [List.head?_map, candS_head ss r h2]
  rfl

theorem pyY2_bounds (v : Nat) (h : v < 100) : 1969 ≤ pyY2 v ∧ pyY2 v ≤ 2068 := by
  unfold pyY2
  by_cases h68 : v ≤ 68
  · rw [if_pos h68]; omega
  · rw [if_neg h68]; omega

theorem isLeap_pyY2 (y : Nat) (h : isLeap y = true) : isLeap (pyY2 (y % 100)) = true := by
  unfold isLeap at h ⊢
  rw [decide_eq_true_eq] at h ⊢
  unfold pyY2
  by_cases h68 : y % 100 ≤ 68
  · rw [if_pos h68]; omega
  · rw [if_neg h68]; omega

theorem daysInMonth_pyY2 (y mo : Nat) :
    daysInMonth y mo ≤ daysInMonth (pyY2 (y % 100)) mo := by
  unfold daysInMonth
  by_cases h2 : mo = 2
  · rw [if_pos h2, if_pos h2]
    by_cases hl : isLeap y = true
    · rw [if_pos hl, if_pos (isLeap_pyY2 y hl)]
    · rw [if_neg hl]
      by_cases hl2 : isLeap (pyY2 (y % 100)) = true
      · rw [if_pos hl2]; omega
      · rw [if_neg hl2]
  · rw [if_neg h2, if_neg h2]

theorem strptime_valid (s f : Text) (dt : PyDate) (h : strptime s f = some dt) :
    validDate dt = true := by
  unfold strptime at h
  cases hp : parseToks (fmtToks f) s pyDateDefault with
  | none => rw [hp] at h; cases h
  | some q =>
    rw [hp] at h
    obtain ⟨p, rest⟩ := q
    cases rest with
    | nil =>
      have h' : (if validDate p = true then some p else none) = some dt := h
      by_cases hv : validDate p = true
      · rw [if_pos hv] at h'
        cases h'
        exact hv
      · rw [if_neg hv] at h'
        cases h'
    | cons a t => cases h

/-! ### C9: formatted output of a valid date re-parses, per format -/

theorem reparse_f1 (e : PyDate) (hv : validDate e = true) (hy : 1000 ≤ e.y) :
    strptime (strftime e "%Y-%m-%d".toList) "%Y-%m-%d".toList
      = some ⟨e.y, e.mo, e.d, 0, 0, 0⟩ := by
  obtain ⟨hy1, hy2, hmo1, hmo2, hd1, hd2, hhh, hmi, hss⟩ := (validDate_iff e).mp hv
  have hd31 : e.d ≤ 31 := le_trans hd2 (dim_le31 e.y e.mo)
  have hfmt : fmtToks "%Y-%m-%d".toList = [.dY, .lit '-', .dm, .lit '-', .dd] := rfl
  have htext : strftime e "%Y-%m-%d".toList
      = natStr e.y ++ ('-' :: (pad2 e.mo ++ ('-' :: (pad2 e.d ++ [])))) := rfl
  have s5 : ∀ dt : PyDate, parseToks [.dd] (pad2 e.d ++ []) dt
      = some ({ dt with d := e.d }, []) := fun dt =>
    parseToks_cons_head _ _ _ _ _ dt _ (tokCands_dd_head e.d [] hd1 hd31) rfl
  have s4 : ∀ dt : PyDate, parseToks [.lit '-', .dd] ('-' :: (pad2 e.d ++ [])) dt
      = some ({ dt with d := e.d }, []) := fun dt =>
    parseToks_cons_head _ _ _ _ _ dt _ (tokCands_lit_head '-' _ (by decide)) (s5 dt)
  have s3 : ∀ dt : PyDate, parseToks [.dm, .lit '-', .dd]
      (pad2 e.mo ++ ('-' :: (pad2 e.d ++ []))) dt
      = some ({ ({ dt with mo := e.mo }) with d := e.d }, []) := fun dt =>
    parseToks_cons_head _ _ _ _ _ dt _ (tokCands_dm_head e.mo _ hmo1 hmo2) (s4 _)
  have s2 : ∀ dt : PyDate, parseToks [.lit '-', .dm, .lit '-', .dd]
      ('-' :: (pad2 e.mo ++ ('-' :: (pad2 e.d ++ [])))) dt
      = some ({ ({ dt with mo := e.mo }) with d := e.d }, []) := fun dt =>
    parseToks_cons_head _ _ _ _ _ dt _ (tokCands_lit_head '-' _ (by decide)) (s3 dt)
  have s1 : parseToks [.dY, .lit '-', .dm, .lit '-', .dd]
      (natStr e.y ++ ('-' :: (pad2 e.mo ++ ('-' :: (pad2 e.d ++ []))))) pyDateDefault
      = some ({ ({ ({ pyDateDefault with y := e.y }) with mo := e.mo }) with d := e.d }, []) :=
    parseToks_cons_head _ _ _ _ _ pyDateDefault _ (tokCands_dY_head e.y _ hy hy2) (s2 _)
  have hval : validDate ({ ({ ({ pyDateDefault with y := e.y }) with mo := e.mo })
      with d := e.d }) = true := by
    rw [validDate_iff]
    exact ⟨hy1, hy2, hmo1, hmo2, hd1, hd2, Nat.zero_le _, Nat.zero_le _, Nat.zero_le _⟩
  unfold strptime
  rw [hfmt, htext, s1]
  show (if validDate ({ ({ ({ pyDateDefault with y := e.y }) with mo := e.mo })
      with d := e.d }) = true
    then some ({ ({ ({ pyDateDefault with y := e.y }) with mo := e.mo }) with d := e.d })
    else none) = some ⟨e.y, e.mo, e.d, 0, 0, 0⟩
  rw [if_pos hval]
  rfl

/-! ### C9: remaining format re-parse lemmas -/

theorem reparse_f2 (e : PyDate) (hv : validDate e = true) (hy : 1000 ≤ e.y) :
    strptime (strftime e "%y-%m-%d".toList) "%y-%m-%d".toList
      = some ⟨pyY2 (e.y % 100), e.mo, e.d, 0, 0, 0⟩ := by
  obtain ⟨hy1, hy2, hmo1, hmo2, hd1, hd2, hhh, hmi, hss⟩ := (validDate_iff e).mp hv
  have hd31 : e.d ≤ 31 := le_trans hd2 (dim_le31 e.y e.mo)
  have hfmt : fmtToks "%y-%m-%d".toList = [.dy, .lit '-', .dm, .lit '-', .dd] := rfl
  have htext : strftime e "%y-%m-%d".toList
      = pad2 (e.y % 100) ++ ('-' :: (pad2 e.mo ++ ('-' :: (pad2 e.d ++ ([]))))) := rfl
  have s5 : ∀ dt : PyDate, parseToks [.dd]
      (pad2 e.d ++ ([])) dt
      = some (⟨dt.y, dt.mo, e.d, dt.hh, dt.mi, dt.ss⟩, []) := fun dt =>
    parseToks_cons_head _ _ _ _ _ dt _ (tokCands_dd_head e.d ([]) hd1 hd31) rfl
  have s4 : ∀ dt : PyDate, parseToks [.lit '-', .dd]
      ('-' :: (pad2 e.d ++ ([]))) dt
      = some (⟨dt.y, dt.mo, e.d, dt.hh, dt.mi, dt.ss⟩, []) := fun dt =>
    parseToks_cons_head _ _ _ _ _ dt _ (tokCands_lit_head '-' (pad2 e.d ++ ([])) (by decide)) (s5 _)
  have s3 : ∀ dt : PyDate, parseToks [.dm, .lit '-', .dd]
      (pad2 e.mo ++ ('-' :: (pad2 e.d ++ ([])))) dt
      = some (⟨dt.y, e.mo, e.d, dt.hh, dt.mi, dt.ss⟩, []) := fun dt =>
    parseToks_cons_head _ _ _ _ _ dt _ (tokCands_dm_head e.mo ('-' :: (pad2 e.d ++ ([]))) hmo1 hmo2) (s4 _)
  have s2 : ∀ dt : PyDate, parseToks [.lit '-', .dm, .lit '-', .dd]
      ('-' :: (pad2 e.mo ++ ('-' :: (pad2 e.d ++ ([]))))) dt
      = some (⟨dt.y, e.mo, e.d, dt.hh, dt.mi, dt.ss⟩, []) := fun dt =>
    parseToks_cons_head _ _ _ _ _ dt _ (tokCands_lit_head '-' (pad2 e.mo ++ ('-' :: (pad2 e.d ++ ([])))) (by decide)) (s3 _)
  have s1 : ∀ dt : PyDate, parseToks [.dy, .lit '-', .dm, .lit '-', .dd]
      (pad2 (e.y % 100) ++ ('-' :: (pad2 e.mo ++ ('-' :: (pad2 e.d ++ ([])))))) dt
      = some (⟨pyY2 (e.y % 100), e.mo, e.d, dt.hh, dt.mi, dt.ss⟩, []) := fun dt =>
    parseToks_cons_head _ _ _ _ _ dt _ (tokCands_dy_head (e.y % 100) ('-' :: (pad2 e.mo ++ ('-' :: (pad2 e.d ++ ([]))))) (by omega)) (s2 _)
  have hval : validDate ⟨pyY2 (e.y % 100), e.mo, e.d, 0, 0, 0⟩ = true := by
    rw [validDate_iff]
    obtain ⟨hb1, hb2⟩ := pyY2_bounds (e.y % 100) (by omega)
    exact ⟨(show 1 ≤ pyY2 (e.y % 100) by omega), (show pyY2 (e.y % 100) ≤ 9999 by omega),
      hmo1, hmo2, hd1, le_trans hd2 (daysInMonth_pyY2 e.y e.mo),
      Nat.zero_le _, Nat.zero_le _, Nat.zero_le _⟩
  unfold strptime
  rw [hfmt, htext]
  rw [s1 pyDateDefault]
  show (if validDate (⟨pyY2 (e.y % 100), e.mo, e.d, 0, 0, 0⟩ : PyDate) = true
    then some (⟨pyY2 (e.y % 100), e.mo, e.d, 0, 0, 0⟩ : PyDate) else none) = some (⟨pyY2 (e.y % 100), e.mo, e.d, 0, 0, 0⟩ : PyDate)
  exact if_pos hval

theorem reparse_f3 (e : PyDate) (hv : validDate e = true) (hy : 1000 ≤ e.y) :
    strptime (strftime e "%d/%m/%Y".toList) "%d/%m/%Y".toList
      = some ⟨e.y, e.mo, e.d, 0, 0, 0⟩ := by
  obtain ⟨hy1, hy2, hmo1, hmo2, hd1, hd2, hhh, hmi, hss⟩ := (validDate_iff e).mp hv
  have hd31 : e.d ≤ 31 := le_trans hd2 (dim_le31 e.y e.mo)
  have hfmt : fmtToks "%d/%m/%Y".toList = [.dd, .lit '/', .dm, .lit '/', .dY] := rfl
  have htext : strftime e "%d/%m/%Y".toList
      = pad2 e.d ++ ('/' :: (pad2 e.mo ++ ('/' :: (natStr e.y ++ ([]))))) := rfl
  have s5 : ∀ dt : PyDate, parseToks [.dY]
      (natStr e.y ++ ([])) dt
      = some (⟨e.y, dt.mo, dt.d, dt.hh, dt.mi, dt.ss⟩, []) := fun dt =>
    parseToks_cons_head _ _ _ _ _ dt _ (tokCands_dY_head e.y ([]) hy hy2) rfl
  have s4 : ∀ dt : PyDate, parseToks [.lit '/', .dY]
      ('/' :: (natStr e.y ++ ([]))) dt
      = some (⟨e.y, dt.mo, dt.d, dt.hh, dt.mi, dt.ss⟩, []) := fun dt =>
    parseToks_cons_head _ _ _ _ _ dt _ (tokCands_lit_head '/' (natStr e.y ++ ([])) (by decide)) (s5 _)
  have s3 : ∀ dt : PyDate, parseToks [.dm, .lit '/', .dY]
      (pad2 e.mo ++ ('/' :: (natStr e.y ++ ([])))) dt
      = some (⟨e.y, e.mo, dt.d, dt.hh, dt.mi, dt.ss⟩, []) := fun dt =>
    parseToks_cons_head _ _ _ _ _ dt _ (tokCands_dm_head e.mo ('/' :: (natStr e.y ++ ([]))) hmo1 hmo2) (s4 _)
  have s2 : ∀ dt : PyDate, parseToks [.lit '/', .dm, .lit '/', .dY]
      ('/' :: (pad2 e.mo ++ ('/' :: (natStr e.y ++ ([]))))) dt
      = some (⟨e.y, e.mo, dt.d, dt.hh, dt.mi, dt.ss⟩, []) := fun dt =>
    parseToks_cons_head _ _ _ _ _ dt _ (tokCands_lit_head '/' (pad2 e.mo ++ ('/' :: (natStr e.y ++ ([])))) (by decide)) (s3 _)
  have s1 : ∀ dt : PyDate, parseToks [.dd, .lit '/', .dm, .lit '/', .dY]
      (pad2 e.d ++ ('/' :: (pad2 e.mo ++ ('/' :: (natStr e.y ++ ([])))))) dt
      = some (⟨e.y, e.mo, e.d, dt.hh, dt.mi, dt.ss⟩, []) := fun dt =>
    parseToks_cons_head _ _ _ _ _ dt _ (tokCands_dd_head e.d ('/' :: (pad2 e.mo ++ ('/' :: (natStr e.y ++ ([]))))) hd1 hd31) (s2 _)
  have hval : validDate ⟨e.y, e.mo, e.d, 0, 0, 0⟩ = true := by
    rw [validDate_iff]
    exact ⟨hy1, hy2, hmo1, hmo2, hd1, hd2, Nat.zero_le _, Nat.zero_le _, Nat.zero_le _⟩
  unfold strptime
  rw [hfmt, htext]
  rw [s1 pyDateDefault]
  show (if validDate (⟨e.y, e.mo, e.d, 0, 0, 0⟩ : PyDate) = true
    then some (⟨e.y, e.mo, e.d, 0, 0, 0⟩ : PyDate) else none) = some (⟨e.y, e.mo, e.d, 0, 0, 0⟩ : PyDate)
  exact if_pos hval

theorem reparse_f4 (e : PyDate) (hv : validDate e = true) (hy : 1000 ≤ e.y) :
    strptime (strftime e "%Y/%m/%d".toList) "%Y/%m/%d".toList
      = some ⟨e.y, e.mo, e.d, 0, 0, 0⟩ := by
  obtain ⟨hy1, hy2, hmo1, hmo2, hd1, hd2, hhh, hmi, hss⟩ := (validDate_iff e).mp hv
  have hd31 : e.d ≤ 31 := le_trans hd2 (dim_le31 e.y e.mo)
  have hfmt : fmtToks "%Y/%m/%d".toList = [.dY, .lit '/', .dm, .lit '/', .dd] := rfl
  have htext : strftime e "%Y/%m/%d".toList
      = natStr e.y ++ ('/' :: (pad2 e.mo ++ ('/' :: (pad2 e.d ++ ([]))))) := rfl
  have s5 : ∀ dt : PyDate, parseToks [.dd]
      (pad2 e.d ++ ([])) dt
      = some (⟨dt.y, dt.mo, e.d, dt.hh, dt.mi, dt.ss⟩, []) := fun dt =>
    parseToks_cons_head _ _ _ _ _ dt _ (tokCands_dd_head e.d ([]) hd1 hd31) rfl
  have s4 : ∀ dt : PyDate, parseToks [.lit '/', .dd]
      ('/' :: (pad2 e.d ++ ([]))) dt
      = some (⟨dt.y, dt.mo, e.d, dt.hh, dt.mi, dt.ss⟩, []) := fun dt =>
    parseToks_cons_head _ _ _ _ _ dt _ (tokCands_lit_head '/' (pad2 e.d ++ ([])) (by decide)) (s5 _)
  have s3 : ∀ dt : PyDate, parseToks [.dm, .lit '/', .dd]
      (pad2 e.mo ++ ('/' :: (pad2 e.d ++ ([])))) dt
      = some (⟨dt.y, e.mo, e.d, dt.hh, dt.mi, dt.ss⟩, []) := fun dt =>
    parseToks_cons_head _ _ _ _ _ dt _ (tokCands_dm_head e.mo ('/' :: (pad2 e.d ++ ([]))) hmo1 hmo2) (s4 _)
  have s2 : ∀ dt : PyDate, parseToks [.lit '/', .dm, .lit '/', .dd]
      ('/' :: (pad2 e.mo ++ ('/' :: (pad2 e.d ++ ([]))))) dt
      = some (⟨dt.y, e.mo, e.d, dt.hh, dt.mi, dt.ss⟩, []) := fun dt =>
    parseToks_cons_head _ _ _ _ _ dt _ (tokCands_lit_head '/' (pad2 e.mo ++ ('/' :: (pad2 e.d ++ ([])))) (by decide)) (s3 _)
  have s1 : ∀ dt : PyDate, parseToks [.dY, .lit '/', .dm, .lit '/', .dd]
      (natStr e.y ++ ('/' :: (pad2 e.mo ++ ('/' :: (pad2 e.d ++ ([])))))) dt
      = some (⟨e.y, e.mo, e.d, dt.hh, dt.mi, dt.ss⟩, []) := fun dt =>
    parseToks_cons_head _ _ _ _ _ dt _ (tokCands_dY_head e.y ('/' :: (pad2 e.mo ++ ('/' :: (pad2 e.d ++ ([]))))) hy hy2) (s2 _)
  have hval : validDate ⟨e.y, e.mo, e.d, 0, 0, 0⟩ = true := by
    rw [validDate_iff]
    exact ⟨hy1, hy2, hmo1, hmo2, hd1, hd2, Nat.zero_le _, Nat.zero_le _, Nat.zero_le _⟩
  unfold strptime
  rw [hfmt, htext]
  rw [s1 pyDateDefault]
  show (if validDate (⟨e.y, e.mo, e.d, 0, 0, 0⟩ : PyDate) = true
    then some (⟨e.y, e.mo, e.d, 0, 0, 0⟩ : PyDate) else none) = some (⟨e.y, e.mo, e.d, 0, 0, 0⟩ : PyDate)
  exact if_pos hval

theorem reparse_f5 (e : PyDate) (hv : validDate e = true) (hy : 1000 ≤ e.y) :
    strptime (strftime e "%Y/%m/%d %H:%M:%S".toList) "%Y/%m/%d %H:%M:%S".toList
      = some ⟨e.y, e.mo, e.d, e.hh, e.mi, e.ss⟩ := by
  obtain ⟨hy1, hy2, hmo1, hmo2, hd1, hd2, hhh, hmi, hss⟩ := (validDate_iff e).mp hv
  have hd31 : e.d ≤ 31 := le_trans hd2 (dim_le31 e.y e.mo)
  have hfmt : fmtToks "%Y/%m/%d %H:%M:%S".toList = [.dY, .lit '/', .dm, .lit '/', .dd, .lit ' ', .dH, .lit ':', .dM, .lit ':', .dS] := rfl
  have htext : strftime e "%Y/%m/%d %H:%M:%S".toList
      = natStr e.y ++ ('/' :: (pad2 e.mo ++ ('/' :: (pad2 e.d ++ (' ' :: (pad2 e.hh ++ (':' :: (pad2 e.mi ++ (':' :: (pad2 e.ss ++ ([]))))))))))) := rfl
  have s11 : ∀ dt : PyDate, parseToks [.dS]
      (pad2 e.ss ++ ([])) dt
      = some (⟨dt.y, dt.mo, dt.d, dt.hh, dt.mi, e.ss⟩, []) := fun dt =>
    parseToks_cons_head _ _ _ _ _ dt _ (tokCands_dS_head e.ss ([]) hss) rfl
  have s10 : ∀ dt : PyDate, parseToks [.lit ':', .dS]
      (':' :: (pad2 e.ss ++ ([]))) dt
      = some (⟨dt.y, dt.mo, dt.d, dt.hh, dt.mi, e.ss⟩, []) := fun dt =>
    parseToks_cons_head _ _ _ _ _ dt _ (tokCands_lit_head ':' (pad2 e.ss ++ ([])) (by decide)) (s11 _)
  have s9 : ∀ dt : PyDate, parseToks [.dM, .lit ':', .dS]
      (pad2 e.mi ++ (':' :: (pad2 e.ss ++ ([])))) dt
      = some (⟨dt.y, dt.mo, dt.d, dt.hh, e.mi, e.ss⟩, []) := fun dt =>
    parseToks_cons_head _ _ _ _ _ dt _ (tokCands_dM_head e.mi (':' :: (pad2 e.ss ++ ([]))) hmi) (s10 _)
  have s8 : ∀ dt : PyDate, parseToks [.lit ':', .dM, .lit ':', .dS]
      (':' :: (pad2 e.mi ++ (':' :: (pad2 e.ss ++ ([]))))) dt
      = some (⟨dt.y, dt.mo, dt.d, dt.hh, e.mi, e.ss⟩, []) := fun dt =>
    parseToks_cons_head _ _ _ _ _ dt _ (tokCands_lit_head ':' (pad2 e.mi ++ (':' :: (pad2 e.ss ++ ([])))) (by decide)) (s9 _)
  have s7 : ∀ dt : PyDate, parseToks [.dH, .lit ':', .dM, .lit ':', .dS]
      (pad2 e.hh ++ (':' :: (pad2 e.mi ++ (':' :: (pad2 e.ss ++ ([])))))) dt
      = some (⟨dt.y, dt.mo, dt.d, e.hh, e.mi, e.ss⟩, []) := fun dt =>
    parseToks_cons_head _ _ _ _ _ dt _ (tokCands_dH_head e.hh (':' :: (pad2 e.mi ++ (':' :: (pad2 e.ss ++ ([]))))) hhh) (s8 _)
  have s6 : ∀ dt : PyDate, parseToks [.lit ' ', .dH, .lit ':', .dM, .lit ':', .dS]
      (' ' :: (pad2 e.hh ++ (':' :: (pad2 e.mi ++ (':' :: (pad2 e.ss ++ ([]))))))) dt
      = some (⟨dt.y, dt.mo, dt.d, e.hh, e.mi, e.ss⟩, []) := fun dt =>
    parseToks_cons_head _ _ _ _ _ dt _ (tokCands_ws_pad2 e.hh (':' :: (pad2 e.mi ++ (':' :: (pad2 e.ss ++ ([]))))) (by omega)) (s7 _)
  have s5 : ∀ dt : PyDate, parseToks [.dd, .lit ' ', .dH, .lit ':', .dM, .lit ':', .dS]
      (pad2 e.d ++ (' ' :: (pad2 e.hh ++ (':' :: (pad2 e.mi ++ (':' :: (pad2 e.ss ++ ([])))))))) dt
      = some (⟨dt.y, dt.mo, e.d, e.hh, e.mi, e.ss⟩, []) := fun dt =>
    parseToks_cons_head _ _ _ _ _ dt _ (tokCands_dd_head e.d (' ' :: (pad2 e.hh ++ (':' :: (pad2 e.mi ++ (':' :: (pad2 e.ss ++ ([]))))))) hd1 hd31) (s6 _)
  have s4 : ∀ dt : PyDate, parseToks [.lit '/', .dd, .lit ' ', .dH, .lit ':', .dM, .lit ':', .dS]
      ('/' :: (pad2 e.d ++ (' ' :: (pad2 e.hh ++ (':' :: (pad2 e.mi ++ (':' :: (pad2 e.ss ++ ([]))))))))) dt
      = some (⟨dt.y, dt.mo, e.d, e.hh, e.mi, e.ss⟩, []) := fun dt =>
    parseToks_cons_head _ _ _ _ _ dt _ (tokCands_lit_head '/' (pad2 e.d ++ (' ' :: (pad2 e.hh ++ (':' :: (pad2 e.mi ++ (':' :: (pad2 e.ss ++ ([])))))))) (by decide)) (s5 _)
  have s3 : ∀ dt : PyDate, parseToks [.dm, .lit '/', .dd, .lit ' ', .dH, .lit ':', .dM, .lit ':', .dS]
      (pad2 e.mo ++ ('/' :: (pad2 e.d ++ (' ' :: (pad2 e.hh ++ (':' :: (pad2 e.mi ++ (':' :: (pad2 e.ss ++ ([])))))))))) dt
      = some (⟨dt.y, e.mo, e.d, e.hh, e.mi, e.ss⟩, []) := fun dt =>
    parseToks_cons_head _ _ _ _ _ dt _ (tokCands_dm_head e.mo ('/' :: (pad2 e.d ++ (' ' :: (pad2 e.hh ++ (':' :: (pad2 e.mi ++ (':' :: (pad2 e.ss ++ ([]))))))))) hmo1 hmo2) (s4 _)
  have s2 : ∀ dt : PyDate, parseToks [.lit '/', .dm, .lit '/', .dd, .lit ' ', .dH, .lit ':', .dM, .lit ':', .dS]
      ('/' :: (pad2 e.mo ++ ('/' :: (pad2 e.d ++ (' ' :: (pad2 e.hh ++ (':' :: (pad2 e.mi ++ (':' :: (pad2 e.ss ++ ([]))))))))))) dt
      = some (⟨dt.y, e.mo, e.d, e.hh, e.mi, e.ss⟩, []) := fun dt =>
    parseToks_cons_head _ _ _ _ _ dt _ (tokCands_lit_head '/' (pad2 e.mo ++ ('/' :: (pad2 e.d ++ (' ' :: (pad2 e.hh ++ (':' :: (pad2 e.mi ++ (':' :: (pad2 e.ss ++ ([])))))))))) (by decide)) (s3 _)
  have s1 : ∀ dt : PyDate, parseToks [.dY, .lit '/', .dm, .lit '/', .dd, .lit ' ', .dH, .lit ':', .dM, .lit ':', .dS]
      (natStr e.y ++ ('/' :: (pad2 e.mo ++ ('/' :: (pad2 e.d ++ (' ' :: (pad2 e.hh ++ (':' :: (pad2 e.mi ++ (':' :: (pad2 e.ss ++ ([])))))))))))) dt
      = some (⟨e.y, e.mo, e.d, e.hh, e.mi, e.ss⟩, []) := fun dt =>
    parseToks_cons_head _ _ _ _ _ dt _ (tokCands_dY_head e.y ('/' :: (pad2 e.mo ++ ('/' :: (pad2 e.d ++ (' ' :: (pad2 e.hh ++ (':' :: (pad2 e.mi ++ (':' :: (pad2 e.ss ++ ([]))))))))))) hy hy2) (s2 _)
  have hval : validDate ⟨e.y, e.mo, e.d, e.hh, e.mi, e.ss⟩ = true := by
    rw [validDate_iff]
    exact ⟨hy1, hy2, hmo1, hmo2, hd1, hd2, hhh, hmi, hss⟩
  unfold strptime
  rw [hfmt, htext]
  rw [s1 pyDateDefault]
  show (if validDate (⟨e.y, e.mo, e.d, e.hh, e.mi, e.ss⟩ : PyDate) = true
    then some (⟨e.y, e.mo, e.d, e.hh, e.mi, e.ss⟩ : PyDate) else none) = some (⟨e.y, e.mo, e.d, e.hh, e.mi, e.ss⟩ : PyDate)
  exact if_pos hval

theorem reparse_f6 (e : PyDate) (hv : validDate e = true) (hy : 1000 ≤ e.y) :
    strptime (strftime e "%Y-%m-%d %H:%M:%S".toList) "%Y-%m-%d %H:%M:%S".toList
      = some ⟨e.y, e.mo, e.d, e.hh, e.mi, e.ss⟩ := by
  obtain ⟨hy1, hy2, hmo1, hmo2, hd1, hd2, hhh, hmi, hss⟩ := (validDate_iff e).mp hv
  have hd31 : e.d ≤ 31 := le_trans hd2 (dim_le31 e.y e.mo)
  have hfmt : fmtToks "%Y-%m-%d %H:%M:%S".toList = [.dY, .lit '-', .dm, .lit '-', .dd, .lit ' ', .dH, .lit ':', .dM, .lit ':', .dS] := rfl
  have htext : strftime e "%Y-%m-%d %H:%M:%S".toList
      = natStr e.y ++ ('-' :: (pad2 e.mo ++ ('-' :: (pad2 e.d ++ (' ' :: (pad2 e.hh ++ (':' :: (pad2 e.mi ++ (':' :: (pad2 e.ss ++ ([]))))))))))) := rfl
  have s11 : ∀ dt : PyDate, parseToks [.dS]
      (pad2 e.ss ++ ([])) dt
      = some (⟨dt.y, dt.mo, dt.d, dt.hh, dt.mi, e.ss⟩, []) := fun dt =>
    parseToks_cons_head _ _ _ _ _ dt _ (tokCands_dS_head e.ss ([]) hss) rfl
  have s10 : ∀ dt : PyDate, parseToks [.lit ':', .dS]
      (':' :: (pad2 e.ss ++ ([]))) dt
      = some (⟨dt.y, dt.mo, dt.d, dt.hh, dt.mi, e.ss⟩, []) := fun dt =>
    parseToks_cons_head _ _ _ _ _ dt _ (tokCands_lit_head ':' (pad2 e.ss ++ ([])) (by decide)) (s11 _)
  have s9 : ∀ dt : PyDate, parseToks [.dM, .lit ':', .dS]
      (pad2 e.mi ++ (':' :: (pad2 e.ss ++ ([])))) dt
      = some (⟨dt.y, dt.mo, dt.d, dt.hh, e.mi, e.ss⟩, []) := fun dt =>
    parseToks_cons_head _ _ _ _ _ dt _ (tokCands_dM_head e.mi (':' :: (pad2 e.ss ++ ([]))) hmi) (s10 _)
  have s8 : ∀ dt : PyDate, parseToks [.lit ':', .dM, .lit ':', .dS]
      (':' :: (pad2 e.mi ++ (':' :: (pad2 e.ss ++ ([]))))) dt
      = some (⟨dt.y, dt.mo, dt.d, dt.hh, e.mi, e.ss⟩, []) := fun dt =>
    parseToks_cons_head _ _ _ _ _ dt _ (tokCands_lit_head ':' (pad2 e.mi ++ (':' :: (pad2 e.ss ++ ([])))) (by decide)) (s9 _)
  have s7 : ∀ dt : PyDate, parseToks [.dH, .lit ':', .dM, .lit ':', .dS]
      (pad2 e.hh ++ (':' :: (pad2 e.mi ++ (':' :: (pad2 e.ss ++ ([])))))) dt
      = some (⟨dt.y, dt.mo, dt.d, e.hh, e.mi, e.ss⟩, []) := fun dt =>
    parseToks_cons_head _ _ _ _ _ dt _ (tokCands_dH_head e.hh (':' :: (pad2 e.mi ++ (':' :: (pad2 e.ss ++ ([]))))) hhh) (s8 _)
  have s6 : ∀ dt : PyDate, parseToks [.lit ' ', .dH, .lit ':', .dM, .lit ':', .dS]
      (' ' :: (pad2 e.hh ++ (':' :: (pad2 e.mi ++ (':' :: (pad2 e.ss ++ ([]))))))) dt
      = some (⟨dt.y, dt.mo, dt.d, e.hh, e.mi, e.ss⟩, []) := fun dt =>
    parseToks_cons_head _ _ _ _ _ dt _ (tokCands_ws_pad2 e.hh (':' :: (pad2 e.mi ++ (':' :: (pad2 e.ss ++ ([]))))) (by omega)) (s7 _)
  have s5 : ∀ dt : PyDate, parseToks [.dd, .lit ' ', .dH, .lit ':', .dM, .lit ':', .dS]
      (pad2 e.d ++ (' ' :: (pad2 e.hh ++ (':' :: (pad2 e.mi ++ (':' :: (pad2 e.ss ++ ([])))))))) dt
      = some (⟨dt.y, dt.mo, e.d, e.hh, e.mi, e.ss⟩, []) := fun dt =>
    parseToks_cons_head _ _ _ _ _ dt _ (tokCands_dd_head e.d (' ' :: (pad2 e.hh ++ (':' :: (pad2 e.mi ++ (':' :: (pad2 e.ss ++ ([]))))))) hd1 hd31) (s6 _)
  have s4 : ∀ dt : PyDate, parseToks [.lit '-', .dd, .lit ' ', .dH, .lit ':', .dM, .lit ':', .dS]
      ('-' :: (pad2 e.d ++ (' ' :: (pad2 e.hh ++ (':' :: (pad2 e.mi ++ (':' :: (pad2 e.ss ++ ([]))))))))) dt
      = some (⟨dt.y, dt.mo, e.d, e.hh, e.mi, e.ss⟩, []) := fun dt =>
    parseToks_cons_head _ _ _ _ _ dt _ (tokCands_lit_head '-' (pad2 e.d ++ (' ' :: (pad2 e.hh ++ (':' :: (pad2 e.mi ++ (':' :: (pad2 e.ss ++ ([])))))))) (by decide)) (s5 _)
  have s3 : ∀ dt : PyDate, parseToks [.dm, .lit '-', .dd, .lit ' ', .dH, .lit ':', .dM, .lit ':', .dS]
      (pad2 e.mo ++ ('-' :: (pad2 e.d ++ (' ' :: (pad2 e.hh ++ (':' :: (pad2 e.mi ++ (':' :: (pad2 e.ss ++ ([])))))))))) dt
      = some (⟨dt.y, e.mo, e.d, e.hh, e.mi, e.ss⟩, []) := fun dt =>
    parseToks_cons_head _ _ _ _ _ dt _ (tokCands_dm_head e.mo ('-' :: (pad2 e.d ++ (' ' :: (pad2 e.hh ++ (':' :: (pad2 e.mi ++ (':' :: (pad2 e.ss ++ ([]))))))))) hmo1 hmo2) (s4 _)
  have s2 : ∀ dt : PyDate, parseToks [.lit '-', .dm, .lit '-', .dd, .lit ' ', .dH, .lit ':', .dM, .lit ':', .dS]
      ('-' :: (pad2 e.mo ++ ('-' :: (pad2 e.d ++ (' ' :: (pad2 e.hh ++ (':' :: (pad2 e.mi ++ (':' :: (pad2 e.ss ++ ([]))))))))))) dt
      = some (⟨dt.y, e.mo, e.d, e.hh, e.mi, e.ss⟩, []) := fun dt =>
    parseToks_cons_head _ _ _ _ _ dt _ (tokCands_lit_head '-' (pad2 e.mo ++ ('-' :: (pad2 e.d ++ (' ' :: (pad2 e.hh ++ (':' :: (pad2 e.mi ++ (':' :: (pad2 e.ss ++ ([])))))))))) (by decide)) (s3 _)
  have s1 : ∀ dt : PyDate, parseToks [.dY, .lit '-', .dm, .lit '-', .dd, .lit ' ', .dH, .lit ':', .dM, .lit ':', .dS]
      (natStr e.y ++ ('-' :: (pad2 e.mo ++ ('-' :: (pad2 e.d ++ (' ' :: (pad2 e.hh ++ (':' :: (pad2 e.mi ++ (':' :: (pad2 e.ss ++ ([])))))))))))) dt
      = some (⟨e.y, e.mo, e.d, e.hh, e.mi, e.ss⟩, []) := fun dt =>
    parseToks_cons_head _ _ _ _ _ dt _ (tokCands_dY_head e.y ('-' :: (pad2 e.mo ++ ('-' :: (pad2 e.d ++ (' ' :: (pad2 e.hh ++ (':' :: (pad2 e.mi ++ (':' :: (pad2 e.ss ++ ([]))))))))))) hy hy2) (s2 _)
  have hval : validDate ⟨e.y, e.mo, e.d, e.hh, e.mi, e.ss⟩ = true := by
    rw [validDate_iff]
    exact ⟨hy1, hy2, hmo1, hmo2, hd1, hd2, hhh, hmi, hss⟩
  unfold strptime
  rw [hfmt, htext]
  rw [s1 pyDateDefault]
  show (if validDate (⟨e.y, e.mo, e.d, e.hh, e.mi, e.ss⟩ : PyDate) = true
    then some (⟨e.y, e.mo, e.d, e.hh, e.mi, e.ss⟩ : PyDate) else none) = some (⟨e.y, e.mo, e.d, e.hh, e.mi, e.ss⟩ : PyDate)
  exact if_pos hval

/-! ### C9: day-iteration stays valid and near the starting year -/

theorem datetime_reparse (f : String) (hf : f ∈ validDateFormats) (e : PyDate)
    (hv : validDate e = true) (hy : 1000 ≤ e.y) :
    (strptime (strftime e f.toList) f.toList).isSome = true := by
  simp only [validDateFormats, List.mem_cons, List.not_mem_nil, or_false] at hf
  rcases hf with rfl | rfl | rfl | rfl | rfl | rfl | rfl
  · rw [reparse_f1 e hv hy]; rfl
  · rw [reparse_f1 e hv hy]; rfl
  · rw [reparse_f2 e hv hy]; rfl
  · rw [reparse_f3 e hv hy]; rfl
  · rw [reparse_f4 e hv hy]; rfl
  · rw [reparse_f5 e hv hy]; rfl
  · rw [reparse_f6 e hv hy]; rfl

theorem succDay_iter (e : PyDate) (hv : validDate e = true) (hy : e.y ≤ 9998) :
    ∀ k, k ≤ 120 → validDate (succDay^[k] e) = true ∧
      ((succDay^[k] e).y = e.y
        ∨ ((succDay^[k] e).y = e.y + 1 ∧ doy (succDay^[k] e) ≤ k)) := by
  intro k
  induction k with
  | zero =>
    intro _
    exact ⟨hv, Or.inl rfl⟩
  | succ k ih =>
    intro hk
    obtain ⟨hvk, hcase⟩ := ih (by omega)
    obtain ⟨hstep, hval, -, -, -⟩ := succDay_step (succDay^[k] e) hvk
    rw [Function.iterate_succ_apply']
    rcases hcase with hsame | ⟨hup, hdoy⟩
    · refine ⟨hval (Or.inl (by rw [hsame]; omega)), ?_⟩
      rcases hstep with ⟨hy', -⟩ | ⟨hy', -, hd'⟩
      · exact Or.inl (by rw [hy', hsame])
      · exact Or.inr ⟨by rw [hy', hsame], by omega⟩
    · have hnotend : ¬((succDay^[k] e).mo = 12
          ∧ (succDay^[k] e).d = daysInMonth (succDay^[k] e).y (succDay^[k] e).mo) := by
        rintro ⟨h12, hde⟩
        have := doy_year_end (succDay^[k] e) h12 hde
        have := daysInYear_ge (succDay^[k] e).y
        omega
      refine ⟨hval (Or.inr hnotend), ?_⟩
      rcases hstep with ⟨hy', hd'⟩ | ⟨-, hde, -⟩
      · exact Or.inr ⟨by rw [hy', hup], by omega⟩
      · have := daysInYear_ge (succDay^[k] e).y
        omega

theorem predDay_iter (e : PyDate) (hv : validDate e = true) (hy : e.y = 9999) :
    ∀ k, k ≤ 120 → validDate (predDay^[k] e) = true ∧
      ((predDay^[k] e).y = 9999
        ∨ ((predDay^[k] e).y = 9998
            ∧ daysInYear 9998 + 1 ≤ doy (predDay^[k] e) + k)) := by
  intro k
  induction k with
  | zero =>
    intro _
    exact ⟨hv, Or.inl hy⟩
  | succ k ih =>
    intro hk
    obtain ⟨hvk, hcase⟩ := ih (by omega)
    obtain ⟨hstep, hval, -, -, -⟩ := predDay_step (predDay^[k] e) hvk
    rw [Function.iterate_succ_apply']
    have hy2 : 2 ≤ (predDay^[k] e).y := by
      rcases hcase with h | ⟨h, -⟩ <;> omega
    refine ⟨hval (Or.inl hy2), ?_⟩
    rcases hcase with hsame | ⟨hdown, hdoy⟩
    · rcases hstep with ⟨hy', -⟩ | ⟨hy', -, hd'⟩
      · exact Or.inl (by rw [hy', hsame])
      · refine Or.inr ⟨by rw [hy', hsame], ?_⟩
        rw [hsame] at hd'
        norm_num at hd'
        omega
    · rcases hstep with ⟨hy', hd'⟩ | ⟨-, hde, -⟩
      · refine Or.inr ⟨by rw [hy', hdown], ?_⟩
        omega
      · have := daysInYear_ge 9998
        omega

/-! ### C9: perturbation shape preservation -/

/-- C9 counterexample: the datetime half of the claim fails for four-digit
formats at years below 1000.  The value `0999-01-01` is typed
`datetime:%Y-%m-%d` by `guess_macro_type`, but the perturbed output renders
the year without zero-padding (`strftime` `%Y` gives `999`), and `999-01-01`
no longer parses under `%Y-%m-%d` (whose regex demands four digits). -/
theorem C9_counterexample :
    guessType (fun _ => true) "0999-01-01".toList = "datetime:%Y-%m-%d" ∧
    tryUncollideDatetimeFn "0999-01-01".toList "%Y-%m-%d".toList 0 = "999-01-01".toList ∧
    strptime "999-01-01".toList "%Y-%m-%d".toList = none := by decide

/-- C9 (amended): an integer-typed macro's perturbed output always re-parses
as an integer; a `datetime:<fmt>` macro's perturbed output (offset drawn from
`[0,120]`) re-parses under `<fmt>` for every format of the source's list
provided the parsed value's year is at least 1000 (years below 1000 render
without zero-padding under `%Y` and are not re-parseable). -/
theorem C9_shape_preserved (v : Int) (off : Nat) (f : String) (s : Text) (dt : PyDate)
    (hf : f ∈ validDateFormats) (hp : strptime s f.toList = some dt)
    (hy : 1000 ≤ dt.y) (hoff : off ≤ 120) :
    (pyIntParse (tryUncollideIntOrDecimalInt v off)).isSome = true ∧
    (strptime (tryUncollideDatetimeFn s f.toList off) f.toList).isSome = true := by
  constructor
  · unfold tryUncollideIntOrDecimalInt
    by_cases hlt : v < 32000
    · rw [if_pos hlt, pyIntStr_roundtrip]; rfl
    · rw [if_neg hlt, pyIntStr_roundtrip]; rfl
  · have hvd : validDate dt = true := strptime_valid s f.toList dt hp
    have hdtb := (validDate_iff dt).mp hvd
    rw [tryUncollideDatetimeFn_parsed s f.toList off dt hp]
    by_cases h99 : dt.y = 9999
    · rw [if_pos h99]
      obtain ⟨hv2, hcase⟩ := predDay_iter dt hvd h99 off hoff
      apply datetime_reparse f hf _ hv2
      rcases hcase with h | ⟨h, -⟩ <;> omega
    · rw [if_neg h99]
      obtain ⟨hv2, hcase⟩ := succDay_iter dt hvd (by omega) off hoff
      apply datetime_reparse f hf _ hv2
      rcases hcase with h | ⟨h, -⟩ <;> omega

theorem C9_shape_preserved_witness :
    (pyIntParse (tryUncollideIntOrDecimalInt 5 3)).isSome = true ∧
    (strptime (tryUncollideDatetimeFn "2012-10-18".toList "%Y-%m-%d".toList 3)
      "%Y-%m-%d".toList).isSome = true :=
  C9_shape_preserved 5 3 "%Y-%m-%d" "2012-10-18".toList ⟨2012, 10, 18, 0, 0, 0⟩
    (by decide) (by decide) (by decide) (by decide)

/-! ### C1: character-class facts about case mapping -/

theorem charEq_of_toNat (a b : Char) (h : a.toNat = b.toNat) : a = b :=
  Char.ext (UInt32.ext h)

theorem toNat_ofNat_small (n : Nat) (h : n ≤ 122) : (Char.ofNat n).toNat = n := by
  have hv : n.isValidChar := Or.inl (by omega)
  rw [Char.ofNat, dif_pos hv]
  rfl

theorem toLower_eval (c : Char) :
    Char.toLower c = if 65 ≤ c.toNat ∧ c.toNat ≤ 90 then Char.ofNat (c.toNat + 32) else c := by
  show (if c.toNat ≥ 65 ∧ c.toNat ≤ 90 then Char.ofNat (c.toNat + 32) else c) = _
  simp only [ge_iff_le]

theorem toUpper_eval (c : Char) :
    Char.toUpper c = if 97 ≤ c.toNat ∧ c.toNat ≤ 122 then Char.ofNat (c.toNat - 32) else c := by
  show (if c.toNat ≥ 97 ∧ c.toNat ≤ 122 then Char.ofNat (c.toNat - 32) else c) = _
  simp only [ge_iff_le]

theorem toLower_toNat (c : Char) : (Char.toLower c).toNat
    = if 65 ≤ c.toNat ∧ c.toNat ≤ 90 then c.toNat + 32 else c.toNat := by
  rw [toLower_eval]
  by_cases h : 65 ≤ c.toNat ∧ c.toNat ≤ 90
  · rw [if_pos h, if_pos h, toNat_ofNat_small _ (by omega)]
  · rw [if_neg h, if_neg h]

theorem toUpper_toNat (c : Char) : (Char.toUpper c).toNat
    = if 97 ≤ c.toNat ∧ c.toNat ≤ 122 then c.toNat - 32 else c.toNat := by
  rw [toUpper_eval]
  by_cases h : 97 ≤ c.toNat ∧ c.toNat ≤ 122
  · rw [if_pos h, if_pos h, toNat_ofNat_small _ (by omega)]
  · rw [if_neg h, if_neg h]

theorem isAlnumA_iff_toNat (c : Char) : isAlnumA c = true ↔
    ((48 ≤ c.toNat ∧ c.toNat ≤ 57) ∨ (97 ≤ c.toNat ∧ c.toNat ≤ 122)
      ∨ (65 ≤ c.toNat ∧ c.toNat ≤ 90)) := by
  unfold isAlnumA
  rw [decide_eq_true_eq]
  exact Iff.rfl

theorem isAlnumA_toLower (c : Char) : isAlnumA (Char.toLower c) = isAlnumA c := by
  by_cases h : isAlnumA c = true
  · rw [h]
    rw [isAlnumA_iff_toNat, toLower_toNat]
    have h2 := (isAlnumA_iff_toNat c).mp h
    by_cases hu : 65 ≤ c.toNat ∧ c.toNat ≤ 90
    · rw [if_pos hu]; omega
    · rw [if_neg hu]; omega
  · have hf : isAlnumA c = false := by
      cases hx : isAlnumA c
      · rfl
      · exact absurd hx h
    rw [hf]
    cases hx : isAlnumA (Char.toLower c)
    · rfl
    · exfalso
      apply h
      have h2 := (isAlnumA_iff_toNat _).mp hx
      rw [toLower_toNat] at h2
      apply (isAlnumA_iff_toNat c).mpr
      by_cases hu : 65 ≤ c.toNat ∧ c.toNat ≤ 90
      · exact Or.inr (Or.inr hu)
      · rw [if_neg hu] at h2
        exact h2

theorem isAlnumA_toUpper (c : Char) : isAlnumA (Char.toUpper c) = isAlnumA c := by
  by_cases h : isAlnumA c = true
  · rw [h]
    rw [isAlnumA_iff_toNat, toUpper_toNat]
    have h2 := (isAlnumA_iff_toNat c).mp h
    by_cases hu : 97 ≤ c.toNat ∧ c.toNat ≤ 122
    · rw [if_pos hu]; omega
    · rw [if_neg hu]; omega
  · have hf : isAlnumA c = false := by
      cases hx : isAlnumA c
      · rfl
      · exact absurd hx h
    rw [hf]
    cases hx : isAlnumA (Char.toUpper c)
    · rfl
    · exfalso
      apply h
      have h2 := (isAlnumA_iff_toNat _).mp hx
      rw [toUpper_toNat] at h2
      apply (isAlnumA_iff_toNat c).mpr
      by_cases hu : 97 ≤ c.toNat ∧ c.toNat ≤ 122
      · exact Or.inr (Or.inl hu)
      · rw [if_neg hu] at h2
        exact h2

theorem toLower_idem (c : Char) : Char.toLower (Char.toLower c) = Char.toLower c := by
  apply charEq_of_toNat
  rw [toLower_toNat, toLower_toNat]
  split_ifs <;> omega

theorem toLower_toUpper (c : Char) :
    Char.toLower (Char.toUpper c) = Char.toLower c := by
  apply charEq_of_toNat
  rw [toLower_toNat, toUpper_toNat, toLower_toNat]
  split_ifs <;> omega

theorem lowerT_idem (t : Text) : lowerT (lowerT t) = lowerT t := by
  unfold lowerT
  rw [List.map_map]
  apply List.map_congr_left
  intro c _
  exact toLower_idem c

theorem lowerT_upperT (t : Text) : lowerT (upperT t) = lowerT t := by
  unfold lowerT upperT
  rw [List.map_map]
  apply List.map_congr_left
  intro c _
  exact toLower_toUpper c

/-! ### C1: matching and replacement toolbox -/

theorem isAlnumA_ne (a b : Char) (ha : isAlnumA a = true) (hb : isAlnumA b = false) :
    a ≠ b := by
  rintro rfl
  rw [ha] at hb
  cases hb

theorem alnum_ne_special (c : Char) (h : isAlnumA c = true) :
    c ≠ '$' ∧ c ≠ '{' ∧ c ≠ '}' ∧ c ≠ '\'' ∧ c ≠ '\\' := by
  refine ⟨?_, ?_, ?_, ?_, ?_⟩ <;> (rintro rfl; exact absurd h (by decide))

theorem nameChar_cases (c : Char) (h : isNameChar c = true) :
    isAlnumA c = true ∨ c = '_' := by
  simp only [isNameChar, isNameStart, isDigitC, isAlnumA, Bool.or_eq_true,
    decide_eq_true_eq] at h ⊢
  tauto

theorem nameChar_ne_special (c : Char) (h : isNameChar c = true) :
    c ≠ '$' ∧ c ≠ '{' ∧ c ≠ '}' ∧ c ≠ '\'' ∧ c ≠ '\\' := by
  rcases nameChar_cases c h with h2 | rfl
  · exact alnum_ne_special c h2
  · refine ⟨?_, ?_, ?_, ?_, ?_⟩ <;> decide

theorem nameStart_isNameChar (c : Char) (h : isNameStart c = true) : isNameChar c = true := by
  simp [isNameChar, h]

theorem nameStart_ne_lbrace (c : Char) (h : isNameStart c = true) : c ≠ '{' := by
  rintro rfl
  exact absurd h (by decide)

theorem litOkC_props (c : Char) (h : litOkC c = true) :
    isAlnumA c = false ∧ c ≠ '$' ∧ c ≠ '\\' ∧ c ≠ '\'' ∧ isNameChar c = false := by
  simp only [litOkC, Bool.and_eq_true, Bool.not_eq_true', decide_eq_true_eq,
    decide_eq_true_eq] at h
  obtain ⟨⟨⟨⟨h1, h2⟩, h3⟩, h4⟩, h5⟩ := h
  refine ⟨h1, h2, h3, h4, ?_⟩
  cases hx : isNameChar c
  · rfl
  · rcases nameChar_cases c hx with h6 | h6
    · rw [h1] at h6; cases h6
    · exact absurd h6 h5

theorem isPfx_nil_pat (t : Text) : isPfx [] t = true := by
  cases t <;> rfl

theorem isPfx_cons_iff (a b : Char) (p t : Text) :
    isPfx (a :: p) (b :: t) = (decide (a = b) && isPfx p t) := rfl

theorem isPfx_cons_ne (a b : Char) (p t : Text) (h : a ≠ b) :
    isPfx (a :: p) (b :: t) = false := by
  rw [isPfx_cons_iff]
  simp [h]

theorem isPfx_head_ne (p t : Text) (hc : Char) (hp : p.head? = some hc)
    (ht : ∀ c ∈ t, c ≠ hc) : ∀ y, t ≠ [] → isPfx p (t ++ y) = false := by
  intro y hne
  cases t with
  | nil => exact absurd rfl hne
  | cons b t' =>
    cases p with
    | nil => cases hp
    | cons a p' =>
      have ha : a = hc := by simpa using hp
      subst ha
      exact isPfx_cons_ne a b p' (t' ++ y) (fun he => ht b (by simp) he.symm)

theorem isPfx_alnum_stop (pat : Text) (hp : ∀ c ∈ pat, isAlnumA c = true)
    (b : Char) (hb : isAlnumA b = false) (rest : Text) :
    ∀ u, isPfx pat (u ++ b :: rest) = isPfx pat u := by
  intro u
  induction u generalizing pat with
  | nil =>
    cases pat with
    | nil => rfl
    | cons a p' =>
      have : a ≠ b := isAlnumA_ne a b (hp a (by simp)) hb
      rw [List.nil_append, isPfx_cons_ne a b p' rest this]
      rfl
  | cons x u' ih =>
    cases pat with
    | nil => rfl
    | cons a p' =>
      show (decide (a = x) && isPfx p' (u' ++ b :: rest)) = (decide (a = x) && isPfx p' u')
      rw [ih p' (fun c hcm => hp c (by simp [hcm]))]

theorem occursB_cons (p : Text) (c : Char) (cs : Text) :
    occursB p (c :: cs) = (isPfx p (c :: cs) || occursB p cs) := rfl

theorem occursB_of_suffix_isPfx (p : Text) : ∀ (x u : Text), u <:+ x →
    isPfx p u = true → occursB p x = true := by
  intro x
  induction x with
  | nil =>
    intro u hs hp
    rw [List.suffix_nil.mp hs] at hp
    cases p with
    | nil => rfl
    | cons a p' => cases hp
  | cons c cs ih =>
    intro u hs hp
    rw [occursB_cons, Bool.or_eq_true]
    rcases List.suffix_cons_iff.mp hs with rfl | hs2
    · exact Or.inl hp
    · exact Or.inr (ih u hs2 hp)

theorem occursB_append_right (p : Text) : ∀ (a x : Text), occursB p x = true →
    occursB p (a ++ x) = true := by
  intro a
  induction a with
  | nil => intro x h; exact h
  | cons c cs ih =>
    intro x h
    rw [List.cons_append, occursB_cons, Bool.or_eq_true]
    exact Or.inr (ih x h)

theorem occursB_append_left (p : Text) : ∀ (x b : Text), occursB p x = true →
    occursB p (x ++ b) = true := by
  intro x
  induction x with
  | nil =>
    intro b h
    cases p with
    | nil =>
      cases b with
      | nil => rfl
      | cons d ds =>
        show occursB [] (d :: ds) = true
        rw [occursB_cons]
        simp [isPfx_nil_pat]
    | cons a p' => cases h
  | cons c cs ih =>
    intro b h
    rw [occursB_cons] at h
    rw [List.cons_append, occursB_cons, Bool.or_eq_true]
    rcases Bool.or_eq_true _ _ |>.mp h with h2 | h2
    · exact Or.inl (isPfx_of_append p (c :: cs) b h2)
    · exact Or.inr (ih b h2)

theorem occursB_infix (p x y : Text) (h : occursB p x = true) (hi : x <:+: y) :
    occursB p y = true := by
  obtain ⟨a, b, rfl⟩ := hi
  rw [List.append_assoc]
  exact occursB_append_right p a (x ++ b) (occursB_append_left p x b h)

theorem isPfx_map_lower (p u : Text) (h : isPfx p u = true) :
    isPfx (lowerT p) (lowerT u) = true := by
  induction p generalizing u with
  | nil => cases u <;> rfl
  | cons a p' ih =>
    cases u with
    | nil => cases h
    | cons b u' =>
      rw [isPfx_cons_iff, Bool.and_eq_true, decide_eq_true_eq] at h
      obtain ⟨rfl, h2⟩ := h
      show isPfx (_ :: lowerT p') (_ :: lowerT u') = true
      rw [isPfx_cons_iff, Bool.and_eq_true, decide_eq_true_eq]
      exact ⟨rfl, ih u' h2⟩

theorem occursB_map_lower (p : Text) : ∀ (s : Text), occursB p s = true →
    occursB (lowerT p) (lowerT s) = true := by
  intro s
  induction s with
  | nil =>
    intro h
    cases p with
    | nil => rfl
    | cons a p' => cases h
  | cons c cs ih =>
    intro h
    rw [occursB_cons, Bool.or_eq_true] at h
    show occursB (lowerT p) (_ :: lowerT cs) = true
    rw [occursB_cons, Bool.or_eq_true]
    rcases h with h2 | h2
    · exact Or.inl (isPfx_map_lower p (c :: cs) h2)
    · exact Or.inr (ih h2)

theorem occursB_nil_false (p : Text) (h : p ≠ []) : occursB p [] = false := by
  cases p with
  | nil => exact absurd rfl h
  | cons a p' => rfl

theorem occursB_cons_nonalnum (p : Text) (hp : ∀ c ∈ p, isAlnumA c = true)
    (hne : p ≠ []) (b : Char) (hb : isAlnumA b = false) (w : Text) :
    occursB p (b :: w) = occursB p w := by
  rw [occursB_cons]
  cases p with
  | nil => exact absurd rfl hne
  | cons a p' =>
    rw [isPfx_cons_ne a b p' w (isAlnumA_ne a b (hp a (by simp)) hb)]
    rfl

theorem occursB_snoc_nonalnum (p : Text) (hp : ∀ c ∈ p, isAlnumA c = true)
    (hne : p ≠ []) (b : Char) (hb : isAlnumA b = false) :
    ∀ w, occursB p (w ++ [b]) = occursB p w := by
  intro w
  induction w with
  | nil =>
    cases p with
    | nil => exact absurd rfl hne
    | cons a p' =>
      rw [List.nil_append, occursB_cons,
        isPfx_cons_ne a b p' [] (isAlnumA_ne a b (hp a (by simp)) hb)]
      rfl
  | cons c cs ih =>
    have h2 := isPfx_alnum_stop p hp b hb [] (c :: cs)
    rw [List.cons_append] at h2
    rw [List.cons_append, occursB_cons, occursB_cons, ih, h2]

theorem pyReplace_nil (p rep : Text) : pyReplace p rep [] = [] := rfl

theorem pyReplace_cons_nomatch (p rep : Text) (c : Char) (cs : Text)
    (h : isPfx p (c :: cs) = false) :
    pyReplace p rep (c :: cs) = c :: pyReplace p rep cs := by
  show (if isPfx p (c :: cs) then rep ++ pyReplaceGo p rep (p.length - 1) cs
    else c :: pyReplaceGo p rep 0 cs) = _
  rw [if_neg (by simp [h])]
  rfl

theorem pyReplace_head_match (p rep : Text) (hne : p ≠ []) (y : Text) :
    pyReplace p rep (p ++ y) = rep ++ pyReplace p rep y := by
  cases p with
  | nil => exact absurd rfl hne
  | cons a p' =>
    show (if isPfx (a :: p') (a :: (p' ++ y))
      then rep ++ pyReplaceGo (a :: p') rep ((a :: p').length - 1) (p' ++ y)
      else a :: pyReplaceGo (a :: p') rep 0 (p' ++ y)) = _
    rw [if_pos]
    · have hl : (a :: p').length - 1 = p'.length := by simp
      rw [hl]
      have := pyReplaceGo_skip (a :: p') rep p' y
      rw [this]
      rfl
    · exact isPfx_append_self (a :: p') y

theorem pyReplace_not_occurs (p rep : Text) : ∀ (s : Text), occursB p s = false →
    pyReplace p rep s = s := by
  intro s
  induction s with
  | nil => intro _; rfl
  | cons c cs ih =>
    intro h
    rw [occursB_cons] at h
    have h1 : isPfx p (c :: cs) = false := by
      cases hx : isPfx p (c :: cs)
      · rfl
      · rw [hx] at h; cases h
    have h2 : occursB p cs = false := by
      cases hx : occursB p cs
      · rfl
      · rw [hx] at h; simp at h
    rw [pyReplace_cons_nomatch p rep c cs h1, ih h2]

theorem pyReplace_append_clean (p rep : Text) : ∀ (x y : Text),
    (∀ u, u <:+ x → u ≠ [] → isPfx p (u ++ y) = false) →
    pyReplace p rep (x ++ y) = x ++ pyReplace p rep y := by
  intro x
  induction x with
  | nil => intro y _; rfl
  | cons c cs ih =>
    intro y h
    rw [List.cons_append, pyReplace_cons_nomatch p rep c (cs ++ y)
      (h (c :: cs) (List.suffix_refl _) (by simp)), ih y
      (fun u hs hne => h u (hs.trans (List.suffix_cons c cs)) hne)]
    rfl

theorem occursB_append_clean (p : Text) (hne : p ≠ []) : ∀ (x y : Text),
    (∀ u, u <:+ x → u ≠ [] → isPfx p (u ++ y) = false) →
    occursB p y = false → occursB p (x ++ y) = false := by
  intro x
  induction x with
  | nil => intro y _ hy; exact hy
  | cons c cs ih =>
    intro y h hy
    rw [List.cons_append, occursB_cons]
    have h1 : isPfx p (c :: (cs ++ y)) = false := h (c :: cs) (List.suffix_refl _) (by simp)
    rw [h1, ih y (fun u hs hne => h u (hs.trans (List.suffix_cons c cs)) hne) hy]
    rfl

/-! ### C1: the quote pattern, reference patterns and the scanner -/

theorem tryQuoteMatch_none (v : Text) (c : Char) (cs : Text) (h : c ≠ '\'') :
    tryQuoteMatch v (c :: cs) = none := by
  unfold tryQuoteMatch
  split
  · next heq =>
    exfalso
    apply h
    cases heq
    rfl
  · rfl

theorem quoteSub_id (v rep : Text) : ∀ s, (∀ c ∈ s, c ≠ '\'') → quoteSub v rep s = s := by
  intro s
  induction s with
  | nil => intro _; rfl
  | cons c cs ih =>
    intro h
    show (match tryQuoteMatch v (c :: cs) with
      | some len => rep ++ quoteSubGo v rep (len - 1) cs
      | none => c :: quoteSubGo v rep 0 cs) = c :: cs
    rw [tryQuoteMatch_none v c cs (h c (by simp))]
    exact congrArg (List.cons c) (ih (fun x hx => h x (by simp [hx])))

theorem isPfx_nameBrace (A : Text) (hA : ∀ c ∈ A, isNameChar c = true) :
    ∀ B, (∀ c ∈ B, isNameChar c = true) → A ≠ B → ∀ y,
    isPfx (A ++ ['}']) (B ++ '}' :: y) = false := by
  induction A with
  | nil =>
    intro B hB hne y
    cases B with
    | nil => exact absurd rfl hne
    | cons d B' =>
      have : ('}' : Char) ≠ d := by
        intro he
        have := hB d (by simp)
        rw [← he] at this
        exact absurd this (by decide)
      exact isPfx_cons_ne '}' d [] (B' ++ '}' :: y) this
  | cons c A' ih =>
    intro B hB hne y
    cases B with
    | nil =>
      have : c ≠ '}' := by
        intro he
        have := hA c (by simp)
        rw [he] at this
        exact absurd this (by decide)
      exact isPfx_cons_ne c '}' (A' ++ ['}']) y this
    | cons d B' =>
      by_cases hcd : c = d
      · subst hcd
        show (decide (c = c) && isPfx (A' ++ ['}']) (B' ++ '}' :: y)) = false
        rw [ih (fun x hx => hA x (by simp [hx])) B' (fun x hx => hB x (by simp [hx]))
          (fun he => hne (by rw [he])) y]
        simp
      · exact isPfx_cons_ne c d (A' ++ ['}']) (B' ++ '}' :: y) hcd

theorem isPfx_name_noalias (A : Text) (hA : ∀ c ∈ A, isNameChar c = true)
    (y : Text) (hy : ∀ d ds, y = d :: ds → isNameChar d = false) :
    ∀ B, isPfx A B = false → isPfx A (B ++ y) = false := by
  induction A with
  | nil =>
    intro B hpf
    rw [isPfx_nil_pat] at hpf
    cases hpf
  | cons c A' ih =>
    intro B hpf
    cases B with
    | nil =>
      cases hy2 : y with
      | nil => rfl
      | cons d ds =>
        have hd := hy d ds hy2
        have : c ≠ d := by
          intro he
          rw [← he] at hd
          rw [hA c (by simp)] at hd
          cases hd
        subst hy2
        exact isPfx_cons_ne c d A' ds this
    | cons d B' =>
      by_cases hcd : c = d
      · subst hcd
        have hpf' : isPfx A' B' = false := by
          have : isPfx (c :: A') (c :: B') = (decide (c = c) && isPfx A' B') := rfl
          rw [this] at hpf
          simpa using hpf
        show (decide (c = c) && isPfx A' (B' ++ y)) = false
        rw [ih (fun x hx => hA x (by simp [hx])) B' hpf']
        simp
      · exact isPfx_cons_ne c d A' (B' ++ y) hcd

theorem strMk_toList (s : String) : String.mk s.toList = s := by
  cases s
  rfl

theorem nameOk_parts (nm : String) (h : nameOk nm = true) :
    ∃ c cs, nm.toList = c :: cs ∧ isNameStart c = true ∧ (∀ x ∈ cs, isNameChar x = true)
      ∧ nm ≠ "HEADER" ∧ nm ≠ "Workfile" := by
  unfold nameOk at h
  cases hl : nm.toList with
  | nil => rw [hl] at h; cases h
  | cons c cs =>
    rw [hl] at h
    simp only [Bool.and_eq_true, decide_eq_true_eq, List.all_eq_true] at h
    exact ⟨c, cs, rfl, h.1.1.1, h.1.1.2, h.1.2, h.2⟩

theorem nameOk_chars (nm : String) (h : nameOk nm = true) :
    ∀ x ∈ nm.toList, isNameChar x = true := by
  obtain ⟨c, cs, hl, hc, hcs, -, -⟩ := nameOk_parts nm h
  rw [hl]
  intro x hx
  rcases List.mem_cons.mp hx with rfl | hx2
  · exact nameStart_isNameChar x hc
  · exact hcs x hx2

theorem matchVarAt_not_dollar (prev : Option Char) (c : Char) (cs : Text) (h : c ≠ '$') :
    matchVarAt prev (c :: cs) = none := by
  unfold matchVarAt
  split
  · next heq =>
    exfalso
    apply h
    cases heq
    rfl
  · rfl

theorem getLastD_mem_cons (c : Char) (cs : Text) : (c :: cs).getLastD c ∈ c :: cs := by
  induction cs generalizing c with
  | nil => simp [List.getLastD]
  | cons d ds ih =>
    have h1 : (c :: d :: ds).getLastD c = (d :: ds).getLastD d := by
      rw [List.getLastD_eq_getLast?, List.getLastD_eq_getLast?, List.getLast?_cons_cons]
      cases hx : (d :: ds).getLast? with
      | none =>
        exfalso
        have h2 : (d :: ds) = [] := by
          have := List.getLast?_isSome (l := d :: ds)
          rw [hx] at this
          by_contra hne
          simp [hne] at this
        cases h2
      | some a => rfl
    rw [h1]
    exact List.mem_cons_of_mem c (ih d)

theorem matchVarAt_braced (prev : Option Char) (nm : String) (y : Text)
    (h : nameOk nm = true) :
    matchVarAt prev (braceRefT nm ++ y) = some (nm, '}', y) := by
  obtain ⟨c, cs, hl, hc, hcs, -, -⟩ := nameOk_parts nm h
  have hsh : braceRefT nm ++ y = '$' :: '{' :: (c :: (cs ++ '}' :: y)) := by
    show '$' :: '{' :: ((nm.toList ++ ['}']) ++ y) = _
    rw [List.append_assoc, hl]
    rfl
  obtain ⟨htk, hdr⟩ := takeWhile_append_stop isNameChar cs y '}' hcs (by decide)
  rw [hsh]
  simp only [matchVarAt]
  rw [if_neg (show ¬(isNameStart '{' = true) by decide), ite_self, if_pos hc, hdr, htk]
  show some (String.mk (c :: cs), '}', y) = some (nm, '}', y)
  rw [← hl, strMk_toList]

theorem matchVarAt_bare (prev : Option Char) (nm : String) (y : Text)
    (hprev : prev ≠ some '\\') (h : nameOk nm = true)
    (hy : ∀ d ds, y = d :: ds → isNameChar d = false) :
    ∃ lc, matchVarAt prev (bareRefT nm ++ y) = some (nm, lc, y) ∧ isNameChar lc = true := by
  obtain ⟨c, cs, hl, hc, hcs, -, -⟩ := nameOk_parts nm h
  have hsh : bareRefT nm ++ y = '$' :: (c :: (cs ++ y)) := by
    show '$' :: (nm.toList ++ y) = _
    rw [hl]
    rfl
  have hpair : (cs ++ y).takeWhile isNameChar = cs ∧ (cs ++ y).dropWhile isNameChar = y := by
    cases hye : y with
    | nil =>
      rw [List.append_nil]
      exact ⟨takeWhile_all_eq_self isNameChar cs hcs, dropWhile_all_eq_nil isNameChar cs hcs⟩
    | cons d ds =>
      exact takeWhile_append_stop isNameChar cs ds d hcs (hy d ds hye)
  refine ⟨(c :: cs).getLastD c, ?_, ?_⟩
  · rw [hsh]
    simp only [matchVarAt]
    rw [if_pos hprev, if_pos hc, hpair.1, hpair.2]
    show some (String.mk (c :: cs), (c :: cs).getLastD c, y) = _
    rw [← hl, strMk_toList]
  · rcases List.mem_cons.mp (getLastD_mem_cons c cs) with h2 | h2
    · rw [h2]
      exact nameStart_isNameChar c hc
    · exact hcs _ h2

theorem scanRefsGo_cons (fuel : Nat) (prev : Option Char) (c : Char) (cs : Text) :
    scanRefsGo (fuel + 1) prev (c :: cs)
      = match matchVarAt prev (c :: cs) with
        | some (nm, lastC, r) => nm :: scanRefsGo fuel (some lastC) r
        | none => scanRefsGo fuel (some c) cs := rfl

theorem segText_ne_nil (s : Seg) : segText s ≠ [] := by
  cases s <;> simp [segText, braceRefT, bareRefT]

theorem refNames_cons_lit (c : Char) (t : List Seg) :
    refNames (Seg.lit c :: t) = refNames t := rfl

theorem refNames_cons_braced (nm : String) (t : List Seg) :
    refNames (Seg.braced nm :: t) = nm :: refNames t := rfl

theorem refNames_cons_bare (nm : String) (t : List Seg) :
    refNames (Seg.bare nm :: t) = nm :: refNames t := rfl

theorem renderSegs_cons (s : Seg) (t : List Seg) :
    renderSegs (s :: t) = segText s ++ renderSegs t := by
  simp [renderSegs]

theorem all_cons_parts (p : Seg → Bool) (s : Seg) (t : List Seg)
    (h : (s :: t).all p = true) : p s = true ∧ t.all p = true := by
  rw [List.all_cons, Bool.and_eq_true] at h
  exact h

theorem renderSegs_head_not_name (l : List Seg) (hl : l.all segLitOk = true) :
    ∀ d ds, renderSegs l = d :: ds → isNameChar d = false := by
  intro d ds h
  cases l with
  | nil => cases h
  | cons s t =>
    cases s with
    | lit c =>
      have hc : litOkC c = true := by
        simpa [segLitOk] using (all_cons_parts segLitOk _ t hl).1
      have hren : renderSegs (Seg.lit c :: t) = c :: renderSegs t := rfl
      rw [hren] at h
      cases h
      exact (litOkC_props _ hc).2.2.2.2
    | braced nm =>
      have hren : renderSegs (Seg.braced nm :: t)
          = '$' :: (('{' :: nm.toList ++ ['}']) ++ renderSegs t) := rfl
      rw [hren] at h
      cases h
      decide
    | bare nm =>
      have hren : renderSegs (Seg.bare nm :: t)
          = '$' :: (nm.toList ++ renderSegs t) := rfl
      rw [hren] at h
      cases h
      decide

theorem scanRefsGo_render : ∀ (fuel : Nat) (segs : List Seg),
    segs.all segLitOk = true → (∀ nm ∈ refNames segs, nameOk nm = true) →
    (renderSegs segs).length ≤ fuel → ∀ prev, prev ≠ some '\\' →
    scanRefsGo fuel prev (renderSegs segs) = refNames segs := by
  intro fuel
  induction fuel with
  | zero =>
    intro segs h1 h2 hlen prev hprev
    cases segs with
    | nil => rfl
    | cons s t =>
      exfalso
      rw [renderSegs_cons] at hlen
      cases hx : segText s with
      | nil => exact absurd hx (segText_ne_nil s)
      | cons a as =>
        rw [hx] at hlen
        simp at hlen
  | succ fuel ih =>
    intro segs h1 h2 hlen prev hprev
    cases segs with
    | nil => rfl
    | cons s t =>
      obtain ⟨h1s, h1t⟩ := all_cons_parts segLitOk s t h1
      cases s with
      | lit c =>
        have hc : litOkC c = true := by simpa [segLitOk] using h1s
        obtain ⟨hna, hnd, hnb, hnq, hnn⟩ := litOkC_props c hc
        have hren : renderSegs (Seg.lit c :: t) = c :: renderSegs t := rfl
        rw [hren, scanRefsGo_cons, matchVarAt_not_dollar prev c _ hnd]
        rw [refNames_cons_lit]
        apply ih t h1t h2 _ (some c) (fun he => hnb (by simpa using he))
        rw [hren] at hlen
        simpa using Nat.le_of_succ_le_succ hlen
      | braced nm =>
        have hnm : nameOk nm = true := h2 nm (by rw [refNames_cons_braced]; simp)
        have hren : renderSegs (Seg.braced nm :: t) = braceRefT nm ++ renderSegs t := by
          rw [renderSegs_cons]; rfl
        have hm := matchVarAt_braced prev nm (renderSegs t) hnm
        have hcons : braceRefT nm ++ renderSegs t
            = '$' :: (('{' :: nm.toList ++ ['}']) ++ renderSegs t) := rfl
        rw [hren, hcons]
        rw [hcons] at hm
        rw [scanRefsGo_cons, hm]
        show nm :: scanRefsGo fuel (some '}') (renderSegs t) = refNames (Seg.braced nm :: t)
        rw [refNames_cons_braced]
        have hrec : scanRefsGo fuel (some '}') (renderSegs t) = refNames t := by
          apply ih t h1t (fun x hx => h2 x (by rw [refNames_cons_braced]; simp [hx]))
            _ (some '}') (fun he => by simp at he)
          rw [hren] at hlen
          have h3 : (braceRefT nm).length + (renderSegs t).length ≤ fuel + 1 := by
            rw [← List.length_append]; exact hlen
          have hb : 1 ≤ (braceRefT nm).length := by
            show 1 ≤ ('$' :: ('{' :: nm.toList ++ ['}']) : Text).length
            simp
          omega
        rw [hrec]
      | bare nm =>
        have hnm : nameOk nm = true := h2 nm (by rw [refNames_cons_bare]; simp)
        have hren : renderSegs (Seg.bare nm :: t) = bareRefT nm ++ renderSegs t := by
          rw [renderSegs_cons]; rfl
        have hy : ∀ d ds, renderSegs t = d :: ds → isNameChar d = false :=
          renderSegs_head_not_name t h1t
        obtain ⟨lc, hm, hlc⟩ := matchVarAt_bare prev nm (renderSegs t) hprev hnm hy
        have hcons : bareRefT nm ++ renderSegs t = '$' :: (nm.toList ++ renderSegs t) := rfl
        rw [hren, hcons]
        rw [hcons] at hm
        rw [scanRefsGo_cons, hm]
        show nm :: scanRefsGo fuel (some lc) (renderSegs t) = refNames (Seg.bare nm :: t)
        rw [refNames_cons_bare]
        have hrec : scanRefsGo fuel (some lc) (renderSegs t) = refNames t := by
          apply ih t h1t (fun x hx => h2 x (by rw [refNames_cons_bare]; simp [hx]))
            _ (some lc)
            (fun he => (nameChar_ne_special lc hlc).2.2.2.2 (by simpa using he))
          rw [hren] at hlen
          have h3 : (bareRefT nm).length + (renderSegs t).length ≤ fuel + 1 := by
            rw [← List.length_append]; exact hlen
          have hb : 1 ≤ (bareRefT nm).length := by
            show 1 ≤ ('$' :: nm.toList : Text).length
            simp
          omega
        rw [hrec]

theorem scanRefs_render (segs : List Seg) (h1 : segs.all segLitOk = true)
    (h2 : ∀ nm ∈ refNames segs, nameOk nm = true) :
    scanRefs (renderSegs segs) = refNames segs :=
  scanRefsGo_render (renderSegs segs).length segs h1 h2 (Nat.le_refl _) none (by simp)

/-! ### C1: the used-name table and the sorted processing order -/

theorem bumpCount_map_fst (nm : String) : ∀ (l : List (String × Nat)),
    (bumpCount nm l).map Prod.fst
      = if nm ∈ l.map Prod.fst then l.map Prod.fst else l.map Prod.fst ++ [nm] := by
  intro l
  induction l with
  | nil => simp [bumpCount]
  | cons p t ih =>
    obtain ⟨a, cnum⟩ := p
    have hstep : bumpCount nm ((a, cnum) :: t)
        = if a = nm then (a, cnum + 1) :: t else (a, cnum) :: bumpCount nm t := rfl
    rw [hstep]
    by_cases hae : a = nm
    · subst hae
      rw [if_pos rfl, if_pos (by simp)]
      rfl
    · rw [if_neg hae, List.map_cons, ih]
      by_cases hmem : nm ∈ t.map Prod.fst
      · rw [if_pos hmem, if_pos (by simp [hmem])]
        rfl
      · rw [if_neg hmem, if_neg (by
          simp only [List.map_cons, List.mem_cons]
          rintro (h | h)
          · exact hae h.symm
          · exact hmem h)]
        rfl

theorem foldl_bump_names : ∀ (l : List String) (acc : List (String × Nat)),
    (acc.map Prod.fst).Nodup →
    ((l.foldl (fun a nm => bumpCount nm a) acc).map Prod.fst).Nodup
      ∧ ∀ x, (x ∈ (l.foldl (fun a nm => bumpCount nm a) acc).map Prod.fst
          ↔ x ∈ acc.map Prod.fst ∨ x ∈ l) := by
  intro l
  induction l with
  | nil =>
    intro acc hnd
    exact ⟨hnd, fun x => by simp⟩
  | cons nm t ih =>
    intro acc hnd
    rw [List.foldl_cons]
    have hstep := bumpCount_map_fst nm acc
    by_cases hmem : nm ∈ acc.map Prod.fst
    · rw [if_pos hmem] at hstep
      have hnd2 : ((bumpCount nm acc).map Prod.fst).Nodup := by rw [hstep]; exact hnd
      obtain ⟨ha, hb⟩ := ih (bumpCount nm acc) hnd2
      refine ⟨ha, fun x => ?_⟩
      rw [hb x, hstep]
      constructor
      · rintro (h | h)
        · exact Or.inl h
        · exact Or.inr (by simp [h])
      · rintro (h | h)
        · exact Or.inl h
        · rcases List.mem_cons.mp h with rfl | h2
          · exact Or.inl hmem
          · exact Or.inr h2
    · rw [if_neg hmem] at hstep
      have hnd2 : ((bumpCount nm acc).map Prod.fst).Nodup := by
        rw [hstep]
        exact List.Nodup.append hnd (List.nodup_singleton nm)
          (by intro x hx hy; rw [List.mem_singleton] at hy; subst hy; exact hmem hx)
      obtain ⟨ha, hb⟩ := ih (bumpCount nm acc) hnd2
      refine ⟨ha, fun x => ?_⟩
      rw [hb x, hstep]
      constructor
      · rintro (h | h)
        · rcases List.mem_append.mp h with h2 | h2
          · exact Or.inl h2
          · rw [List.mem_singleton] at h2
            exact Or.inr (by simp [h2])
        · exact Or.inr (by simp [h])
      · rintro (h | h)
        · exact Or.inl (List.mem_append.mpr (Or.inl h))
        · rcases List.mem_cons.mp h with rfl | h2
          · exact Or.inl (List.mem_append.mpr (Or.inr (by simp)))
          · exact Or.inr h2

theorem filter_fst_ne_eq_self (l : List (String × Nat)) (bad : String)
    (h : ∀ p ∈ l, p.1 ≠ bad) : l.filter (fun p => p.1 ≠ bad) = l := by
  apply List.filter_eq_self.mpr
  intro p hp
  simpa using h p hp

theorem usedMacros_names (segs : List Seg) (h1 : segs.all segLitOk = true)
    (h2 : ∀ nm ∈ refNames segs, nameOk nm = true) :
    ((usedMacros (renderSegs segs)).map Prod.fst).Nodup
      ∧ ∀ x, (x ∈ (usedMacros (renderSegs segs)).map Prod.fst ↔ x ∈ refNames segs) := by
  unfold usedMacros
  rw [scanRefs_render segs h1 h2]
  obtain ⟨ha, hb⟩ := foldl_bump_names (refNames segs) [] (by simp)
  have hmem0 : ∀ p ∈ (refNames segs).foldl (fun acc nm => bumpCount nm acc) [],
      p.1 ∈ refNames segs := by
    intro p hp
    have : p.1 ∈ ((refNames segs).foldl (fun acc nm => bumpCount nm acc) []).map Prod.fst :=
      List.mem_map_of_mem Prod.fst hp
    rcases (hb p.1).mp this with h | h
    · simp at h
    · exact h
  have hf1 : ((refNames segs).foldl (fun acc nm => bumpCount nm acc) []).filter
      (fun p => p.1 ≠ "HEADER") = (refNames segs).foldl (fun acc nm => bumpCount nm acc) [] := by
    apply filter_fst_ne_eq_self
    intro p hp
    have hnm := h2 p.1 (hmem0 p hp)
    obtain ⟨-, -, -, -, -, hh, -⟩ := nameOk_parts p.1 hnm
    exact hh
  rw [hf1]
  have hf2 : ((refNames segs).foldl (fun acc nm => bumpCount nm acc) []).filter
      (fun p => p.1 ≠ "Workfile") = (refNames segs).foldl (fun acc nm => bumpCount nm acc) [] := by
    apply filter_fst_ne_eq_self
    intro p hp
    have hnm := h2 p.1 (hmem0 p hp)
    obtain ⟨-, -, -, -, -, -, hw⟩ := nameOk_parts p.1 hnm
    exact hw
  rw [hf2]
  refine ⟨ha, fun x => ?_⟩
  rw [hb x]
  simp

theorem sortedInsert_perm (le : α → α → Bool) (x : α) :
    ∀ l, (sortedInsert le x l).Perm (x :: l) := by
  intro l
  induction l with
  | nil => exact List.Perm.refl _
  | cons y ys ih =>
    show (if le y x then y :: sortedInsert le x ys else x :: y :: ys).Perm (x :: y :: ys)
    by_cases h : le y x = true
    · rw [if_pos h]
      exact (ih.cons y).trans (List.Perm.swap x y ys)
    · rw [if_neg h]

theorem stableSort_perm (le : α → α → Bool) (l : List α) : (stableSort le l).Perm l := by
  have main : ∀ (l : List α) (acc : List α),
      (l.foldl (fun acc x => sortedInsert le x acc) acc).Perm (l ++ acc) := by
    intro l
    induction l with
    | nil => intro acc; exact List.Perm.refl _
    | cons a t ih =>
      intro acc
      have h1 := ih (sortedInsert le a acc)
      have h2 : (t ++ sortedInsert le a acc).Perm (t ++ (a :: acc)) :=
        List.Perm.append_left t (sortedInsert_perm le a acc)
      have h3 : (t ++ (a :: acc)).Perm (a :: (t ++ acc)) := List.perm_middle
      exact (h1.trans h2).trans h3
  have := main l []
  rw [List.append_nil] at this
  exact this

/-! ### C1: piece-level cleanliness and the expand-side replacements -/

theorem clean_suffix_head (hc : Char) (p' : Text) (x y : Text) (hx : ∀ c ∈ x, c ≠ hc) :
    ∀ u, u <:+ x → u ≠ [] → isPfx (hc :: p') (u ++ y) = false := by
  intro u hs hne
  cases u with
  | nil => exact absurd rfl hne
  | cons cu u' =>
    have hm : cu ∈ x := hs.subset (by simp)
    exact isPfx_cons_ne hc cu p' (u' ++ y) (fun he => hx cu hm he.symm)

theorem pyReplace_consume_chunk (p rep : Text) (hc : Char) (p' : Text) (hp : p = hc :: p')
    (x y : Text) (hx : ∀ c ∈ x, c ≠ hc) :
    pyReplace p rep (x ++ y) = x ++ pyReplace p rep y := by
  subst hp
  exact pyReplace_append_clean _ _ x y (clean_suffix_head hc p' x y hx)

theorem braceRefT_eq (nm : String) : braceRefT nm = '$' :: ('{' :: (nm.toList ++ ['}'])) := rfl

theorem bareRefT_eq (nm : String) : bareRefT nm = '$' :: nm.toList := rfl

theorem braceRefT_ne_nil (nm : String) : braceRefT nm ≠ [] := by
  rw [braceRefT_eq]
  simp

theorem bareRefT_ne_nil (nm : String) : bareRefT nm ≠ [] := by
  rw [bareRefT_eq]
  simp

theorem bracePiece_tail_no_dollar (nm : String) (h : nameOk nm = true) :
    ∀ c ∈ ('{' :: (nm.toList ++ ['}']) : Text), c ≠ '$' := by
  intro c hc
  rcases List.mem_cons.mp hc with rfl | hc2
  · decide
  · rcases List.mem_append.mp hc2 with h3 | h3
    · exact (nameChar_ne_special c (nameOk_chars nm h c h3)).1
    · rw [List.mem_singleton] at h3
      subst h3
      decide

theorem namePiece_no_dollar (nm : String) (h : nameOk nm = true) :
    ∀ c ∈ nm.toList, c ≠ '$' :=
  fun c hc => (nameChar_ne_special c (nameOk_chars nm h c hc)).1

theorem val_no_dollar (v : Text) (hv : ∀ c ∈ v, isAlnumA c = true) : ∀ c ∈ v, c ≠ '$' :=
  fun c hc => (alnum_ne_special c (hv c hc)).1

theorem toList_ne_of_ne (a b : String) (h : a ≠ b) : a.toList ≠ b.toList := by
  intro he
  apply h
  rw [← strMk_toList a, ← strMk_toList b, he]

theorem isPfx_braceP_braceT (nm nm' : String) (hnm : nameOk nm = true)
    (hnm' : nameOk nm' = true) (hne : nm ≠ nm') (y : Text) :
    isPfx (braceRefT nm) (braceRefT nm' ++ y) = false := by
  rw [braceRefT_eq nm, braceRefT_eq nm']
  simp only [List.cons_append, List.append_assoc, List.singleton_append, List.nil_append]
  rw [isPfx_cons_iff, isPfx_cons_iff,
    isPfx_nameBrace nm.toList (nameOk_chars nm hnm) nm'.toList (nameOk_chars nm' hnm')
      (toList_ne_of_ne nm nm' hne) y]
  simp

theorem isPfx_braceP_bareT (nm nm' : String) (hnm' : nameOk nm' = true) (y : Text) :
    isPfx (braceRefT nm) (bareRefT nm' ++ y) = false := by
  obtain ⟨c, cs, hl, hc, -, -, -⟩ := nameOk_parts nm' hnm'
  rw [braceRefT_eq, bareRefT_eq, hl]
  simp only [List.cons_append]
  rw [isPfx_cons_iff,
    isPfx_cons_ne '{' c (nm.toList ++ ['}']) (cs ++ y) (fun he => nameStart_ne_lbrace c hc he.symm)]
  simp

theorem isPfx_bareP_braceT (nm nm' : String) (hnm : nameOk nm = true) (y : Text) :
    isPfx (bareRefT nm) (braceRefT nm' ++ y) = false := by
  obtain ⟨c, cs, hl, hc, -, -, -⟩ := nameOk_parts nm hnm
  rw [bareRefT_eq, braceRefT_eq, hl]
  simp only [List.cons_append]
  rw [isPfx_cons_iff,
    isPfx_cons_ne c '{' cs ((nm'.toList ++ ['}']) ++ y) (nameStart_ne_lbrace c hc)]
  simp

theorem isPfx_bareP_bareT (nm nm' : String) (hnm : nameOk nm = true)
    (halias : isPfx nm.toList nm'.toList = false) (y : Text)
    (hy : ∀ d ds, y = d :: ds → isNameChar d = false) :
    isPfx (bareRefT nm) (bareRefT nm' ++ y) = false := by
  rw [bareRefT_eq nm, bareRefT_eq nm']
  simp only [List.cons_append]
  rw [isPfx_cons_iff,
    isPfx_name_noalias nm.toList (nameOk_chars nm hnm) y hy nm'.toList halias]
  simp

theorem refNames_mem_cons (s : Seg) (t : List Seg) (x : String) (h : x ∈ refNames t) :
    x ∈ refNames (s :: t) := by
  cases s with
  | lit c => rw [refNames_cons_lit]; exact h
  | braced nm => rw [refNames_cons_braced]; exact List.mem_cons_of_mem _ h
  | bare nm => rw [refNames_cons_bare]; exact List.mem_cons_of_mem _ h

theorem noAdj_parts (s : Seg) (t : List Seg) (h : noAdjacentRefs (s :: t) = true) :
    noAdjacentRefs t = true
      ∧ (segName s ≠ none → t = [] ∨ ∃ c t', t = Seg.lit c :: t') := by
  cases t with
  | nil => exact ⟨rfl, fun _ => Or.inl rfl⟩
  | cons b t' =>
    have hsh : noAdjacentRefs (s :: b :: t')
        = (((segName s).isNone || (segName b).isNone) && noAdjacentRefs (b :: t')) := rfl
    rw [hsh, Bool.and_eq_true, Bool.or_eq_true] at h
    refine ⟨h.2, fun hs => ?_⟩
    rcases h.1 with h1 | h1
    · exfalso
      apply hs
      cases hx : segName s with
      | none => rfl
      | some a => rw [hx] at h1; cases h1
    · right
      cases b with
      | lit c => exact ⟨c, t', rfl⟩
      | braced nm => cases h1
      | bare nm => cases h1

theorem flatMapHead_not_name (g : Seg → Text) (hg : ∀ c, g (Seg.lit c) = [c])
    (t : List Seg) (hlt : t.all segLitOk = true)
    (hshape : t = [] ∨ ∃ c t', t = Seg.lit c :: t') :
    ∀ d ds, t.flatMap g = d :: ds → isNameChar d = false := by
  intro d ds h
  rcases hshape with rfl | ⟨c, t', rfl⟩
  · cases h
  · rw [List.flatMap_cons, hg c] at h
    have hc : litOkC c = true := by
      simpa [segLitOk] using (all_cons_parts segLitOk _ _ hlt).1
    have h2 : c :: t'.flatMap g = d :: ds := by simpa using h
    cases h2
    exact (litOkC_props _ hc).2.2.2.2

theorem expSegs_cons (cat : Catalog) (done : List String) (s : Seg) (t : List Seg) :
    expSegs cat done (s :: t) = segExp cat done s ++ expSegs cat done t := by
  simp [expSegs]

theorem expSegsB_cons (cat : Catalog) (done : List String) (cur : String) (s : Seg)
    (t : List Seg) :
    expSegsB cat done cur (s :: t) = segExpB cat done cur s ++ expSegsB cat done cur t := by
  simp [expSegsB]

theorem replace_braced (cat : Catalog) (done : List String) (nm : String) :
    ∀ (l : List Seg), l.all segLitOk = true →
    (∀ x ∈ refNames l, nameOk x = true) →
    (∀ x ∈ refNames l, ∀ c ∈ segVal cat x, isAlnumA c = true) →
    nameOk nm = true →
    pyReplace (braceRefT nm) (segVal cat nm) (expSegs cat done l) = expSegsB cat done nm l := by
  intro l
  induction l with
  | nil => intro _ _ _ _; rfl
  | cons s t ih =>
    intro hl hn hv hnm
    obtain ⟨hls, hlt⟩ := all_cons_parts segLitOk s t hl
    have hnt := fun x hx => hn x (refNames_mem_cons s t x hx)
    have hvt := fun x hx => hv x (refNames_mem_cons s t x hx)
    specialize ih hlt hnt hvt hnm
    cases s with
    | lit c =>
      have hc : litOkC c = true := by simpa [segLitOk] using hls
      have hstep : expSegs cat done (Seg.lit c :: t) = c :: expSegs cat done t := rfl
      have hstep2 : expSegsB cat done nm (Seg.lit c :: t)
          = c :: expSegsB cat done nm t := rfl
      have hpfx : isPfx (braceRefT nm) (c :: expSegs cat done t) = false := by
        rw [braceRefT_eq]
        exact isPfx_cons_ne '$' c _ _ (fun he => (litOkC_props c hc).2.1 he.symm)
      rw [hstep, hstep2, pyReplace_cons_nomatch _ _ c _ hpfx, ih]
    | braced nm' =>
      have hmem' : nm' ∈ refNames (Seg.braced nm' :: t) := by
        rw [refNames_cons_braced]; simp
      have hnm' : nameOk nm' = true := hn nm' hmem'
      have hvnm' : ∀ c ∈ segVal cat nm', isAlnumA c = true := hv nm' hmem'
      by_cases hmem : nm' ∈ done
      · have hstep : expSegs cat done (Seg.braced nm' :: t)
            = segVal cat nm' ++ expSegs cat done t := by
          rw [expSegs_cons]
          congr 1
          show (if nm' ∈ done then segVal cat nm' else braceRefT nm') = segVal cat nm'
          rw [if_pos hmem]
        have hstep2 : expSegsB cat done nm (Seg.braced nm' :: t)
            = segVal cat nm' ++ expSegsB cat done nm t := by
          rw [expSegsB_cons]
          congr 1
          show (if nm' ∈ done ∨ nm' = nm then segVal cat nm' else braceRefT nm')
            = segVal cat nm'
          rw [if_pos (Or.inl hmem)]
        rw [hstep, hstep2,
          pyReplace_consume_chunk _ _ '$' _ (braceRefT_eq nm) _ _
            (val_no_dollar _ hvnm'), ih]
      · by_cases heq : nm' = nm
        · subst heq
          have hstep : expSegs cat done (Seg.braced nm' :: t)
              = braceRefT nm' ++ expSegs cat done t := by
            rw [expSegs_cons]
            congr 1
            show (if nm' ∈ done then segVal cat nm' else braceRefT nm') = braceRefT nm'
            rw [if_neg hmem]
          have hstep2 : expSegsB cat done nm' (Seg.braced nm' :: t)
              = segVal cat nm' ++ expSegsB cat done nm' t := by
            rw [expSegsB_cons]
            congr 1
            show (if nm' ∈ done ∨ nm' = nm' then segVal cat nm' else braceRefT nm')
              = segVal cat nm'
            rw [if_pos (Or.inr rfl)]
          rw [hstep, hstep2, pyReplace_head_match _ _ (braceRefT_ne_nil nm') _, ih]
        · have hstep : expSegs cat done (Seg.braced nm' :: t)
              = braceRefT nm' ++ expSegs cat done t := by
            rw [expSegs_cons]
            congr 1
            show (if nm' ∈ done then segVal cat nm' else braceRefT nm') = braceRefT nm'
            rw [if_neg hmem]
          have hstep2 : expSegsB cat done nm (Seg.braced nm' :: t)
              = braceRefT nm' ++ expSegsB cat done nm t := by
            rw [expSegsB_cons]
            congr 1
            show (if nm' ∈ done ∨ nm' = nm then segVal cat nm' else braceRefT nm')
              = braceRefT nm'
            rw [if_neg (by rintro (h | h); exact hmem h; exact heq h)]
          have hpfx := isPfx_braceP_braceT nm nm' hnm hnm' (fun h => heq h.symm)
            (expSegs cat done t)
          have hform : braceRefT nm' ++ expSegs cat done t
              = '$' :: (('{' :: (nm'.toList ++ ['}'])) ++ expSegs cat done t) := rfl
          rw [hstep, hstep2, hform]
          rw [hform] at hpfx
          rw [pyReplace_cons_nomatch _ _ '$' _ hpfx,
            pyReplace_consume_chunk _ _ '$' _ (braceRefT_eq nm) _ _
              (bracePiece_tail_no_dollar nm' hnm'), ih]
          rfl
    | bare nm' =>
      have hmem' : nm' ∈ refNames (Seg.bare nm' :: t) := by
        rw [refNames_cons_bare]; simp
      have hnm' : nameOk nm' = true := hn nm' hmem'
      have hvnm' : ∀ c ∈ segVal cat nm', isAlnumA c = true := hv nm' hmem'
      by_cases hmem : nm' ∈ done
      · have hstep : expSegs cat done (Seg.bare nm' :: t)
            = segVal cat nm' ++ expSegs cat done t := by
          rw [expSegs_cons]
          congr 1
          show (if nm' ∈ done then segVal cat nm' else bareRefT nm') = segVal cat nm'
          rw [if_pos hmem]
        have hstep2 : expSegsB cat done nm (Seg.bare nm' :: t)
            = segVal cat nm' ++ expSegsB cat done nm t := by
          rw [expSegsB_cons]
          congr 1
          show (if nm' ∈ done then segVal cat nm' else bareRefT nm') = segVal cat nm'
          rw [if_pos hmem]
        rw [hstep, hstep2,
          pyReplace_consume_chunk _ _ '$' _ (braceRefT_eq nm) _ _
            (val_no_dollar _ hvnm'), ih]
      · have hstep : expSegs cat done (Seg.bare nm' :: t)
            = bareRefT nm' ++ expSegs cat done t := by
          rw [expSegs_cons]
          congr 1
          show (if nm' ∈ done then segVal cat nm' else bareRefT nm') = bareRefT nm'
          rw [if_neg hmem]
        have hstep2 : expSegsB cat done nm (Seg.bare nm' :: t)
            = bareRefT nm' ++ expSegsB cat done nm t := by
          rw [expSegsB_cons]
          congr 1
          show (if nm' ∈ done then segVal cat nm' else bareRefT nm') = bareRefT nm'
          rw [if_neg hmem]
        have hpfx := isPfx_braceP_bareT nm nm' hnm' (expSegs cat done t)
        have hform : bareRefT nm' ++ expSegs cat done t
            = '$' :: (nm'.toList ++ expSegs cat done t) := rfl
        rw [hstep, hstep2, hform]
        rw [hform] at hpfx
        rw [pyReplace_cons_nomatch _ _ '$' _ hpfx,
          pyReplace_consume_chunk _ _ '$' _ (braceRefT_eq nm) _ _
            (namePiece_no_dollar nm' hnm'), ih]
        rfl

theorem replace_bare (cat : Catalog) (done : List String) (nm : String) :
    ∀ (l : List Seg), l.all segLitOk = true → noAdjacentRefs l = true →
    (∀ x ∈ refNames l, nameOk x = true) →
    (∀ x ∈ refNames l, ∀ c ∈ segVal cat x, isAlnumA c = true) →
    (∀ x ∈ refNames l, x ≠ nm → isPfx nm.toList x.toList = false) →
    nameOk nm = true →
    pyReplace (bareRefT nm) (segVal cat nm) (expSegsB cat done nm l)
      = expSegs cat (nm :: done) l := by
  intro l
  induction l with
  | nil => intro _ _ _ _ _ _; rfl
  | cons s t ih =>
    intro hl hadj hn hv hal hnm
    obtain ⟨hls, hlt⟩ := all_cons_parts segLitOk s t hl
    obtain ⟨hadjt, hadjs⟩ := noAdj_parts s t hadj
    have hnt := fun x hx => hn x (refNames_mem_cons s t x hx)
    have hvt := fun x hx => hv x (refNames_mem_cons s t x hx)
    have halt := fun x hx => hal x (refNames_mem_cons s t x hx)
    specialize ih hlt hadjt hnt hvt halt hnm
    cases s with
    | lit c =>
      have hc : litOkC c = true := by simpa [segLitOk] using hls
      have hstep : expSegsB cat done nm (Seg.lit c :: t)
          = c :: expSegsB cat done nm t := rfl
      have hstep2 : expSegs cat (nm :: done) (Seg.lit c :: t)
          = c :: expSegs cat (nm :: done) t := rfl
      have hpfx : isPfx (bareRefT nm) (c :: expSegsB cat done nm t) = false := by
        rw [bareRefT_eq]
        exact isPfx_cons_ne '$' c _ _ (fun he => (litOkC_props c hc).2.1 he.symm)
      rw [hstep, hstep2, pyReplace_cons_nomatch _ _ c _ hpfx, ih]
    | braced nm' =>
      have hmem' : nm' ∈ refNames (Seg.braced nm' :: t) := by
        rw [refNames_cons_braced]; simp
      have hnm' : nameOk nm' = true := hn nm' hmem'
      have hvnm' : ∀ c ∈ segVal cat nm', isAlnumA c = true := hv nm' hmem'
      by_cases hmem : nm' ∈ done ∨ nm' = nm
      · have hstep : expSegsB cat done nm (Seg.braced nm' :: t)
            = segVal cat nm' ++ expSegsB cat done nm t := by
          rw [expSegsB_cons]
          congr 1
          show (if nm' ∈ done ∨ nm' = nm then segVal cat nm' else braceRefT nm')
            = segVal cat nm'
          rw [if_pos hmem]
        have hstep2 : expSegs cat (nm :: done) (Seg.braced nm' :: t)
            = segVal cat nm' ++ expSegs cat (nm :: done) t := by
          rw [expSegs_cons]
          congr 1
          show (if nm' ∈ nm :: done then segVal cat nm' else braceRefT nm') = segVal cat nm'
          rw [if_pos (by rcases hmem with h | h
                         · exact List.mem_cons_of_mem nm h
                         · rw [h]; simp)]
        rw [hstep, hstep2,
          pyReplace_consume_chunk _ _ '$' _ (bareRefT_eq nm) _ _
            (val_no_dollar _ hvnm'), ih]
      · have hmd : nm' ∉ done := fun h => hmem (Or.inl h)
        have hmn : nm' ≠ nm := fun h => hmem (Or.inr h)
        have hstep : expSegsB cat done nm (Seg.braced nm' :: t)
            = braceRefT nm' ++ expSegsB cat done nm t := by
          rw [expSegsB_cons]
          congr 1
          show (if nm' ∈ done ∨ nm' = nm then segVal cat nm' else braceRefT nm')
            = braceRefT nm'
          rw [if_neg hmem]
        have hstep2 : expSegs cat (nm :: done) (Seg.braced nm' :: t)
            = braceRefT nm' ++ expSegs cat (nm :: done) t := by
          rw [expSegs_cons]
          congr 1
          show (if nm' ∈ nm :: done then segVal cat nm' else braceRefT nm') = braceRefT nm'
          rw [if_neg (by
            intro h
            rcases List.mem_cons.mp h with h2 | h2
            · exact hmn h2
            · exact hmd h2)]
        have hpfx := isPfx_bareP_braceT nm nm' hnm (expSegsB cat done nm t)
        have hform : braceRefT nm' ++ expSegsB cat done nm t
            = '$' :: (('{' :: (nm'.toList ++ ['}'])) ++ expSegsB cat done nm t) := rfl
        rw [hstep, hstep2, hform]
        rw [hform] at hpfx
        rw [pyReplace_cons_nomatch _ _ '$' _ hpfx,
          pyReplace_consume_chunk _ _ '$' _ (bareRefT_eq nm) _ _
            (bracePiece_tail_no_dollar nm' hnm'), ih]
        rfl
    | bare nm' =>
      have hmem' : nm' ∈ refNames (Seg.bare nm' :: t) := by
        rw [refNames_cons_bare]; simp
      have hnm' : nameOk nm' = true := hn nm' hmem'
      have hvnm' : ∀ c ∈ segVal cat nm', isAlnumA c = true := hv nm' hmem'
      by_cases hmem : nm' ∈ done
      · have hstep : expSegsB cat done nm (Seg.bare nm' :: t)
            = segVal cat nm' ++ expSegsB cat done nm t := by
          rw [expSegsB_cons]
          congr 1
          show (if nm' ∈ done then segVal cat nm' else bareRefT nm') = segVal cat nm'
          rw [if_pos hmem]
        have hstep2 : expSegs cat (nm :: done) (Seg.bare nm' :: t)
            = segVal cat nm' ++ expSegs cat (nm :: done) t := by
          rw [expSegs_cons]
          congr 1
          show (if nm' ∈ nm :: done then segVal cat nm' else bareRefT nm') = segVal cat nm'
          rw [if_pos (List.mem_cons_of_mem nm hmem)]
        rw [hstep, hstep2,
          pyReplace_consume_chunk _ _ '$' _ (bareRefT_eq nm) _ _
            (val_no_dollar _ hvnm'), ih]
      · by_cases heq : nm' = nm
        · subst heq
          have hstep : expSegsB cat done nm' (Seg.bare nm' :: t)
              = bareRefT nm' ++ expSegsB cat done nm' t := by
            rw [expSegsB_cons]
            congr 1
            show (if nm' ∈ done then segVal cat nm' else bareRefT nm') = bareRefT nm'
            rw [if_neg hmem]
          have hstep2 : expSegs cat (nm' :: done) (Seg.bare nm' :: t)
              = segVal cat nm' ++ expSegs cat (nm' :: done) t := by
            rw [expSegs_cons]
            congr 1
            show (if nm' ∈ nm' :: done then segVal cat nm' else bareRefT nm') = segVal cat nm'
            rw [if_pos (by simp)]
          rw [hstep, hstep2, pyReplace_head_match _ _ (bareRefT_ne_nil nm') _, ih]
        · have hstep : expSegsB cat done nm (Seg.bare nm' :: t)
              = bareRefT nm' ++ expSegsB cat done nm t := by
            rw [expSegsB_cons]
            congr 1
            show (if nm' ∈ done then segVal cat nm' else bareRefT nm') = bareRefT nm'
            rw [if_neg hmem]
          have hstep2 : expSegs cat (nm :: done) (Seg.bare nm' :: t)
              = bareRefT nm' ++ expSegs cat (nm :: done) t := by
            rw [expSegs_cons]
            congr 1
            show (if nm' ∈ nm :: done then segVal cat nm' else bareRefT nm') = bareRefT nm'
            rw [if_neg (by
              intro h
              rcases List.mem_cons.mp h with h2 | h2
              · exact heq h2
              · exact hmem h2)]
          have hy : ∀ d ds, expSegsB cat done nm t = d :: ds → isNameChar d = false := by
            apply flatMapHead_not_name (segExpB cat done nm) (fun c => rfl) t hlt
            exact hadjs (by simp [segName])
          have hpfx := isPfx_bareP_bareT nm nm' hnm (hal nm' hmem' heq)
            (expSegsB cat done nm t) hy
          have hform : bareRefT nm' ++ expSegsB cat done nm t
              = '$' :: (nm'.toList ++ expSegsB cat done nm t) := rfl
          rw [hstep, hstep2, hform]
          rw [hform] at hpfx
          rw [pyReplace_cons_nomatch _ _ '$' _ hpfx,
            pyReplace_consume_chunk _ _ '$' _ (bareRefT_eq nm) _ _
              (namePiece_no_dollar nm' hnm'), ih]
          rfl

/-! ### C1: no collision during expansion -/

theorem occursB_split_nonalnum (p : Text) (hpa : ∀ c ∈ p, isAlnumA c = true)
    (hne : p ≠ []) (b : Char) (hb : isAlnumA b = false) (y : Text) :
    ∀ w, occursB p (w ++ b :: y) = (occursB p w || occursB p (b :: y)) := by
  intro w
  induction w with
  | nil =>
    rw [List.nil_append, occursB_nil_false p hne]
    simp
  | cons c w' ih =>
    rw [List.cons_append, occursB_cons, ih]
    have h2 : isPfx p (c :: (w' ++ b :: y)) = isPfx p (c :: w') := by
      have := isPfx_alnum_stop p hpa b hb y (c :: w')
      rw [List.cons_append] at this
      exact this
    rw [h2, occursB_cons p c w', Bool.or_assoc]

theorem lowerT_nil_iff (t : Text) : lowerT t = [] ↔ t = [] := by
  cases t <;> simp [lowerT]

theorem lowerT_all_alnum (t : Text) (h : ∀ c ∈ t, isAlnumA c = true) :
    ∀ c ∈ lowerT t, isAlnumA c = true := by
  intro c hc
  obtain ⟨c', hc', rfl⟩ := List.mem_map.mp hc
  rw [isAlnumA_toLower]
  exact h c' hc'

theorem lowerT_cons (a : Char) (t : Text) : lowerT (a :: t) = Char.toLower a :: lowerT t := rfl

theorem lowerT_append (x y : Text) : lowerT (x ++ y) = lowerT x ++ lowerT y := by
  simp [lowerT]

theorem lowerT_braceRef (nm : String) :
    lowerT (braceRefT nm) = '$' :: ('{' :: (lowerT nm.toList ++ ['}'])) := by
  rw [braceRefT_eq, lowerT_cons, lowerT_cons, lowerT_append]
  have e1 : Char.toLower '$' = '$' := by decide
  have e2 : Char.toLower '{' = '{' := by decide
  have e3 : lowerT ['}'] = ['}'] := by decide
  rw [e1, e2, e3]

theorem lowerT_bareRef (nm : String) :
    lowerT (bareRefT nm) = '$' :: lowerT nm.toList := by
  rw [bareRefT_eq, lowerT_cons]
  have e1 : Char.toLower '$' = '$' := by decide
  rw [e1]

theorem no_collision_expand (cat : Catalog) (done : List String) (nm : String)
    (hvne : segVal cat nm ≠ []) (hva : ∀ c ∈ segVal cat nm, isAlnumA c = true)
    (hnd : nm ∉ done) :
    ∀ (l : List Seg), l.all segLitOk = true → noAdjacentRefs l = true →
    (∀ x ∈ refNames l, occursB (lowerT (segVal cat nm)) (lowerT x.toList) = false) →
    (∀ x ∈ refNames l, x ≠ nm →
      occursB (lowerT (segVal cat nm)) (lowerT (segVal cat x)) = false) →
    occursB (lowerT (segVal cat nm)) (lowerT (expSegs cat done l)) = false := by
  have hpne : lowerT (segVal cat nm) ≠ [] := by
    intro h
    exact hvne ((lowerT_nil_iff _).mp h)
  have hpa := lowerT_all_alnum (segVal cat nm) hva
  intro l
  induction l with
  | nil =>
    intro _ _ _ _
    exact occursB_nil_false _ hpne
  | cons s t ih =>
    intro hl hadj hname hval
    obtain ⟨hls, hlt⟩ := all_cons_parts segLitOk s t hl
    obtain ⟨hadjt, hadjs⟩ := noAdj_parts s t hadj
    have hnamet := fun x hx => hname x (refNames_mem_cons s t x hx)
    have hvalt := fun x hx => hval x (refNames_mem_cons s t x hx)
    specialize ih hlt hadjt hnamet hvalt
    have hrest : occursB (lowerT (segVal cat nm))
        (lowerT (expSegs cat done t)) = false := ih
    -- the tail after an alphanumeric run: empty or starts with a non-alnum literal
    have htail : ∀ (w : Text), occursB (lowerT (segVal cat nm)) w = false →
        (t = [] ∨ ∃ c t', t = Seg.lit c :: t') →
        occursB (lowerT (segVal cat nm)) (w ++ lowerT (expSegs cat done t)) = false := by
      intro w hw hshape
      rcases hshape with rfl | ⟨c, t', rfl⟩
      · show occursB _ (w ++ lowerT []) = false
        rw [show lowerT ([] : Text) = [] from rfl, List.append_nil]
        exact hw
      · have hform : lowerT (expSegs cat done (Seg.lit c :: t'))
            = Char.toLower c :: lowerT (expSegs cat done t') := rfl
        rw [hform]
        have hc : litOkC c = true := by
          simpa [segLitOk] using (all_cons_parts segLitOk _ _ hlt).1
        have hcna : isAlnumA (Char.toLower c) = false := by
          rw [isAlnumA_toLower]
          exact (litOkC_props c hc).1
        rw [occursB_split_nonalnum _ hpa hpne _ hcna _ w, hw]
        rw [hform] at hrest
        rw [hrest]
        rfl
    cases s with
    | lit c =>
      have hc : litOkC c = true := by simpa [segLitOk] using hls
      have hform : lowerT (expSegs cat done (Seg.lit c :: t))
          = Char.toLower c :: lowerT (expSegs cat done t) := rfl
      rw [hform]
      rw [occursB_cons_nonalnum _ hpa hpne _ (by rw [isAlnumA_toLower]; exact (litOkC_props c hc).1)]
      exact hrest
    | braced nm' =>
      have hmem' : nm' ∈ refNames (Seg.braced nm' :: t) := by
        rw [refNames_cons_braced]; simp
      by_cases hmem : nm' ∈ done
      · have hform : lowerT (expSegs cat done (Seg.braced nm' :: t))
            = lowerT (segVal cat nm') ++ lowerT (expSegs cat done t) := by
          rw [expSegs_cons, lowerT_append]
          congr 2
          show (if nm' ∈ done then segVal cat nm' else braceRefT nm') = segVal cat nm'
          rw [if_pos hmem]
        rw [hform]
        apply htail _ (hval nm' hmem' (fun he => hnd (he ▸ hmem))) (hadjs (by simp [segName]))
      · have hform : lowerT (expSegs cat done (Seg.braced nm' :: t))
            = '$' :: ('{' :: ((lowerT nm'.toList ++ ['}']) ++ lowerT (expSegs cat done t))) := by
          rw [expSegs_cons, lowerT_append]
          have hif : segExp cat done (Seg.braced nm') = braceRefT nm' := by
            show (if nm' ∈ done then segVal cat nm' else braceRefT nm') = braceRefT nm'
            rw [if_neg hmem]
          rw [hif, lowerT_braceRef]
          simp [List.append_assoc]
        rw [hform]
        rw [occursB_cons_nonalnum _ hpa hpne _ (by decide),
          occursB_cons_nonalnum _ hpa hpne _ (by decide), List.append_assoc,
          List.singleton_append,
          occursB_split_nonalnum _ hpa hpne _ (by decide) _ (lowerT nm'.toList),
          hname nm' hmem',
          occursB_cons_nonalnum _ hpa hpne _ (by decide)]
        rw [hrest]
        rfl
    | bare nm' =>
      have hmem' : nm' ∈ refNames (Seg.bare nm' :: t) := by
        rw [refNames_cons_bare]; simp
      by_cases hmem : nm' ∈ done
      · have hform : lowerT (expSegs cat done (Seg.bare nm' :: t))
            = lowerT (segVal cat nm') ++ lowerT (expSegs cat done t) := by
          rw [expSegs_cons, lowerT_append]
          congr 2
          show (if nm' ∈ done then segVal cat nm' else bareRefT nm') = segVal cat nm'
          rw [if_pos hmem]
        rw [hform]
        apply htail _ (hval nm' hmem' (fun he => hnd (he ▸ hmem))) (hadjs (by simp [segName]))
      · have hform : lowerT (expSegs cat done (Seg.bare nm' :: t))
            = '$' :: (lowerT nm'.toList ++ lowerT (expSegs cat done t)) := by
          rw [expSegs_cons, lowerT_append]
          have hif : segExp cat done (Seg.bare nm') = bareRefT nm' := by
            show (if nm' ∈ done then segVal cat nm' else bareRefT nm') = bareRefT nm'
            rw [if_neg hmem]
          rw [hif, lowerT_bareRef]
          rfl
        rw [hform]
        rw [occursB_cons_nonalnum _ hpa hpne _ (by decide)]
        apply htail _ (hname nm' hmem') (hadjs (by simp [segName]))

/-! ### C1: one pass of the expand loop -/

theorem collideLoop_no_collision (alphabet : Text) (rng : Rng) (text : Text)
    (fuel nbTry : Nat) (m : MacroDef) (k : Nat)
    (h : occursCI m.expansion text = false) :
    collideLoop alphabet rng text (fuel + 1) nbTry m k = (m, nbTry, k) := by
  show (if occursCI m.expansion text then _ else (m, nbTry, k)) = (m, nbTry, k)
  rw [if_neg (by simp [h])]

theorem mem_refNames_seg (l : List Seg) (x : String) (hx : x ∈ refNames l) :
    ∃ s ∈ l, segName s = some x := by
  unfold refNames at hx
  exact List.mem_filterMap.mp hx

theorem segNorm_infix (s : Seg) (l : List Seg) (h : s ∈ l) :
    segNormText s <:+: normSegs l := by
  obtain ⟨a, b, rfl⟩ := List.append_of_mem h
  refine ⟨normSegs a, normSegs b, ?_⟩
  show normSegs a ++ segNormText s ++ normSegs b = normSegs (a ++ s :: b)
  unfold normSegs
  rw [List.flatMap_append, List.flatMap_cons, List.append_assoc]

theorem nameText_infix_norm (segs : List Seg) (x : String) (hx : x ∈ refNames segs) :
    x.toList <:+: normSegs segs := by
  obtain ⟨s, hs, hname⟩ := mem_refNames_seg segs x hx
  have hbr : braceNmT x <:+: normSegs segs := by
    have heq : segNormText s = braceNmT x := by
      cases s with
      | lit c => cases hname
      | braced nm =>
        have : nm = x := by simpa [segName] using hname
        rw [this]
        rfl
      | bare nm =>
        have : nm = x := by simpa [segName] using hname
        rw [this]
        rfl
    rw [← heq]
    exact segNorm_infix s segs hs
  have hin : x.toList <:+: braceNmT x := by
    refine ⟨['{'], ['}'], ?_⟩
    rfl
  exact hin.trans hbr

theorem no_occur_in_name (cat : Catalog) (segs : List Seg) (nm x : String) (p : Text)
    (hp : lowerT p = lowerT (segVal cat nm)) (hx : x ∈ refNames segs)
    (hocc1 : occursB (lowerT (segVal cat nm)) (lowerT (normSegs segs)) = false) :
    occursB p x.toList = false := by
  cases ht : occursB p x.toList
  · rfl
  · exfalso
    have h1 := occursB_map_lower p x.toList ht
    rw [hp] at h1
    have h2 : lowerT x.toList <:+: lowerT (normSegs segs) :=
      (nameText_infix_norm segs x hx).map Char.toLower
    have h3 := occursB_infix _ _ _ h1 h2
    rw [hocc1] at h3
    cases h3

theorem no_occur_in_val (cat : Catalog) (a b : String) (p : Text)
    (hp : lowerT p = lowerT (segVal cat a))
    (hg : occursB (lowerT (segVal cat a)) (lowerT (segVal cat b)) = false) :
    occursB p (segVal cat b) = false := by
  cases ht : occursB p (segVal cat b)
  · rfl
  · exfalso
    have h1 := occursB_map_lower p (segVal cat b) ht
    rw [hp] at h1
    rw [hg] at h1
    cases h1

theorem pyStrReplace_ne_nil (s pat rep : Text) (h : pat ≠ []) :
    pyStrReplace s pat rep = pyReplace pat rep s := by
  unfold pyStrReplace
  rw [if_neg h]

theorem mkMacroDef_fields (lenient : Text → Bool) (nm : String) (raw : Text) :
    (mkMacroDef lenient nm raw).name = nm
      ∧ (mkMacroDef lenient nm raw).expansion = pyStrip raw := ⟨rfl, rfl⟩

theorem procOneMac_clean (alphabet : Text) (rng : Rng) (lenient : Text → Bool)
    (used : List (String × Nat)) (cat : Catalog) (done : List String) (segs : List Seg)
    (nm : String) (pbs : List Text) (acc : List MacroDef) (k : Nat)
    (hlook : (lookupCat cat (catKey nm)).isSome = true)
    (hnocoll : occursCI (segVal cat nm) (expSegs cat done segs) = false)
    (hbr : pyReplace (braceRefT nm) (segVal cat nm) (expSegs cat done segs)
      = expSegsB cat done nm segs)
    (hba : pyReplace (bareRefT nm) (segVal cat nm) (expSegsB cat done nm segs)
      = expSegs cat (nm :: done) segs) :
    procOneMac alphabet rng lenient used nm ⟨cat, expSegs cat done segs, pbs, acc, k⟩
      = ⟨cat, expSegs cat (nm :: done) segs, pbs,
          acc ++ [mkMacroDef lenient nm ((lookupCat cat (catKey nm)).getD [])], k⟩ := by
  obtain ⟨raw, hraw⟩ := Option.isSome_iff_exists.mp hlook
  have hval_raw : segVal cat nm = pyStrip raw := by
    unfold segVal
    rw [hraw]
    rfl
  rw [hval_raw] at hnocoll hbr hba
  unfold procOneMac
  simp only [hraw, Option.getD_some]
  rw [show (102 : Nat) = 101 + 1 from rfl,
    collideLoop_no_collision alphabet rng _ 101 0 _ k
      (show occursCI (mkMacroDef lenient nm raw).expansion (expSegs cat done segs) = false
        from hnocoll)]
  simp only []
  rw [if_neg (by
    intro hcontra
    have hc2 : occursCI (pyStrip raw) (expSegs cat done segs) = true := hcontra
    rw [hnocoll] at hc2
    cases hc2)]
  rw [show (mkMacroDef lenient nm raw).expansion = pyStrip raw from rfl]
  rw [pyStrReplace_ne_nil _ _ _ (braceRefT_ne_nil nm), hbr,
    pyStrReplace_ne_nil _ _ _ (bareRefT_ne_nil nm), hba]

/-! ### C1: the whole expand pass -/

theorem expSegs_nil_done (cat : Catalog) (segs : List Seg) :
    expSegs cat [] segs = renderSegs segs := by
  induction segs with
  | nil => rfl
  | cons s t ih =>
    rw [expSegs_cons, renderSegs_cons, ih]
    congr 1

theorem expand_fold_clean (alphabet : Text) (rng : Rng) (lenient : Text → Bool)
    (used : List (String × Nat)) (cat : Catalog) (segs : List Seg)
    (hseg1 : segs.all segLitOk = true) (hseg2 : noAdjacentRefs segs = true)
    (hn : ∀ x ∈ refNames segs, nameOk x = true)
    (hlook : ∀ x ∈ refNames segs, (lookupCat cat (catKey x)).isSome = true)
    (hvne : ∀ x ∈ refNames segs, segVal cat x ≠ [])
    (hva : ∀ x ∈ refNames segs, ∀ c ∈ segVal cat x, isAlnumA c = true)
    (hocc : ∀ x ∈ refNames segs,
      occursB (lowerT (segVal cat x)) (lowerT (normSegs segs)) = false)
    (hpfx : ∀ a ∈ refNames segs, ∀ b ∈ refNames segs, a ≠ b →
      isPfx a.toList b.toList = false)
    (hpair : ∀ a ∈ refNames segs, ∀ b ∈ refNames segs, a ≠ b →
      occursB (lowerT (segVal cat a)) (lowerT (segVal cat b)) = false) :
    ∀ (names done : List String) (pbs : List Text) (acc : List MacroDef) (k : Nat),
    (∀ x ∈ names, x ∈ refNames segs) → (∀ x ∈ names, x ∉ done) → names.Nodup →
    List.foldl (fun st nm => procOneMac alphabet rng lenient used nm st)
      ⟨cat, expSegs cat done segs, pbs, acc, k⟩ names
      = ⟨cat, expSegs cat (names.reverse ++ done) segs, pbs,
          acc ++ names.map (fun nm => mkMacroDef lenient nm
            ((lookupCat cat (catKey nm)).getD [])), k⟩ := by
  intro names
  induction names with
  | nil =>
    intro done pbs acc k _ _ _
    simp
  | cons nm rest ih =>
    intro done pbs acc k hmem hnd hnodup
    rw [List.foldl_cons]
    have hnm_ref : nm ∈ refNames segs := hmem nm (by simp)
    have hname_low : ∀ x ∈ refNames segs,
        occursB (lowerT (segVal cat nm)) (lowerT x.toList) = false := by
      intro x hx
      cases ht : occursB (lowerT (segVal cat nm)) (lowerT x.toList)
      · rfl
      · exfalso
        have h2 := occursB_infix _ _ _ ht
          ((nameText_infix_norm segs x hx).map Char.toLower)
        have h3 : occursB (lowerT (segVal cat nm)) (lowerT (normSegs segs)) = true := h2
        rw [hocc nm hnm_ref] at h3
        cases h3
    have hnocoll : occursCI (segVal cat nm) (expSegs cat done segs) = false := by
      unfold occursCI
      exact no_collision_expand cat done nm (hvne nm hnm_ref) (hva nm hnm_ref)
        (hnd nm (by simp)) segs hseg1 hseg2 hname_low
        (fun x hx hxne => hpair nm hnm_ref x hx (fun he => hxne he.symm))
    have hbr := replace_braced cat done nm segs hseg1 hn hva (hn nm hnm_ref)
    have hba := replace_bare cat done nm segs hseg1 hseg2 hn hva
      (fun x hx hxne => hpfx nm hnm_ref x hx (fun he => hxne he.symm)) (hn nm hnm_ref)
    rw [procOneMac_clean alphabet rng lenient used cat done segs nm pbs acc k
      (hlook nm hnm_ref) hnocoll hbr hba]
    rw [ih (nm :: done) pbs _ k (fun x hx => hmem x (by simp [hx]))
      (fun x hx => by
        intro hcon
        rcases List.mem_cons.mp hcon with rfl | h2
        · exact (List.nodup_cons.mp hnodup).1 hx
        · exact hnd x (by simp [hx]) h2)
      (List.nodup_cons.mp hnodup).2]
    simp [List.append_assoc]

theorem expandRun_clean (alphabet : Text) (rng : Rng) (lenient : Text → Bool)
    (cat : Catalog) (segs : List Seg)
    (hseg1 : segs.all segLitOk = true) (hseg2 : noAdjacentRefs segs = true)
    (hn : ∀ x ∈ refNames segs, nameOk x = true)
    (hlook : ∀ x ∈ refNames segs, (lookupCat cat (catKey x)).isSome = true)
    (hvne : ∀ x ∈ refNames segs, segVal cat x ≠ [])
    (hva : ∀ x ∈ refNames segs, ∀ c ∈ segVal cat x, isAlnumA c = true)
    (hocc : ∀ x ∈ refNames segs,
      occursB (lowerT (segVal cat x)) (lowerT (normSegs segs)) = false)
    (hpfx : ∀ a ∈ refNames segs, ∀ b ∈ refNames segs, a ≠ b →
      isPfx a.toList b.toList = false)
    (hpair : ∀ a ∈ refNames segs, ∀ b ∈ refNames segs, a ≠ b →
      occursB (lowerT (segVal cat a)) (lowerT (segVal cat b)) = false) :
    ∃ ns : List String, ns.Nodup ∧ (∀ x, x ∈ ns ↔ x ∈ refNames segs) ∧
      expandRun alphabet rng lenient cat (renderSegs segs)
        = ⟨cat, expSegs cat ns.reverse segs, [],
            ns.map (fun nm => mkMacroDef lenient nm ((lookupCat cat (catKey nm)).getD [])),
            0⟩ := by
  obtain ⟨hndp, hmm⟩ := usedMacros_names segs hseg1 hn
  have hperm := stableSort_perm (fun a b => textLeB a.toList b.toList)
    ((usedMacros (renderSegs segs)).map Prod.fst)
  refine ⟨stableSort (fun a b => textLeB a.toList b.toList)
    ((usedMacros (renderSegs segs)).map Prod.fst), hperm.nodup_iff.mpr hndp,
    fun x => (hperm.mem_iff).trans (hmm x), ?_⟩
  show List.foldl (fun st nm => procOneMac alphabet rng lenient
      (usedMacros (renderSegs segs)) nm st)
      ⟨cat, renderSegs segs, [], [], 0⟩
      (stableSort (fun a b => textLeB a.toList b.toList)
        ((usedMacros (renderSegs segs)).map Prod.fst)) = _
  have hgen := expand_fold_clean alphabet rng lenient (usedMacros (renderSegs segs)) cat segs
    hseg1 hseg2 hn hlook hvne hva hocc hpfx hpair
    (stableSort (fun a b => textLeB a.toList b.toList)
      ((usedMacros (renderSegs segs)).map Prod.fst)) [] [] [] 0
    (fun x hx => (hmm x).mp (hperm.mem_iff.mp hx))
    (fun x _ => by simp)
    (hperm.nodup_iff.mpr hndp)
  rw [expSegs_nil_done cat segs, List.append_nil] at hgen
  simp only [List.nil_append] at hgen
  exact hgen

/-! ### C1: the unexpand pass restores placeholders -/

theorem unexSegs_cons (cat : Catalog) (still : List String) (s : Seg) (t : List Seg) :
    unexSegs cat still (s :: t) = segUnex cat still s ++ unexSegs cat still t := by
  simp [unexSegs]

theorem braceNmT_eq (nm : String) : braceNmT nm = '{' :: (nm.toList ++ ['}']) := rfl

theorem unexSegs_chars (cat : Catalog) (still : List String) (hq : Char)
    (hql : litOkC hq = false) (hqn : isNameChar hq = false) (hqa : isAlnumA hq = false)
    (hqb : hq ≠ '{') (hqc : hq ≠ '}') :
    ∀ (l : List Seg), l.all segLitOk = true →
    (∀ x ∈ refNames l, nameOk x = true) →
    (∀ x ∈ refNames l, ∀ c ∈ segVal cat x, isAlnumA c = true) →
    ∀ c ∈ unexSegs cat still l, c ≠ hq := by
  intro l
  induction l with
  | nil => intro _ _ _ c hc; cases hc
  | cons s t ih =>
    intro hl hn hv c hc
    obtain ⟨hls, hlt⟩ := all_cons_parts segLitOk s t hl
    have hnt := fun x hx => hn x (refNames_mem_cons s t x hx)
    have hvt := fun x hx => hv x (refNames_mem_cons s t x hx)
    rw [unexSegs_cons] at hc
    rcases List.mem_append.mp hc with hc1 | hc1
    · cases s with
      | lit c0 =>
        have hc0 : litOkC c0 = true := by simpa [segLitOk] using hls
        have : c = c0 := by simpa [segUnex] using hc1
        subst this
        intro he
        rw [he, hql] at hc0
        cases hc0
      | braced nm =>
        have hmem' : nm ∈ refNames (Seg.braced nm :: t) := by
          rw [refNames_cons_braced]; simp
        by_cases hmem : nm ∈ still
        · have hp : segUnex cat still (Seg.braced nm) = segVal cat nm := by
            show (if nm ∈ still then segVal cat nm else braceNmT nm) = _
            rw [if_pos hmem]
          rw [hp] at hc1
          exact isAlnumA_ne c hq (hv nm hmem' c hc1) hqa
        · have hp : segUnex cat still (Seg.braced nm) = braceNmT nm := by
            show (if nm ∈ still then segVal cat nm else braceNmT nm) = _
            rw [if_neg hmem]
          rw [hp, braceNmT_eq] at hc1
          rcases List.mem_cons.mp hc1 with rfl | hc2
          · exact fun he => hqb he.symm
          · rcases List.mem_append.mp hc2 with hc3 | hc3
            · intro he
              have := nameOk_chars nm (hn nm hmem') c hc3
              rw [he, hqn] at this
              cases this
            · rw [List.mem_singleton] at hc3
              subst hc3
              exact fun he => hqc he.symm
      | bare nm =>
        have hmem' : nm ∈ refNames (Seg.bare nm :: t) := by
          rw [refNames_cons_bare]; simp
        by_cases hmem : nm ∈ still
        · have hp : segUnex cat still (Seg.bare nm) = segVal cat nm := by
            show (if nm ∈ still then segVal cat nm else braceNmT nm) = _
            rw [if_pos hmem]
          rw [hp] at hc1
          exact isAlnumA_ne c hq (hv nm hmem' c hc1) hqa
        · have hp : segUnex cat still (Seg.bare nm) = braceNmT nm := by
            show (if nm ∈ still then segVal cat nm else braceNmT nm) = _
            rw [if_neg hmem]
          rw [hp, braceNmT_eq] at hc1
          rcases List.mem_cons.mp hc1 with rfl | hc2
          · exact fun he => hqb he.symm
          · rcases List.mem_append.mp hc2 with hc3 | hc3
            · intro he
              have := nameOk_chars nm (hn nm hmem') c hc3
              rw [he, hqn] at this
              cases this
            · rw [List.mem_singleton] at hc3
              subst hc3
              exact fun he => hqc he.symm
    · exact ih hlt hnt hvt c hc1

theorem clean_suffix_alnum (p : Text) (hpa : ∀ c ∈ p, isAlnumA c = true) (w : Text)
    (hw : occursB p w = false) (y : Text)
    (hy : y = [] ∨ ∃ d y', y = d :: y' ∧ isAlnumA d = false) :
    ∀ u, u <:+ w → u ≠ [] → isPfx p (u ++ y) = false := by
  intro u hs hne
  have hfit : isPfx p u = false := by
    cases hx : isPfx p u
    · rfl
    · rw [occursB_of_suffix_isPfx p w u hs hx] at hw
      cases hw
  rcases hy with rfl | ⟨d, y', rfl, hd⟩
  · rw [List.append_nil]
    exact hfit
  · rw [isPfx_alnum_stop p hpa d hd y' u]
    exact hfit

theorem occursB_false_of_no_head (hc : Char) (p' : Text) (s : Text)
    (hs : ∀ c ∈ s, c ≠ hc) : occursB (hc :: p') s = false := by
  induction s with
  | nil => rfl
  | cons c cs ih =>
    rw [occursB_cons, isPfx_cons_ne hc c p' cs (fun he => hs c (by simp) he.symm),
      ih (fun x hx => hs x (by simp [hx]))]
    rfl

theorem replace_value (cat : Catalog) (nm : String) (still' : List String)
    (hvne : segVal cat nm ≠ []) (hva : ∀ c ∈ segVal cat nm, isAlnumA c = true)
    (hstill : nm ∉ still') :
    ∀ (l : List Seg), l.all segLitOk = true → noAdjacentRefs l = true →
    (∀ x ∈ refNames l, ∀ c ∈ segVal cat x, isAlnumA c = true) →
    (∀ x ∈ refNames l, occursB (segVal cat nm) x.toList = false) →
    (∀ x ∈ refNames l, x ≠ nm → occursB (segVal cat nm) (segVal cat x) = false) →
    pyReplace (segVal cat nm) (braceNmT nm) (unexSegs cat (nm :: still') l)
      = unexSegs cat still' l := by
  intro l
  induction l with
  | nil => intro _ _ _ _ _; rfl
  | cons s t ih =>
    intro hl hadj hv hnoname hnoval
    obtain ⟨hls, hlt⟩ := all_cons_parts segLitOk s t hl
    obtain ⟨hadjt, hadjs⟩ := noAdj_parts s t hadj
    have hvt := fun x hx => hv x (refNames_mem_cons s t x hx)
    have hnonamet := fun x hx => hnoname x (refNames_mem_cons s t x hx)
    have hnovalt := fun x hx => hnoval x (refNames_mem_cons s t x hx)
    specialize ih hlt hadjt hvt hnonamet hnovalt
    cases s with
    | lit c =>
      have hc : litOkC c = true := by simpa [segLitOk] using hls
      have hstep : unexSegs cat (nm :: still') (Seg.lit c :: t)
          = c :: unexSegs cat (nm :: still') t := rfl
      have hstep2 : unexSegs cat still' (Seg.lit c :: t)
          = c :: unexSegs cat still' t := rfl
      have hpfx : isPfx (segVal cat nm) (c :: unexSegs cat (nm :: still') t) = false := by
        cases hvp : segVal cat nm with
        | nil => exact absurd hvp hvne
        | cons a p' =>
          apply isPfx_cons_ne
          apply isAlnumA_ne a c
          · apply hva
            rw [hvp]
            simp
          · exact (litOkC_props c hc).1
      rw [hstep, hstep2, pyReplace_cons_nomatch _ _ c _ hpfx, ih]
    | braced nm' =>
      have hmem' : nm' ∈ refNames (Seg.braced nm' :: t) := by
        rw [refNames_cons_braced]; simp
      have hyshape : unexSegs cat (nm :: still') t = []
          ∨ ∃ d y', unexSegs cat (nm :: still') t = d :: y' ∧ isAlnumA d = false := by
        rcases hadjs (by simp [segName]) with rfl | ⟨c0, t2, rfl⟩
        · exact Or.inl rfl
        · refine Or.inr ⟨c0, unexSegs cat (nm :: still') t2, rfl, ?_⟩
          have hc0 : litOkC c0 = true := by
            simpa [segLitOk] using (all_cons_parts segLitOk _ _ hlt).1
          exact (litOkC_props c0 hc0).1
      by_cases heq : nm' = nm
      · subst heq
        have hstep : unexSegs cat (nm' :: still') (Seg.braced nm' :: t)
            = segVal cat nm' ++ unexSegs cat (nm' :: still') t := by
          rw [unexSegs_cons]
          congr 1
          show (if nm' ∈ nm' :: still' then segVal cat nm' else braceNmT nm') = _
          rw [if_pos (by simp)]
        have hstep2 : unexSegs cat still' (Seg.braced nm' :: t)
            = braceNmT nm' ++ unexSegs cat still' t := by
          rw [unexSegs_cons]
          congr 1
          show (if nm' ∈ still' then segVal cat nm' else braceNmT nm') = _
          rw [if_neg hstill]
        rw [hstep, hstep2, pyReplace_head_match _ _ hvne _, ih]
      · by_cases hmem : nm' ∈ still'
        · have hstep : unexSegs cat (nm :: still') (Seg.braced nm' :: t)
              = segVal cat nm' ++ unexSegs cat (nm :: still') t := by
            rw [unexSegs_cons]
            congr 1
            show (if nm' ∈ nm :: still' then segVal cat nm' else braceNmT nm') = _
            rw [if_pos (List.mem_cons_of_mem nm hmem)]
          have hstep2 : unexSegs cat still' (Seg.braced nm' :: t)
              = segVal cat nm' ++ unexSegs cat still' t := by
            rw [unexSegs_cons]
            congr 1
            show (if nm' ∈ still' then segVal cat nm' else braceNmT nm') = _
            rw [if_pos hmem]
          rw [hstep, hstep2,
            pyReplace_append_clean _ _ _ _
              (clean_suffix_alnum _ hva _ (hnoval nm' hmem' heq) _ hyshape), ih]
        · have hif : (if nm' ∈ nm :: still' then segVal cat nm' else braceNmT nm')
              = braceNmT nm' := by
            rw [if_neg (by
              intro hcon
              rcases List.mem_cons.mp hcon with h2 | h2
              · exact heq h2
              · exact hmem h2)]
          have hstep : unexSegs cat (nm :: still') (Seg.braced nm' :: t)
              = '{' :: ((nm'.toList ++ ['}']) ++ unexSegs cat (nm :: still') t) := by
            rw [unexSegs_cons]
            show segUnex cat (nm :: still') (Seg.braced nm') ++ _ = _
            show (if nm' ∈ nm :: still' then segVal cat nm' else braceNmT nm') ++ _ = _
            rw [hif, braceNmT_eq]
            rfl
          have hstep2 : unexSegs cat still' (Seg.braced nm' :: t)
              = braceNmT nm' ++ unexSegs cat still' t := by
            rw [unexSegs_cons]
            congr 1
            show (if nm' ∈ still' then segVal cat nm' else braceNmT nm') = _
            rw [if_neg hmem]
          have hpfx0 : isPfx (segVal cat nm)
              ('{' :: ((nm'.toList ++ ['}']) ++ unexSegs cat (nm :: still') t)) = false := by
            cases hvp : segVal cat nm with
            | nil => exact absurd hvp hvne
            | cons a p' =>
              apply isPfx_cons_ne
              intro he
              have := hva a (by rw [hvp]; simp)
              rw [he] at this
              exact absurd this (by decide)
          have hwname : occursB (segVal cat nm) (nm'.toList ++ ['}']) = false := by
            rw [occursB_snoc_nonalnum _ hva hvne '}' (by decide)]
            exact hnoname nm' hmem'
          rw [hstep, hstep2, pyReplace_cons_nomatch _ _ '{' _ hpfx0,
            pyReplace_append_clean _ _ _ _
              (clean_suffix_alnum _ hva _ hwname _ hyshape), ih]
          rw [braceNmT_eq]
          rfl
    | bare nm' =>
      have hmem' : nm' ∈ refNames (Seg.bare nm' :: t) := by
        rw [refNames_cons_bare]; simp
      have hyshape : unexSegs cat (nm :: still') t = []
          ∨ ∃ d y', unexSegs cat (nm :: still') t = d :: y' ∧ isAlnumA d = false := by
        rcases hadjs (by simp [segName]) with rfl | ⟨c0, t2, rfl⟩
        · exact Or.inl rfl
        · refine Or.inr ⟨c0, unexSegs cat (nm :: still') t2, rfl, ?_⟩
          have hc0 : litOkC c0 = true := by
            simpa [segLitOk] using (all_cons_parts segLitOk _ _ hlt).1
          exact (litOkC_props c0 hc0).1
      by_cases heq : nm' = nm
      · subst heq
        have hstep : unexSegs cat (nm' :: still') (Seg.bare nm' :: t)
            = segVal cat nm' ++ unexSegs cat (nm' :: still') t := by
          rw [unexSegs_cons]
          congr 1
          show (if nm' ∈ nm' :: still' then segVal cat nm' else braceNmT nm') = _
          rw [if_pos (by simp)]
        have hstep2 : unexSegs cat still' (Seg.bare nm' :: t)
            = braceNmT nm' ++ unexSegs cat still' t := by
          rw [unexSegs_cons]
          congr 1
          show (if nm' ∈ still' then segVal cat nm' else braceNmT nm') = _
          rw [if_neg hstill]
        rw [hstep, hstep2, pyReplace_head_match _ _ hvne _, ih]
      · by_cases hmem : nm' ∈ still'
        · have hstep : unexSegs cat (nm :: still') (Seg.bare nm' :: t)
              = segVal cat nm' ++ unexSegs cat (nm :: still') t := by
            rw [unexSegs_cons]
            congr 1
            show (if nm' ∈ nm :: still' then segVal cat nm' else braceNmT nm') = _
            rw [if_pos (List.mem_cons_of_mem nm hmem)]
          have hstep2 : unexSegs cat still' (Seg.bare nm' :: t)
              = segVal cat nm' ++ unexSegs cat still' t := by
            rw [unexSegs_cons]
            congr 1
            show (if nm' ∈ still' then segVal cat nm' else braceNmT nm') = _
            rw [if_pos hmem]
          rw [hstep, hstep2,
            pyReplace_append_clean _ _ _ _
              (clean_suffix_alnum _ hva _ (hnoval nm' hmem' heq) _ hyshape), ih]
        · have hif : (if nm' ∈ nm :: still' then segVal cat nm' else braceNmT nm')
              = braceNmT nm' := by
            rw [if_neg (by
              intro hcon
              rcases List.mem_cons.mp hcon with h2 | h2
              · exact heq h2
              · exact hmem h2)]
          have hstep : unexSegs cat (nm :: still') (Seg.bare nm' :: t)
              = '{' :: ((nm'.toList ++ ['}']) ++ unexSegs cat (nm :: still') t) := by
            rw [unexSegs_cons]
            show segUnex cat (nm :: still') (Seg.bare nm') ++ _ = _
            show (if nm' ∈ nm :: still' then segVal cat nm' else braceNmT nm') ++ _ = _
            rw [hif, braceNmT_eq]
            rfl
          have hstep2 : unexSegs cat still' (Seg.bare nm' :: t)
              = braceNmT nm' ++ unexSegs cat still' t := by
            rw [unexSegs_cons]
            congr 1
            show (if nm' ∈ still' then segVal cat nm' else braceNmT nm') = _
            rw [if_neg hmem]
          have hpfx0 : isPfx (segVal cat nm)
              ('{' :: ((nm'.toList ++ ['}']) ++ unexSegs cat (nm :: still') t)) = false := by
            cases hvp : segVal cat nm with
            | nil => exact absurd hvp hvne
            | cons a p' =>
              apply isPfx_cons_ne
              intro he
              have := hva a (by rw [hvp]; simp)
              rw [he] at this
              exact absurd this (by decide)
          have hwname : occursB (segVal cat nm) (nm'.toList ++ ['}']) = false := by
            rw [occursB_snoc_nonalnum _ hva hvne '}' (by decide)]
            exact hnoname nm' hmem'
          rw [hstep, hstep2, pyReplace_cons_nomatch _ _ '{' _ hpfx0,
            pyReplace_append_clean _ _ _ _
              (clean_suffix_alnum _ hva _ hwname _ hyshape), ih]
          rw [braceNmT_eq]
          rfl

theorem upperT_nil_iff (t : Text) : upperT t = [] ↔ t = [] := by
  cases t <;> simp [upperT]

theorem upperT_all_alnum (t : Text) (h : ∀ c ∈ t, isAlnumA c = true) :
    ∀ c ∈ upperT t, isAlnumA c = true := by
  intro c hc
  obtain ⟨c', hc', rfl⟩ := List.mem_map.mp hc
  rw [isAlnumA_toUpper]
  exact h c' hc'

theorem no_occur_unex (cat : Catalog) (still' : List String) (p : Text)
    (hpne : p ≠ []) (hpa : ∀ c ∈ p, isAlnumA c = true) :
    ∀ (l : List Seg), l.all segLitOk = true → noAdjacentRefs l = true →
    (∀ x ∈ refNames l, occursB p x.toList = false) →
    (∀ x ∈ refNames l, x ∈ still' → occursB p (segVal cat x) = false) →
    occursB p (unexSegs cat still' l) = false := by
  intro l
  induction l with
  | nil =>
    intro _ _ _ _
    exact occursB_nil_false _ hpne
  | cons s t ih =>
    intro hl hadj hnoname hnoval
    obtain ⟨hls, hlt⟩ := all_cons_parts segLitOk s t hl
    obtain ⟨hadjt, hadjs⟩ := noAdj_parts s t hadj
    have hnonamet := fun x hx => hnoname x (refNames_mem_cons s t x hx)
    have hnovalt := fun x hx => hnoval x (refNames_mem_cons s t x hx)
    specialize ih hlt hadjt hnonamet hnovalt
    have htail : ∀ (w : Text), occursB p w = false →
        (t = [] ∨ ∃ c t', t = Seg.lit c :: t') →
        occursB p (w ++ unexSegs cat still' t) = false := by
      intro w hw hshape
      rcases hshape with rfl | ⟨c, t', rfl⟩
      · rw [show unexSegs cat still' ([] : List Seg) = [] from rfl, List.append_nil]
        exact hw
      · have hform : unexSegs cat still' (Seg.lit c :: t') = c :: unexSegs cat still' t' := rfl
        rw [hform]
        have hc : litOkC c = true := by
          simpa [segLitOk] using (all_cons_parts segLitOk _ _ hlt).1
        rw [occursB_split_nonalnum _ hpa hpne _ ((litOkC_props c hc).1) _ w, hw]
        rw [hform] at ih
        rw [ih]
        rfl
    cases s with
    | lit c =>
      have hc : litOkC c = true := by simpa [segLitOk] using hls
      have hform : unexSegs cat still' (Seg.lit c :: t) = c :: unexSegs cat still' t := rfl
      rw [hform, occursB_cons_nonalnum _ hpa hpne _ ((litOkC_props c hc).1)]
      exact ih
    | braced nm' =>
      have hmem' : nm' ∈ refNames (Seg.braced nm' :: t) := by
        rw [refNames_cons_braced]; simp
      by_cases hmem : nm' ∈ still'
      · have hform : unexSegs cat still' (Seg.braced nm' :: t)
            = segVal cat nm' ++ unexSegs cat still' t := by
          rw [unexSegs_cons]
          congr 1
          show (if nm' ∈ still' then segVal cat nm' else braceNmT nm') = _
          rw [if_pos hmem]
        rw [hform]
        exact htail _ (hnoval nm' hmem' hmem) (hadjs (by simp [segName]))
      · have hform : unexSegs cat still' (Seg.braced nm' :: t)
            = '{' :: (nm'.toList ++ ('}' :: unexSegs cat still' t)) := by
          rw [unexSegs_cons]
          have hif : segUnex cat still' (Seg.braced nm') = braceNmT nm' := by
            show (if nm' ∈ still' then segVal cat nm' else braceNmT nm') = _
            rw [if_neg hmem]
          rw [hif, braceNmT_eq]
          simp [List.append_assoc]
        rw [hform, occursB_cons_nonalnum _ hpa hpne _ (by decide),
          occursB_split_nonalnum _ hpa hpne _ (by decide) _ nm'.toList,
          hnoname nm' hmem',
          occursB_cons_nonalnum _ hpa hpne _ (by decide)]
        rw [ih]
        rfl
    | bare nm' =>
      have hmem' : nm' ∈ refNames (Seg.bare nm' :: t) := by
        rw [refNames_cons_bare]; simp
      by_cases hmem : nm' ∈ still'
      · have hform : unexSegs cat still' (Seg.bare nm' :: t)
            = segVal cat nm' ++ unexSegs cat still' t := by
          rw [unexSegs_cons]
          congr 1
          show (if nm' ∈ still' then segVal cat nm' else braceNmT nm') = _
          rw [if_pos hmem]
        rw [hform]
        exact htail _ (hnoval nm' hmem' hmem) (hadjs (by simp [segName]))
      · have hform : unexSegs cat still' (Seg.bare nm' :: t)
            = '{' :: (nm'.toList ++ ('}' :: unexSegs cat still' t)) := by
          rw [unexSegs_cons]
          have hif : segUnex cat still' (Seg.bare nm') = braceNmT nm' := by
            show (if nm' ∈ still' then segVal cat nm' else braceNmT nm') = _
            rw [if_neg hmem]
          rw [hif, braceNmT_eq]
          simp [List.append_assoc]
        rw [hform, occursB_cons_nonalnum _ hpa hpne _ (by decide),
          occursB_split_nonalnum _ hpa hpne _ (by decide) _ nm'.toList,
          hnoname nm' hmem',
          occursB_cons_nonalnum _ hpa hpne _ (by decide)]
        rw [ih]
        rfl

theorem unexOneMac_clean (cat : Catalog) (segs : List Seg) (still' : List String)
    (m : MacroDef) (nm : String) (hname : m.name = nm) (hexp : m.expansion = segVal cat nm)
    (hnmref : nm ∈ refNames segs) (hstill : nm ∉ still')
    (hl : segs.all segLitOk = true) (hadj : noAdjacentRefs segs = true)
    (hn : ∀ x ∈ refNames segs, nameOk x = true)
    (hvne : ∀ x ∈ refNames segs, segVal cat x ≠ [])
    (hva : ∀ x ∈ refNames segs, ∀ c ∈ segVal cat x, isAlnumA c = true)
    (hocc_nm : occursB (lowerT (segVal cat nm)) (lowerT (normSegs segs)) = false)
    (hpair_nm : ∀ x ∈ refNames segs, x ≠ nm →
      occursB (lowerT (segVal cat nm)) (lowerT (segVal cat x)) = false) :
    unexOneMac (unexSegs cat (nm :: still') segs) m = unexSegs cat still' segs := by
  have hv_ne := hvne nm hnmref
  have hv_a := hva nm hnmref
  have hq := unexSegs_chars cat (nm :: still') '\'' (by decide) (by decide) (by decide)
    (by decide) (by decide) segs hl hn hva
  have h1 : quoteSub m.expansion (sqT ++ braceNmT m.name ++ sqT)
      (unexSegs cat (nm :: still') segs) = unexSegs cat (nm :: still') segs :=
    quoteSub_id _ _ _ hq
  have h2 : pyStrReplace (unexSegs cat (nm :: still') segs) m.expansion (braceNmT m.name)
      = unexSegs cat still' segs := by
    rw [hname, hexp, pyStrReplace_ne_nil _ _ _ hv_ne]
    exact replace_value cat nm still' hv_ne hv_a hstill segs hl hadj hva
      (fun x hx => no_occur_in_name cat segs nm x _ rfl hx hocc_nm)
      (fun x hx hne => no_occur_in_val cat nm x _ rfl (hpair_nm x hx hne))
  have hlow_ne : lowerT m.expansion ≠ [] := by
    rw [hexp]
    intro hcon
    exact hv_ne ((lowerT_nil_iff _).mp hcon)
  have hup_ne : upperT m.expansion ≠ [] := by
    rw [hexp]
    intro hcon
    exact hv_ne ((upperT_nil_iff _).mp hcon)
  have h3 : pyStrReplace (unexSegs cat still' segs) (lowerT m.expansion) (braceNmT m.name)
      = unexSegs cat still' segs := by
    rw [pyStrReplace_ne_nil _ _ _ hlow_ne, hexp]
    apply pyReplace_not_occurs
    apply no_occur_unex cat still' _ (by
        intro hcon
        exact hv_ne ((lowerT_nil_iff _).mp hcon))
      (lowerT_all_alnum _ hv_a) segs hl hadj
    · intro x hx
      exact no_occur_in_name cat segs nm x _ (lowerT_idem _) hx hocc_nm
    · intro x hx hxs
      exact no_occur_in_val cat nm x _ (lowerT_idem _)
        (hpair_nm x hx (fun he => hstill (he ▸ hxs)))
  have h4 : pyStrReplace (unexSegs cat still' segs) (upperT m.expansion) (braceNmT m.name)
      = unexSegs cat still' segs := by
    rw [pyStrReplace_ne_nil _ _ _ hup_ne, hexp]
    apply pyReplace_not_occurs
    apply no_occur_unex cat still' _ (by
        intro hcon
        exact hv_ne ((upperT_nil_iff _).mp hcon))
      (upperT_all_alnum _ hv_a) segs hl hadj
    · intro x hx
      exact no_occur_in_name cat segs nm x _ (lowerT_upperT _) hx hocc_nm
    · intro x hx hxs
      exact no_occur_in_val cat nm x _ (lowerT_upperT _)
        (hpair_nm x hx (fun he => hstill (he ▸ hxs)))
  have h5 : occursB "','".toList m.expansion = false := by
    rw [hexp]
    exact occursB_false_of_no_head '\'' [',', '\''] (segVal cat nm)
      (fun c hc => (alnum_ne_special c (hv_a c hc)).2.2.2.1)
  show (if occursB "','".toList m.expansion = true
    then pyStrReplace (pyStrReplace (pyStrReplace (quoteSub m.expansion
        (sqT ++ braceNmT m.name ++ sqT) (unexSegs cat (nm :: still') segs))
        m.expansion (braceNmT m.name))
        (lowerT m.expansion) (braceNmT m.name))
        (upperT m.expansion) (braceNmT m.name)
        |> (fun t2 => pyStrReplace t2 (commaVariant m.expansion) (braceNmT m.name))
    else pyStrReplace (pyStrReplace (pyStrReplace (quoteSub m.expansion
        (sqT ++ braceNmT m.name ++ sqT) (unexSegs cat (nm :: still') segs))
        m.expansion (braceNmT m.name))
        (lowerT m.expansion) (braceNmT m.name))
        (upperT m.expansion) (braceNmT m.name)) = unexSegs cat still' segs
  rw [if_neg (by rw [h5]; exact Bool.false_ne_true), h1, h2, h3, h4]

theorem normSegs_cons (s : Seg) (t : List Seg) :
    normSegs (s :: t) = segNormText s ++ normSegs t := by
  simp [normSegs]

theorem unexSegs_nil_still (cat : Catalog) (segs : List Seg) :
    unexSegs cat [] segs = normSegs segs := by
  induction segs with
  | nil => rfl
  | cons s t ih =>
    rw [unexSegs_cons, normSegs_cons, ih]
    congr 1

theorem expSegs_eq_unexSegs (cat : Catalog) (done still : List String) :
    ∀ segs : List Seg, (∀ nm ∈ refNames segs, nm ∈ done) →
    (∀ nm ∈ refNames segs, nm ∈ still) →
    expSegs cat done segs = unexSegs cat still segs := by
  intro segs
  induction segs with
  | nil => intro _ _; rfl
  | cons s t ih =>
    intro h1 h2
    rw [expSegs_cons, unexSegs_cons,
      ih (fun nm hnm => h1 nm (refNames_mem_cons s t nm hnm))
        (fun nm hnm => h2 nm (refNames_mem_cons s t nm hnm))]
    congr 1
    cases s with
    | lit c => rfl
    | braced nm =>
      have hm : nm ∈ refNames (Seg.braced nm :: t) := by
        rw [refNames_cons_braced]; exact List.mem_cons_self _ _
      show (if nm ∈ done then segVal cat nm else braceRefT nm)
        = (if nm ∈ still then segVal cat nm else braceNmT nm)
      rw [if_pos (h1 nm hm), if_pos (h2 nm hm)]
    | bare nm =>
      have hm : nm ∈ refNames (Seg.bare nm :: t) := by
        rw [refNames_cons_bare]; exact List.mem_cons_self _ _
      show (if nm ∈ done then segVal cat nm else bareRefT nm)
        = (if nm ∈ still then segVal cat nm else braceNmT nm)
      rw [if_pos (h1 nm hm), if_pos (h2 nm hm)]

theorem unex_fold (cat : Catalog) (segs : List Seg)
    (hl : segs.all segLitOk = true) (hadj : noAdjacentRefs segs = true)
    (hn : ∀ x ∈ refNames segs, nameOk x = true)
    (hvne : ∀ x ∈ refNames segs, segVal cat x ≠ [])
    (hva : ∀ x ∈ refNames segs, ∀ c ∈ segVal cat x, isAlnumA c = true)
    (hocc : ∀ x ∈ refNames segs,
      occursB (lowerT (segVal cat x)) (lowerT (normSegs segs)) = false)
    (hpair : ∀ a ∈ refNames segs, ∀ b ∈ refNames segs, a ≠ b →
      occursB (lowerT (segVal cat a)) (lowerT (segVal cat b)) = false) :
    ∀ ms : List MacroDef, (ms.map MacroDef.name).Nodup →
    (∀ m ∈ ms, m.name ∈ refNames segs ∧ m.expansion = segVal cat m.name) →
    ms.foldl unexOneMac (unexSegs cat (ms.map MacroDef.name) segs)
      = unexSegs cat [] segs := by
  intro ms
  induction ms with
  | nil => intro _ _; rfl
  | cons m rest ih =>
    intro hnd hm
    rw [List.map_cons] at hnd
    have hnd' := List.nodup_cons.mp hnd
    have hmem := (hm m (List.mem_cons_self _ _)).1
    have hexp := (hm m (List.mem_cons_self _ _)).2
    rw [List.map_cons, List.foldl_cons,
      unexOneMac_clean cat segs (rest.map MacroDef.name) m m.name rfl hexp hmem
        hnd'.1 hl hadj hn hvne hva (hocc m.name hmem)
        (fun x hx hne => hpair m.name hmem x hx (Ne.symm hne))]
    exact ih hnd'.2 (fun m' hm' => hm m' (List.mem_cons_of_mem _ hm'))

theorem roundTripSafe_parts (cat : Catalog) (segs : List Seg)
    (h : roundTripSafe cat segs = true) :
    segs.all segLitOk = true ∧ noAdjacentRefs segs = true
    ∧ (∀ x ∈ refNames segs, nameOk x = true)
    ∧ (∀ x ∈ refNames segs, (lookupCat cat (catKey x)).isSome = true)
    ∧ (∀ x ∈ refNames segs, segVal cat x ≠ [])
    ∧ (∀ x ∈ refNames segs, ∀ c ∈ segVal cat x, isAlnumA c = true)
    ∧ (∀ x ∈ refNames segs,
        occursB (lowerT (segVal cat x)) (lowerT (normSegs segs)) = false)
    ∧ (∀ a ∈ refNames segs, ∀ b ∈ refNames segs, a ≠ b →
        isPfx a.toList b.toList = false)
    ∧ (∀ a ∈ refNames segs, ∀ b ∈ refNames segs, a ≠ b →
        occursB (lowerT (segVal cat a)) (lowerT (segVal cat b)) = false)
    ∧ occursB "__DEFAULT_DATABASE__.".toList (normSegs segs) = false := by
  unfold roundTripSafe valOk at h
  simp only [Bool.and_eq_true, and_assoc, List.all_eq_true, Bool.or_eq_true,
    Bool.not_eq_true', decide_eq_true_eq] at h
  obtain ⟨h1, h2, h3, h4⟩ := h
  refine ⟨List.all_eq_true.mpr h1, h2, fun x hx => (h3 x hx).1, fun x hx => (h3 x hx).2.1, ?_,
    fun x hx => (h3 x hx).2.2.2.1, fun x hx => (h3 x hx).2.2.2.2.1,
    fun a ha b hb hne => (((h3 a ha).2.2.2.2.2 b hb).resolve_left hne).1,
    fun a ha b hb hne => (((h3 a ha).2.2.2.2.2 b hb).resolve_left hne).2, h4⟩
  intro x hx hcon
  have he := (h3 x hx).2.2.1
  rw [hcon] at he
  exact absurd he (by decide)

theorem defs_map_name (lenient : Text → Bool) (cat : Catalog) :
    ∀ l : List String,
      (l.map (fun nm => mkMacroDef lenient nm ((lookupCat cat (catKey nm)).getD []))).map
        MacroDef.name = l := by
  intro l
  induction l with
  | nil => rfl
  | cons a t ih =>
    simp only [List.map_cons]
    rw [ih]
    rfl

/-- C1: on any catalog and segment text satisfying the decidable
well-formedness predicate `roundTripSafe` (sane non-alphanumeric literals,
separated references, usable names, configured nonempty alphanumeric values
that collide neither with the text nor with each other, no name a prefix of
another, no `__DEFAULT_DATABASE__.` marker), running `expand` and then the
text-restoration part of `unexpand` returns exactly the normalised form of the
input, with every reference rewritten to `\x7bNAME\x7d`. -/
theorem C1_roundtrip (alphabet : Text) (rng : Rng) (lenient : Text → Bool)
    (cat : Catalog) (segs : List Seg) (h : roundTripSafe cat segs = true) :
    unexpandBody (expandRun alphabet rng lenient cat (renderSegs segs)).usedDefs
      (expandRun alphabet rng lenient cat (renderSegs segs)).text = normSegs segs := by
  obtain ⟨h1, h2, hn, hlook, hvne, hva, hocc, hpfx, hpair, hmark⟩ :=
    roundTripSafe_parts cat segs h
  obtain ⟨ns, hnd, hns, heq⟩ :=
    expandRun_clean alphabet rng lenient cat segs h1 h2 hn hlook hvne hva hocc hpfx hpair
  rw [heq]
  show pyStrReplace
      (List.foldl unexOneMac (expSegs cat ns.reverse segs)
        (stableSort (fun a b : MacroDef => decide (b.expansion.length ≤ a.expansion.length))
          (ns.map (fun nm => mkMacroDef lenient nm ((lookupCat cat (catKey nm)).getD [])))))
      "__DEFAULT_DATABASE__.".toList [] = normSegs segs
  have hperm := stableSort_perm
    (fun a b : MacroDef => decide (b.expansion.length ≤ a.expansion.length))
    (ns.map (fun nm => mkMacroDef lenient nm ((lookupCat cat (catKey nm)).getD [])))
  have hmap_perm : (List.map MacroDef.name
      (stableSort (fun a b : MacroDef => decide (b.expansion.length ≤ a.expansion.length))
        (ns.map (fun nm => mkMacroDef lenient nm ((lookupCat cat (catKey nm)).getD []))))).Perm
      ns := by
    have hp2 := hperm.map MacroDef.name
    rw [defs_map_name lenient cat ns] at hp2
    exact hp2
  have hprops : ∀ m ∈ stableSort
      (fun a b : MacroDef => decide (b.expansion.length ≤ a.expansion.length))
      (ns.map (fun nm => mkMacroDef lenient nm ((lookupCat cat (catKey nm)).getD []))),
      m.name ∈ refNames segs ∧ m.expansion = segVal cat m.name := by
    intro m hm
    obtain ⟨nm, hnm, rfl⟩ := List.mem_map.mp (hperm.mem_iff.mp hm)
    exact ⟨(hns nm).mp hnm, rfl⟩
  have hbridge : expSegs cat ns.reverse segs
      = unexSegs cat (List.map MacroDef.name
          (stableSort (fun a b : MacroDef => decide (b.expansion.length ≤ a.expansion.length))
            (ns.map (fun nm => mkMacroDef lenient nm ((lookupCat cat (catKey nm)).getD [])))))
        segs :=
    expSegs_eq_unexSegs cat _ _ segs
      (fun nm hnm => List.mem_reverse.mpr ((hns nm).mpr hnm))
      (fun nm hnm => hmap_perm.mem_iff.mpr ((hns nm).mpr hnm))
  rw [hbridge, unex_fold cat segs h1 h2 hn hvne hva hocc hpair _
      (hmap_perm.nodup_iff.mpr hnd) hprops,
    unexSegs_nil_still, pyStrReplace_ne_nil _ _ _ (by decide)]
  exact pyReplace_not_occurs _ _ _ hmark

/-- C1, counterexample to the unconditional claim: in the catalog
`\x7b DB ↦ PRODDB, DBX ↦ OTHER \x7d` with text `- $DB $DBX`, every reference
is resolvable and no macro value occurs (case-insensitively) in the text or in
another macro's value, yet expand rewrites the bare `$DB` inside `$DBX`
(plain `str.replace`, name-prefix aliasing) and the round trip returns
`- \x7bDB\x7d \x7bDB\x7dX` instead of the normalised `- \x7bDB\x7d \x7bDBX\x7d`. -/
theorem C1_counterexample :
    ((refNames [Seg.lit '-', Seg.lit ' ', Seg.bare "DB", Seg.lit ' ', Seg.bare "DBX"]).all
        (fun nm => (lookupCat [(catKey "DB", "PRODDB".toList), (catKey "DBX", "OTHER".toList)]
          (catKey nm)).isSome) = true)
    ∧ ((refNames [Seg.lit '-', Seg.lit ' ', Seg.bare "DB", Seg.lit ' ', Seg.bare "DBX"]).all
        (fun nm =>
          !occursB
            (lowerT (segVal [(catKey "DB", "PRODDB".toList), (catKey "DBX", "OTHER".toList)] nm))
            (lowerT (renderSegs
              [Seg.lit '-', Seg.lit ' ', Seg.bare "DB", Seg.lit ' ', Seg.bare "DBX"]))
          && (refNames [Seg.lit '-', Seg.lit ' ', Seg.bare "DB", Seg.lit ' ',
                Seg.bare "DBX"]).all
            (fun nm2 => nm = nm2
              || !occursB
                (lowerT (segVal [(catKey "DB", "PRODDB".toList),
                  (catKey "DBX", "OTHER".toList)] nm))
                (lowerT (segVal [(catKey "DB", "PRODDB".toList),
                  (catKey "DBX", "OTHER".toList)] nm2)))) = true)
    ∧ unexpandBody
        (expandRun [] (fun _ => 0) (fun _ => false)
          [(catKey "DB", "PRODDB".toList), (catKey "DBX", "OTHER".toList)]
          (renderSegs [Seg.lit '-', Seg.lit ' ', Seg.bare "DB", Seg.lit ' ',
            Seg.bare "DBX"])).usedDefs
        (expandRun [] (fun _ => 0) (fun _ => false)
          [(catKey "DB", "PRODDB".toList), (catKey "DBX", "OTHER".toList)]
          (renderSegs [Seg.lit '-', Seg.lit ' ', Seg.bare "DB", Seg.lit ' ',
            Seg.bare "DBX"])).text
      ≠ normSegs [Seg.lit '-', Seg.lit ' ', Seg.bare "DB", Seg.lit ' ', Seg.bare "DBX"] := by
  decide

theorem C1_roundtrip_witness :
    roundTripSafe [(catKey "DB", "PRODDB".toList)]
        [Seg.lit '-', Seg.lit ' ', Seg.braced "DB", Seg.lit ' ', Seg.bare "DB"] = true
    ∧ unexpandBody
        (expandRun [] (fun _ => 0) (fun _ => false) [(catKey "DB", "PRODDB".toList)]
          (renderSegs [Seg.lit '-', Seg.lit ' ', Seg.braced "DB", Seg.lit ' ',
            Seg.bare "DB"])).usedDefs
        (expandRun [] (fun _ => 0) (fun _ => false) [(catKey "DB", "PRODDB".toList)]
          (renderSegs [Seg.lit '-', Seg.lit ' ', Seg.braced "DB", Seg.lit ' ',
            Seg.bare "DB"])).text
      = normSegs [Seg.lit '-', Seg.lit ' ', Seg.braced "DB", Seg.lit ' ', Seg.bare "DB"] :=
  ⟨by decide, C1_roundtrip [] (fun _ => 0) (fun _ => false) [(catKey "DB", "PRODDB".toList)]
    [Seg.lit '-', Seg.lit ' ', Seg.braced "DB", Seg.lit ' ', Seg.bare "DB"] (by decide)⟩
